import Mathlib

/-!
Verification development for the answer-summarizer core of the ui-be
repository.  The JavaScript sources (HTTPServer.mjs summarizer section and
the annotation classifier module) are shallowly embedded: JS objects become
an explicit JSON value type, JS object maps become association lists that
preserve insertion order, the hash-sum content hash becomes a free injective
constructor, and JS numbers become rationals.  Functions imported from
modules that are not part of the sources (common.mjs, biolink-model.mjs,
evidence.mjs, chebi.mjs) are either taken as parameters or modelled from the
specification; each such definition carries a doc comment saying so.
-/

set_option maxHeartbeats 4000000

/-- Modelled from the spec: the hash-sum content hash used by pathToKey.
Keys flowing through the summarizer are either plain strings (canonical
CURIEs), the JS value false (a canonicalization miss), or content hashes of
lists of keys.  The spec says two paths with the same key are identical, so
the hash is modelled as a free injective constructor. -/
inductive HKey where
  | str (s : String)
  | fls
  | hash (l : List HKey)

mutual

def hkDecEq : (a b : HKey) → Decidable (a = b)
  | .str a, .str b =>
    if h : a = b then .isTrue (by rw [h]) else .isFalse (by intro hh; cases hh; exact h rfl)
  | .str _, .fls => .isFalse nofun
  | .str _, .hash _ => .isFalse nofun
  | .fls, .str _ => .isFalse nofun
  | .fls, .fls => .isTrue rfl
  | .fls, .hash _ => .isFalse nofun
  | .hash _, .str _ => .isFalse nofun
  | .hash _, .fls => .isFalse nofun
  | .hash a, .hash b =>
    match hkDecEqList a b with
    | .isTrue h => .isTrue (by rw [h])
    | .isFalse h => .isFalse (by intro hh; cases hh; exact h rfl)

def hkDecEqList : (a b : List HKey) → Decidable (a = b)
  | [], [] => .isTrue rfl
  | [], _ :: _ => .isFalse nofun
  | _ :: _, [] => .isFalse nofun
  | a :: as, b :: bs =>
    match hkDecEq a b, hkDecEqList as bs with
    | .isTrue h1, .isTrue h2 => .isTrue (by rw [h1, h2])
    | .isFalse h1, _ => .isFalse (by intro hh; cases hh; exact h1 rfl)
    | .isTrue _, .isFalse h2 => .isFalse (by intro hh; cases hh; exact h2 rfl)

end

instance : DecidableEq HKey := hkDecEq

/-- String comparison, written through the linear order on strings (the
character-list order underlying it); this models the JS relational
operators on strings. -/
def strCmp (a b : String) : Ordering :=
  if a.data < b.data then .lt else if b.data < a.data then .gt else .eq

mutual

/-- A total comparison on keys.  On plain strings it is the JS string order;
across the constructors it is an arbitrary linear extension, which is a
legitimate model because the hash contents of hash-sum are unspecified. -/
def hkCmp : HKey → HKey → Ordering
  | .str a, .str b => strCmp a b
  | .str _, .fls => .lt
  | .str _, .hash _ => .lt
  | .fls, .str _ => .gt
  | .fls, .fls => .eq
  | .fls, .hash _ => .lt
  | .hash _, .str _ => .gt
  | .hash _, .fls => .gt
  | .hash a, .hash b => hkCmpList a b

def hkCmpList : List HKey → List HKey → Ordering
  | [], [] => .eq
  | [], _ :: _ => .lt
  | _ :: _, [] => .gt
  | a :: as, b :: bs =>
    match hkCmp a b with
    | .lt => .lt
    | .gt => .gt
    | .eq => hkCmpList as bs

end

/-- The strict order on keys induced by hkCmp; models the JS operator < on
key strings. -/
def hkLt (a b : HKey) : Bool := hkCmp a b == .lt

/-- JS-style dedup via a Set: keeps the first occurrence of each element in
order.  Models the JS idiom new Set(array). -/
def jsDedup {α : Type} [DecidableEq α] (l : List α) : List α :=
  l.foldl (fun acc a => if a ∈ acc then acc else acc ++ [a]) []

/-- Modelled from the spec: lookup in a JS object, association list with
insertion order preserved (common.mjs jsonGet). -/
def aGet {κ α : Type} [DecidableEq κ] (m : List (κ × α)) (k : κ) : Option α :=
  (m.find? (fun e => decide (e.1 = k))).map (fun e => e.2)

/-- Lookup with a fallback value. -/
def aGetD {κ α : Type} [DecidableEq κ] (m : List (κ × α)) (k : κ) (d : α) : α :=
  (aGet m k).getD d

/-- Modelled from the spec: assignment into a JS object (common.mjs jsonSet):
an existing key keeps its position and gets the new value, a new key is
appended at the end. -/
def aSet {κ α : Type} [DecidableEq κ] (m : List (κ × α)) (k : κ) (v : α) : List (κ × α) :=
  if (aGet m k).isSome then m.map (fun e => if e.1 = k then (k, v) else e) else m ++ [(k, v)]

/-- Modelled from the spec: common.mjs jsonSetDefaultAndGet, the part that
installs the default when the key is missing. -/
def aSetDefault {κ α : Type} [DecidableEq κ] (m : List (κ × α)) (k : κ) (v : α) : List (κ × α) :=
  if (aGet m k).isSome then m else m ++ [(k, v)]

def aKeys {κ α : Type} (m : List (κ × α)) : List κ := m.map (fun e => e.1)

def aValues {κ α : Type} (m : List (κ × α)) : List α := m.map (fun e => e.2)

/-- The JSON-like value universe for objects that flow through the
summarizer: TRAPI attribute values and the summary node and edge objects
that the rule DSL builds field by field.  JS numbers are modelled as
rationals. -/
inductive JVal where
  | null
  | undef
  | bool (b : Bool)
  | num (q : Rat)
  | str (s : String)
  | arr (l : List JVal)
  | obj (l : List (String × JVal))

mutual

def jvDecEq : (a b : JVal) → Decidable (a = b)
  | .null, .null => .isTrue rfl
  | .undef, .undef => .isTrue rfl
  | .bool a, .bool b =>
    if h : a = b then .isTrue (by rw [h]) else .isFalse (by intro hh; cases hh; exact h rfl)
  | .num a, .num b =>
    if h : a = b then .isTrue (by rw [h]) else .isFalse (by intro hh; cases hh; exact h rfl)
  | .str a, .str b =>
    if h : a = b then .isTrue (by rw [h]) else .isFalse (by intro hh; cases hh; exact h rfl)
  | .arr a, .arr b =>
    match jvDecEqList a b with
    | .isTrue h => .isTrue (by rw [h])
    | .isFalse h => .isFalse (by intro hh; cases hh; exact h rfl)
  | .obj a, .obj b =>
    match jvDecEqPairs a b with
    | .isTrue h => .isTrue (by rw [h])
    | .isFalse h => .isFalse (by intro hh; cases hh; exact h rfl)
  | .null, .undef => .isFalse nofun
  | .null, .bool _ => .isFalse nofun
  | .null, .num _ => .isFalse nofun
  | .null, .str _ => .isFalse nofun
  | .null, .arr _ => .isFalse nofun
  | .null, .obj _ => .isFalse nofun
  | .undef, .null => .isFalse nofun
  | .undef, .bool _ => .isFalse nofun
  | .undef, .num _ => .isFalse nofun
  | .undef, .str _ => .isFalse nofun
  | .undef, .arr _ => .isFalse nofun
  | .undef, .obj _ => .isFalse nofun
  | .bool _, .null => .isFalse nofun
  | .bool _, .undef => .isFalse nofun
  | .bool _, .num _ => .isFalse nofun
  | .bool _, .str _ => .isFalse nofun
  | .bool _, .arr _ => .isFalse nofun
  | .bool _, .obj _ => .isFalse nofun
  | .num _, .null => .isFalse nofun
  | .num _, .undef => .isFalse nofun
  | .num _, .bool _ => .isFalse nofun
  | .num _, .str _ => .isFalse nofun
  | .num _, .arr _ => .isFalse nofun
  | .num _, .obj _ => .isFalse nofun
  | .str _, .null => .isFalse nofun
  | .str _, .undef => .isFalse nofun
  | .str _, .bool _ => .isFalse nofun
  | .str _, .num _ => .isFalse nofun
  | .str _, .arr _ => .isFalse nofun
  | .str _, .obj _ => .isFalse nofun
  | .arr _, .null => .isFalse nofun
  | .arr _, .undef => .isFalse nofun
  | .arr _, .bool _ => .isFalse nofun
  | .arr _, .num _ => .isFalse nofun
  | .arr _, .str _ => .isFalse nofun
  | .arr _, .obj _ => .isFalse nofun
  | .obj _, .null => .isFalse nofun
  | .obj _, .undef => .isFalse nofun
  | .obj _, .bool _ => .isFalse nofun
  | .obj _, .num _ => .isFalse nofun
  | .obj _, .str _ => .isFalse nofun
  | .obj _, .arr _ => .isFalse nofun

def jvDecEqList : (a b : List JVal) → Decidable (a = b)
  | [], [] => .isTrue rfl
  | [], _ :: _ => .isFalse nofun
  | _ :: _, [] => .isFalse nofun
  | a :: as, b :: bs =>
    match jvDecEq a b, jvDecEqList as bs with
    | .isTrue h1, .isTrue h2 => .isTrue (by rw [h1, h2])
    | .isFalse h1, _ => .isFalse (by intro hh; cases hh; exact h1 rfl)
    | .isTrue _, .isFalse h2 => .isFalse (by intro hh; cases hh; exact h2 rfl)

def jvDecEqPairs : (a b : List (String × JVal)) → Decidable (a = b)
  | [], [] => .isTrue rfl
  | [], _ :: _ => .isFalse nofun
  | _ :: _, [] => .isFalse nofun
  | (k1, v1) :: as, (k2, v2) :: bs =>
    if hk : k1 = k2 then
      match jvDecEq v1 v2, jvDecEqPairs as bs with
      | .isTrue h1, .isTrue h2 => .isTrue (by rw [hk, h1, h2])
      | .isFalse h1, _ => .isFalse (by intro hh; cases hh; exact h1 rfl)
      | .isTrue _, .isFalse h2 => .isFalse (by intro hh; cases hh; exact h2 rfl)
    else
      .isFalse (by intro hh; cases hh; exact hk rfl)

end

instance : DecidableEq JVal := jvDecEq

/-- JS truthiness on modelled values: null, undefined, false, 0 and the
empty string are falsy; arrays and objects (even empty ones) are truthy. -/
def truthy : JVal → Bool
  | .null => false
  | .undef => false
  | .bool b => b
  | .num q => decide (q ≠ 0)
  | .str s => decide (s ≠ "")
  | .arr _ => true
  | .obj _ => true

/-- JS string coercion.  In every reachable state of the summarizer this is
applied to string values only; the remaining branches model the standard JS
coercions of the primitives. -/
def jvToString : JVal → String
  | .str s => s
  | .null => "null"
  | .undef => "undefined"
  | .bool true => "true"
  | .bool false => "false"
  | .num _ => "number"
  | .arr _ => "array"
  | .obj _ => "object"

/-- Modelled from the spec: common.mjs jsonGet without a fallback; a missing
key reads as undefined. -/
def jvGet (v : JVal) (k : String) : JVal :=
  match v with
  | .obj l => aGetD l k .undef
  | _ => (.undef)

/-- Modelled from the spec: common.mjs jsonGet with a fallback value. -/
def jvGetD (v : JVal) (k : String) (d : JVal) : JVal :=
  match v with
  | .obj l => aGetD l k d
  | _ => d

/-- Does the object carry the key at all (common.mjs jsonHasKey). -/
def jvHasKey (v : JVal) (k : String) : Bool :=
  match v with
  | .obj l => (aGet l k).isSome
  | _ => false

/-- Modelled from the spec: common.mjs jsonSet on an object. -/
def jvSet (v : JVal) (k : String) (w : JVal) : JVal :=
  match v with
  | .obj l => .obj (aSet l k w)
  | x => x

/-- The JS delete operator on an object field. -/
def jvDelete (v : JVal) (k : String) : JVal :=
  match v with
  | .obj l => .obj (l.filter (fun e => decide (e.1 ≠ k)))
  | x => x

/-- Modelled from the spec: common.mjs jsonGetFromKpath with fallback; the
walk stops with the fallback at the first missing key. -/
def jvGetKpath (v : JVal) (ks : List String) (d : JVal) : JVal :=
  match ks with
  | [] => v
  | k :: ks =>
    match v with
    | .obj l =>
      match aGet l k with
      | some w => jvGetKpath w ks d
      | none => d
    | _ => d

/-- Modelled from the spec: common.mjs jsonSetFromKpath; in the summarizer
every use has a single-key path. -/
def jvSetKpath (v : JVal) (ks : List String) (w : JVal) : JVal :=
  match ks with
  | [] => v
  | [k] => jvSet v k w
  | k :: ks => jvSet v k (jvSetKpath (jvGetD v k (.obj [])) ks w)

/-- Modelled from the spec: common.mjs jsonUpdate. -/
def jvUpdate (v : JVal) (k : String) (f : JVal → JVal) : JVal :=
  jvSet v k (f (jvGet v k))

/-- Modelled from the spec: common.mjs jsonMultiSet. -/
def jvMultiSet (v : JVal) (kvs : List (String × JVal)) : JVal :=
  kvs.foldl (fun v kv => jvSet v kv.1 kv.2) v

/-- common.mjs isArray, on modelled values. -/
def isArrayJV : JVal → Bool
  | .arr _ => true
  | _ => false

/-- common.mjs isArrayEmpty; only reachable on arrays. -/
def isArrayEmptyJV : JVal → Bool
  | .arr [] => true
  | _ => false

/-- The JS array concat used by the aggregation rules. -/
def jvConcat : JVal → JVal → JVal
  | .arr a, .arr b => .arr (a ++ b)
  | a, _ => a

/-- The elements of an array value; non-arrays contribute nothing (they are
unreachable at the call sites). -/
def jvElems : JVal → List JVal
  | .arr l => l
  | _ => []

/-- The JS spread of a value into a list: arrays spread their elements and
strings spread their characters. -/
def jvSpread : JVal → List JVal
  | .arr l => l
  | .str s => s.data.map (fun c => .str (String.mk [c]))
  | _ => []

/-- objRemoveDuplicates from the source: every array-valued field of the
object is deduplicated through a JS Set, keeping first occurrences.  Set
identity of primitive values is structural; the model also deduplicates
structurally equal non-primitive elements, which the reachable fields (lists
of strings) never distinguish. -/
def objRemoveDuplicates (v : JVal) : JVal :=
  match v with
  | .obj l => .obj (l.map (fun e => (e.1, match e.2 with | .arr xs => .arr (jsDedup xs) | x => x)))
  | x => x

/-- Conversion of a key value (a canonical CURIE string or the JS false of a
canonicalization miss) into the modelled value universe. -/
def hkeyJVal : HKey → JVal
  | .str s => .str s
  | .fls => .bool false
  | .hash _ => (.undef)

/-- Conversion of a value into a key as hashed by pathToKey; in reachable
states the value is a string or the JS false. -/
def jvHKey : JVal → HKey
  | .str s => .str s
  | .bool false => .fls
  | x => .str (jvToString x)

/-- The external biolink and evidence reference data loaded at startup
(biolink-model.mjs and evidence.mjs are not part of the sources).  The core
is parameterized over it; a concrete instance modelled from the spec is
given below for witnesses. -/
structure BiolinkEnv where
  sanitizeBiolinkElement : String → String
  invertBiolinkPredicate : String → String
  isBiolinkPredicate : String → Bool
  isValidId : JVal → Bool
  idToTypeAndUrl : String → String × String

/-- Character-list test that one string starts with another, used by the
spec-modelled helpers so they evaluate inside the kernel. -/
def charsStart : List Char → List Char → Bool
  | _, [] => true
  | [], _ :: _ => false
  | c :: cs, d :: ds => c = d && charsStart cs ds

def strStarts (s pfx : String) : Bool := charsStart s.data pfx.data

/-- Modelled from the spec: biolink-model.mjs sanitizeBiolinkElement strips
the biolink prefix and normalizes spacing (underscores become spaces). -/
def sanitizeModel (s : String) : String :=
  let t := if strStarts s "biolink:" then String.mk (s.data.drop 8) else s
  String.mk (t.data.map (fun c => if c = '_' then ' ' else c))

/-- Modelled from the spec: biolink-model.mjs invertBiolinkPredicate returns
the registered inverse, the predicate itself when it is symmetric, and an
unknown predicate unchanged. -/
def invertTable : List (String × String) :=
  [("treats", "treated by"), ("affects", "affected by"), ("regulates", "regulated by")]

def invertModel (p : String) : String :=
  match aGet invertTable p with
  | some q => q
  | none =>
    match (invertTable.find? (fun e => decide (e.2 = p))).map (fun e => e.1) with
    | some q => q
    | none => p

/-- Modelled from the spec: biolink-model.mjs isBiolinkPredicate tests
membership in the allowed predicate set; the model accepts the sanitized
forms of the inverse table plus the raw biolink-tagged spellings. -/
def isPredModel (p : String) : Bool :=
  let q := sanitizeModel p
  (invertTable.any (fun e => e.1 = q || e.2 = q))

/-- Modelled from the spec: evidence.mjs isValidId classifies evidence ids
against the configured id patterns; publication ids are PMID, PMC, DOI or
NCT prefixed strings. -/
def isValidIdModel : JVal → Bool
  | .str s => strStarts s "PMID:" || strStarts s "PMC" || strStarts s "DOI:" || strStarts s "NCT"
  | _ => false

/-- Modelled from the spec: evidence.mjs idToTypeAndUrl resolves an id to an
evidence type and a url; both components are never empty. -/
def idToTypeAndUrlModel (id : String) : String × String :=
  if strStarts id "NCT" then ("trial", "https://clinicaltrials.gov/study/" ++ id)
  else ("publication", "https://pubmed.ncbi.nlm.nih.gov/" ++ id)

/-- The concrete environment used by witnesses and counterexamples. -/
def blEnv : BiolinkEnv :=
  { sanitizeBiolinkElement := sanitizeModel
    invertBiolinkPredicate := invertModel
    isBiolinkPredicate := isPredModel
    isValidId := isValidIdModel
    idToTypeAndUrl := idToTypeAndUrlModel }

/-- A TRAPI attribute: attribute_type_id and value. -/
structure KAttr where
  id : String
  value : JVal
deriving DecidableEq

/-- A TRAPI qualifier: qualifier_type_id and qualifier_value. -/
structure KQual where
  ty : String
  val : String
deriving DecidableEq

/-- A TRAPI knowledge-graph node. -/
structure Knode where
  name : JVal
  categories : JVal
  attributes : Option (List KAttr)
deriving DecidableEq

/-- A TRAPI knowledge-graph edge. -/
structure Kedge where
  subject : String
  object : String
  predicate : String
  qualifiers : Option (List KQual)
  attributes : Option (List KAttr)
deriving DecidableEq

/-- A TRAPI knowledge graph: curie-keyed nodes and id-keyed edges. -/
structure Kgraph where
  nodes : List (String × Knode)
  edges : List (String × Kedge)
deriving DecidableEq

/-- A TRAPI result: node and edge bindings (binding key to list of bound
ids) and an optional normalized score. -/
structure TrapiResult where
  node_bindings : List (String × List String)
  edge_bindings : List (String × List String)
  normalized_score : Option Rat
deriving DecidableEq

/-- A TRAPI message as consumed by the summarizer. -/
structure TrapiMessage where
  knowledge_graph : Kgraph
  results : List TrapiResult
deriving DecidableEq

/-- One agent answer: the reporting agent and its message. -/
structure Answer where
  agent : String
  message : TrapiMessage
deriving DecidableEq

def subjectKey : String := "sn"

def objectKey : String := "on"

/-- The JS object view of a TRAPI qualifier. -/
def kqualJVal (q : KQual) : JVal :=
  .obj [("qualifier_type_id", .str q.ty), ("qualifier_value", .str q.val)]

/-- The JS object view of a TRAPI attribute. -/
def kattrJVal (a : KAttr) : JVal :=
  .obj [("attribute_type_id", .str a.id), ("value", a.value)]

/-- The JS object view of a TRAPI edge; an absent qualifiers or attributes
field is genuinely absent from the object. -/
def kedgeJVal (e : Kedge) : JVal :=
  .obj ([("subject", .str e.subject), ("object", .str e.object), ("predicate", .str e.predicate)]
    ++ (match e.qualifiers with
        | some qs => [("qualifiers", JVal.arr (qs.map kqualJVal))]
        | none => [])
    ++ (match e.attributes with
        | some l => [("attributes", JVal.arr (l.map kattrJVal))]
        | none => []))

/-- The JS object view of a TRAPI node. -/
def knodeJVal (n : Knode) : JVal :=
  .obj ([("name", n.name), ("categories", n.categories)]
    ++ (match n.attributes with
        | some l => [("attributes", JVal.arr (l.map kattrJVal))]
        | none => []))

def kedgeSubject (kedge : JVal) : JVal := jvGet kedge "subject"

def kedgeObject (kedge : JVal) : JVal := jvGet kedge "object"

def kedgePredicate (kedge : JVal) : JVal := jvGet kedge "predicate"

/-- kedgeToQualifiers from the source: the qualifier list of the edge read
into a sanitized key-value map; false (here none) when the edge has no
qualifiers field or a falsy one. -/
def kedgeToQualifiers (env : BiolinkEnv) (kedge : JVal) : Option (List (String × String)) :=
  let kq := jvGetD kedge "qualifiers" (.bool false)
  if !truthy kq then none
  else some ((jvElems kq).foldl
    (fun m q => aSet m (env.sanitizeBiolinkElement (jvToString (jvGet q "qualifier_type_id")))
      (env.sanitizeBiolinkElement (jvToString (jvGet q "qualifier_value")))) [])

/-- qualifiersToString from the source: the values of the direction, aspect,
form or variant, part and derivative qualifiers of the given type, in that
order, joined by spaces, where every piece after the first carries its fixed
piece marker. -/
def qualifiersToString (ty : String) (qualifiers : List (String × String)) : String :=
  let pfxList : List String := ["", "", "of a ", "of the ", ""]
  let qualifierKeys : List String := ["direction", "aspect", "form or variant", "part", "derivative"]
  let qualifierValues := qualifierKeys.map (fun key => aGet qualifiers (ty ++ " " ++ key ++ " qualifier"))
  (List.zip qualifierValues pfxList).foldl
    (fun qualifierStr qv =>
      match qv.1 with
      | some v =>
        if v ≠ "" then
          if qualifierStr ≠ "" then qualifierStr ++ " " ++ qv.2 ++ v else v
        else qualifierStr
      | none => qualifierStr) ""

/-- finalizeQualifiedPredicate from the source. -/
def finalizeQualifiedPredicate (pfx predicate sfx : String) : String :=
  (if pfx ≠ "" then pfx ++ " " else "") ++ predicate ++ (if sfx ≠ "" then " " ++ sfx ++ " of" else "")

/-- edgeToQualifiedPredicate from the source, over the JS object view of an
edge (the source applies it both to raw TRAPI edges and to merged summary
edge objects). -/
def edgeToQualifiedPredicate (env : BiolinkEnv) (kedge : JVal) (invert : Bool) : String :=
  let predicate := jvToString (kedgePredicate kedge)
  match kedgeToQualifiers env kedge with
  | none => if invert then env.invertBiolinkPredicate predicate else predicate
  | some qualifiers =>
    let subjectQualifierStr := qualifiersToString "subject" qualifiers
    let objectQualifierStr := qualifiersToString "object" qualifiers
    let predicate :=
      match aGet qualifiers "qualified predicate" with
      | some qp => if qp ≠ "" then qp else predicate
      | none => predicate
    if invert then
      finalizeQualifiedPredicate objectQualifierStr (env.invertBiolinkPredicate predicate) subjectQualifierStr
    else
      finalizeQualifiedPredicate subjectQualifierStr predicate objectQualifierStr

/-- Modelled from the spec: biolink-model.mjs tagBiolink. -/
def tagBiolink (name : String) : String := "biolink:" ++ name

def attrId (attr : JVal) : JVal := jvGet attr "attribute_type_id"

def attrValue (attr : JVal) : JVal := jvGet attr "value"

/-- Modelled from the spec: common.mjs setUnion, the union of a list of JS
Sets in insertion order. -/
def setUnion (sets : List (List String)) : List String := jsDedup sets.flatten

def isCurieAlias (attr : JVal) : Bool :=
  attrId attr == .str (tagBiolink "same_as") || attrId attr == .str (tagBiolink "xref")

/-- The alias bag of one node: the curie itself followed by the spread
values of its same_as and xref attributes, as a JS Set. -/
def nodeAliasBag (curie : String) (node : Knode) : List String :=
  let attributes := (node.attributes.getD []).map kattrJVal
  jsDedup (curie :: (attributes.foldl
    (fun aliases attr =>
      if isCurieAlias attr then aliases ++ (jvSpread (attrValue attr)).map jvToString else aliases) []))

/-- One merge step of makeCanonicalNodeMapping: all bags containing the
curie are replaced by their union, pushed at the end. -/
def mergeStep (nodeSets : List (List String)) (curie : String) : List (List String) :=
  let mergeableBags := nodeSets.filter (fun s => curie ∈ s)
  let unmergedBags := nodeSets.filter (fun s => curie ∉ s)
  if mergeableBags ≠ [] then unmergedBags ++ [setUnion mergeableBags] else unmergedBags

/-- makeCanonicalNodeMapping from the source, as the underlying canonical
association: merge the alias bags over every curie, then map every member
of each final bag to the first member of that bag. -/
def canonicalAssoc (allNodes : List (List (String × Knode))) : List (String × String) :=
  let nodeSets := allNodes.foldl
    (fun acc nodes => acc ++ nodes.map (fun e => nodeAliasBag e.1 e.2)) []
  let resultCuries := (allNodes.map (fun nodes => aKeys nodes)).flatten
  let allCuries := resultCuries ++ setUnion nodeSets
  let mergedNodes := allCuries.foldl mergeStep nodeSets
  mergedNodes.foldl (fun m nodeSet => nodeSet.foldl (fun m c => aSet m c (nodeSet.headD "")) m) []

/-- The returned closure of makeCanonicalNodeMapping: a lookup that returns
false (none) for unseen curies and for a falsy canonical member. -/
def makeCanonicalNodeMapping (allNodes : List (List (String × Knode))) : String → Option String :=
  fun node => (aGet (canonicalAssoc allNodes) node).bind (fun c => if c = "" then none else some c)

/-- The canonical mapping applied as a JS function to a value (used by the
edge rules on the subject and object properties). -/
def canonJS (canon : String → Option String) (v : JVal) : JVal :=
  match canon (jvToString v) with
  | some c => .str c
  | none => .bool false

/-- The canonical mapping applied to a curie, as a key. -/
def canonHK (canon : String → Option String) (s : String) : HKey :=
  match canon s with
  | some c => .str c
  | none => .fls

/-- makeMapping from the source: the generic rule constructor of the
attribute-rule DSL.  A rule reads one property of the source object and
returns a transform on the accumulating summary object. -/
def makeMapping (key : String) (transform : JVal → JVal) (update : JVal → JVal → JVal)
    (fallback : JVal) : JVal → (JVal → JVal) :=
  fun obj =>
    let val := jvGetD obj key (.bool false)
    fun acc => update (if truthy val then transform val else fallback) acc

def aggregatePropertyUpdateWhen (v obj : JVal) (kpath : List String) (doUpdate : JVal → Bool) : JVal :=
  let cv := jvGetKpath obj kpath (.bool false)
  if doUpdate v then
    let uv := if isArrayJV v then v else .arr [v]
    jvSetKpath obj kpath (if truthy cv then jvConcat cv uv else uv)
  else if truthy cv then obj
  else jvSetKpath obj kpath (.arr [])

def aggregatePropertyUpdate (v obj : JVal) (kpath : List String) : JVal :=
  aggregatePropertyUpdateWhen v obj kpath (fun _ => true)

def renameAndTransformProperty (key : String) (kpath : List String) (transform : JVal → JVal) :
    JVal → (JVal → JVal) :=
  makeMapping key transform (fun v obj => jvSetKpath obj kpath v) .null

def transformProperty (key : String) (transform : JVal → JVal) : JVal → (JVal → JVal) :=
  renameAndTransformProperty key [key] transform

def renameProperty (key : String) (kpath : List String) : JVal → (JVal → JVal) :=
  renameAndTransformProperty key kpath id

def getProperty (key : String) : JVal → (JVal → JVal) :=
  renameProperty key [key]

def aggregatePropertyWhen (key : String) (kpath : List String) (doUpdate : JVal → Bool) :
    JVal → (JVal → JVal) :=
  makeMapping key id (fun v obj => aggregatePropertyUpdateWhen v obj kpath doUpdate) (.arr [])

def aggregateProperty (key : String) (kpath : List String) : JVal → (JVal → JVal) :=
  aggregatePropertyWhen key kpath (fun _ => true)

def areNoAttributes (attributes : JVal) : Bool :=
  attributes == .undef || attributes == .null || isArrayEmptyJV attributes

def renameAndTransformAttribute (attributeId : String) (kpath : List String)
    (transform : JVal → JVal) : JVal → (JVal → JVal) :=
  makeMapping "attributes"
    (fun attributes =>
      if areNoAttributes attributes then .null
      else
        match (jvElems attributes).find? (fun attr => attrId attr == .str attributeId) with
        | some attr => transform (attrValue attr)
        | none => .null)
    (fun v obj => jvSetKpath obj kpath v)
    .null

def aggregateAndTransformAttributes (attributeIds : List String) (tgtKey : String)
    (transform : JVal → JVal) : JVal → (JVal → JVal) :=
  makeMapping "attributes"
    (fun attributes =>
      if areNoAttributes attributes then .arr []
      else .arr ((jvElems attributes).foldl
        (fun result attr =>
          let v := if (attributeIds.map JVal.str).contains (attrId attr)
                   then attrValue attr else .arr []
          result ++ jvSpread (transform v)) []))
    (fun v obj =>
      let cv := jvGetD obj tgtKey (.bool false)
      jvSet obj tgtKey (if truthy cv then jvConcat cv v else v))
    (.arr [])

def aggregateAttributes (attributeIds : List String) (tgtKey : String) : JVal → (JVal → JVal) :=
  aggregateAndTransformAttributes attributeIds tgtKey (fun v => if isArrayJV v then v else .arr [v])

def makeSummarizeRules (rules : List (JVal → (JVal → JVal))) : JVal → List (JVal → JVal) :=
  fun obj => rules.map (fun rule => rule obj)

/-- The node rule set of creativeAnswersToSummary. -/
def nodeRules : JVal → List (JVal → JVal) :=
  makeSummarizeRules
    [ aggregateProperty "name" ["names"],
      aggregateProperty "categories" ["types"],
      aggregateAttributes [tagBiolink "xref"] "curies",
      renameAndTransformAttribute (tagBiolink "highest_FDA_approval_status") ["fda_info"]
        (fun fdaDescription => .obj [("highest_fda_approval_status", fdaDescription)]),
      aggregateAttributes [tagBiolink "description"] "descriptions",
      aggregateAttributes [tagBiolink "synonym"] "synonyms",
      aggregateAttributes [tagBiolink "same_as"] "same_as",
      aggregateAttributes [tagBiolink "IriType"] "iri_types" ]

/-- The JS split of an evidence attribute value on commas and pipes. -/
def evidenceSplit (evidence : JVal) : JVal :=
  match evidence with
  | .arr l => .arr l
  | v => .arr (((jvToString v).split (fun c => c = ',' || c = '|')).map JVal.str)

/-- The edge rule set of creativeAnswersToSummary. -/
def edgeRules (env : BiolinkEnv) (canon : String → Option String) : JVal → List (JVal → JVal) :=
  makeSummarizeRules
    [ transformProperty "predicate" (fun v => .str (env.sanitizeBiolinkElement (jvToString v))),
      getProperty "qualifiers",
      transformProperty "subject" (canonJS canon),
      transformProperty "object" (canonJS canon),
      aggregateAttributes [tagBiolink "IriType"] "iri_types",
      aggregateAttributes ["bts:sentence"] "snippets",
      aggregateAndTransformAttributes
        [tagBiolink "supporting_document", tagBiolink "Publication", tagBiolink "publications"]
        "publications" evidenceSplit ]

/-- A reduced graph over one TRAPI result. -/
structure Rgraph where
  nodes : List String
  edges : List String
deriving DecidableEq

def kgNode (kgraph : Kgraph) (id : String) : Option Knode := aGet kgraph.nodes id

def kgEdge (kgraph : Kgraph) (id : String) : Option Kedge := aGet kgraph.edges id

/-- The JS object view of the knowledge-graph edge bound by an edge id; the
missing-edge branch is unreachable in the states the summarizer builds. -/
def jvOfKgEdge (kgraph : Kgraph) (redge : String) : JVal :=
  match kgEdge kgraph redge with
  | some e => kedgeJVal e
  | none => .obj []

/-- The JS object view of the knowledge-graph node bound by a curie. -/
def jvOfKgNode (kgraph : Kgraph) (rnode : String) : JVal :=
  match kgNode kgraph rnode with
  | some n => knodeJVal n
  | none => .obj []

/-- getBindingId from the source: the id of the first binding under the key;
a missing key reads as false.  An empty binding list, which would fault in
the source, is treated as missing. -/
def getBindingId (bindings : List (String × List String)) (key : String) : Option String :=
  match aGet bindings key with
  | none => none
  | some ids => ids.head?

/-- flattenBindings from the source: the bound ids of all binding keys in
insertion order. -/
def flattenBindings (bindings : List (String × List String)) : List String :=
  (bindings.map (fun e => e.2)).flatten

/-- makeRgraph from the source: fail (none) when any bound node is absent
from the knowledge graph, otherwise keep exactly the edges with a
biolink-recognized predicate.  An edge binding absent from the knowledge
graph (a fault in the source) is dropped by the filter. -/
def makeRgraph (env : BiolinkEnv) (rnodes redges : List String) (kgraph : Kgraph) : Option Rgraph :=
  if rnodes.all (fun rnode => (kgNode kgraph rnode).isSome) then
    some { nodes := rnodes,
           edges := redges.filter (fun redge =>
             match kgEdge kgraph redge with
             | some kedge => env.isBiolinkPredicate kedge.predicate
             | none => false) }
  else none

def trapiResultToRgraph (env : BiolinkEnv) (trapiResult : TrapiResult) (kgraph : Kgraph) :
    Option Rgraph :=
  makeRgraph env (flattenBindings trapiResult.node_bindings)
    (flattenBindings trapiResult.edge_bindings) kgraph

/-- isRedgeInverted from the source: the edge is traversed against its
stored direction when the traversal subject is the stored object. -/
def isRedgeInverted (redge : String) (subject : String) (kgraph : Kgraph) : Bool :=
  match kgEdge kgraph redge with
  | some kedge => subject = kedge.object
  | none => false

def pathToKey (path : List HKey) : HKey := .hash path

def rnodeToKey (rnode : String) (canon : String → Option String) : HKey :=
  canonHK canon rnode

/-- redgeToKey from the source: the path key of the canonical subject, the
qualified predicate and the canonical object, flipped when inverted. -/
def redgeToKey (env : BiolinkEnv) (canon : String → Option String) (kgraph : Kgraph)
    (redge : String) (doInvert : Bool) : HKey :=
  let kedge := jvOfKgEdge kgraph redge
  let ksubject := canonHK canon (jvToString (kedgeSubject kedge))
  let predicate := edgeToQualifiedPredicate env kedge doInvert
  let kobject := canonHK canon (jvToString (kedgeObject kedge))
  if doInvert then pathToKey [kobject, .str predicate, ksubject]
  else pathToKey [ksubject, .str predicate, kobject]

/-- A directed out-edge entry of the traversal adjacency (cmn.makePair with
redge and target). -/
structure OutEdge where
  redge : String
  target : String
deriving DecidableEq

/-- makeRnodeToOutEdges from the source: every edge contributes an out-edge
at both of its endpoints, so traversal treats the graph as undirected. -/
def makeRnodeToOutEdges (rgraph : Rgraph) (kgraph : Kgraph) : String → List OutEdge :=
  let m := rgraph.edges.foldl
    (fun m redge =>
      match kgEdge kgraph redge with
      | some kedge =>
        let m := aSet m kedge.subject (aGetD m kedge.subject [] ++ [⟨redge, kedge.object⟩])
        aSet m kedge.object (aGetD m kedge.object [] ++ [⟨redge, kedge.subject⟩])
      | none => m)
    []
  fun rnode => aGetD m rnode []

/-- The body of the fold that trapiResultToSummaryFragment passes to
rgraphFold: drop an over-long path, yield a path that reached the disease,
otherwise extend by every out-edge whose target is not already in the path
and is canonicalizable. -/
def pathProc (out : String → List OutEdge) (canon : String → Option String) (disease : String)
    (maxPathLength : Nat) (path : List String) :
    List (List String) × List (List String) :=
  match path.getLast? with
  | none => ([], [])
  | some currentRnode =>
    if maxPathLength < path.length then ([], [])
    else if currentRnode = disease then ([], [path])
    else
      (((out currentRnode).filter
          (fun edge => !path.contains edge.target && (canon edge.target).isSome)).map
        (fun edge => path ++ [edge.redge, edge.target]), [])

/-- The termination weight of a partial path: an exponential in the
remaining capacity, so that replacing a stack entry by its extensions
strictly shrinks the summed weight. -/
def pathWeight (maxPathLength bound : Nat) (path : List String) : Nat :=
  bound ^ (maxPathLength + 2 - path.length)

/-- rgraphFold from the source: a hand-rolled stack fold; pop from the end,
push the produced extensions at the end, append the produced results.  The
fuel bounds the number of loop iterations; instantiated with the summed
termination weight of the stack it provably never runs out, because every
pop strictly decreases that sum. -/
def rgraphFold (proc : List String → List (List String) × List (List String)) :
    Nat → List (List String) → List (List String) → List (List String)
  | 0, _, res => res
  | fuel + 1, objLeft, res =>
    match objLeft.getLast? with
    | none => res
    | some p => rgraphFold proc fuel (objLeft.dropLast ++ (proc p).1) (res ++ (proc p).2)

/-- The adjacency map underlying makeRnodeToOutEdges. -/
def outEdgesMap (rgraph : Rgraph) (kgraph : Kgraph) : List (String × List OutEdge) :=
  rgraph.edges.foldl
    (fun m redge =>
      match kgEdge kgraph redge with
      | some kedge =>
        let m := aSet m kedge.subject (aGetD m kedge.subject [] ++ [⟨redge, kedge.object⟩])
        aSet m kedge.object (aGetD m kedge.object [] ++ [⟨redge, kedge.subject⟩])
      | none => m)
    []

/-- A bound on the out-degree of the traversal adjacency, used only as a
termination measure. -/
def outBound (rgraph : Rgraph) (kgraph : Kgraph) : Nat :=
  ((outEdgesMap rgraph kgraph).map (fun e => e.2.length)).foldr max 0 + 2

def outBoundPf (rgraph : Rgraph) (kgraph : Kgraph) :
    ∀ c, ((makeRnodeToOutEdges rgraph kgraph) c).length + 2 ≤ outBound rgraph kgraph := by
  intro c
  have hmax : ∀ (l : List Nat) (x : Nat), x ∈ l → x ≤ l.foldr max 0 := by
    intro l
    induction l with
    | nil => intro x hx; cases hx
    | cons a l ih =>
      intro x hx
      rcases List.mem_cons.mp hx with h | h
      · subst h; exact le_max_left _ _
      · exact le_trans (ih x h) (le_max_right _ _)
  have hgen : ∀ (m : List (String × List OutEdge)) (k : String),
      (aGetD m k []).length ≤ (m.map (fun e => e.2.length)).foldr max 0 := by
    intro m k
    unfold aGetD aGet
    cases hf : m.find? (fun e => decide (e.1 = k)) with
    | none => simp
    | some e =>
      have hmem : e ∈ m := List.mem_of_find?_eq_some hf
      have hin : e.2.length ∈ m.map (fun e => e.2.length) := List.mem_map_of_mem _ hmem
      have := hmax _ _ hin
      simpa using this
  show (aGetD (outEdgesMap rgraph kgraph) c []).length + 2 ≤ outBound rgraph kgraph
  have := hgen (outEdgesMap rgraph kgraph) c
  unfold outBound
  omega

def pathProcDec (out : String → List OutEdge) (canon : String → Option String) (disease : String)
    (L B : Nat) (hB : ∀ c, (out c).length + 2 ≤ B) :
    ∀ p, (((pathProc out canon disease L p).1.map (pathWeight L B)).sum < pathWeight L B p) := by
  have hB2 : 2 ≤ B := le_trans (by omega) (hB "")
  have hBpos : 0 < B := by omega
  intro p
  unfold pathProc
  cases hlast : p.getLast? with
  | none => simpa [pathWeight] using pow_pos hBpos _
  | some c =>
    by_cases hlen : L < p.length
    · simpa [hlen, pathWeight] using pow_pos hBpos _
    · by_cases hdis : c = disease
      · simpa [hlen, hdis, pathWeight] using pow_pos hBpos _
      · simp only [hlen, hdis, if_neg, if_false, ite_false, if_pos]
        have hple : p.length ≤ L := Nat.le_of_not_lt hlen
        set d := L - p.length with hd
        set ext := ((out c).filter
          (fun edge => !p.contains edge.target && (canon edge.target).isSome)) with hext
        have hwq : ∀ q ∈ ext.map (fun edge => p ++ [edge.redge, edge.target]),
            pathWeight L B q = B ^ d := by
          intro q hq
          rcases List.mem_map.mp hq with ⟨edge, _, rfl⟩
          simp only [pathWeight, List.length_append, List.length_cons, List.length_nil]
          congr 1
          omega
        have hsum : ((ext.map (fun edge => p ++ [edge.redge, edge.target])).map
            (pathWeight L B)).sum ≤ ext.length * B ^ d := by
          have := List.sum_le_card_nsmul
            ((ext.map (fun edge => p ++ [edge.redge, edge.target])).map (pathWeight L B))
            (B ^ d)
            (by
              intro x hx
              rcases List.mem_map.mp hx with ⟨q, hq, rfl⟩
              exact le_of_eq (hwq q hq))
          simpa [smul_eq_mul] using this
        have hcnt : ext.length ≤ B - 2 := by
          have h1 : ext.length ≤ (out c).length := List.length_filter_le _ _
          have h2 := hB c
          omega
        have hlt : ext.length * B ^ d < B ^ (L + 2 - p.length) := by
          have hx : (0:Nat) < B ^ d := pow_pos hBpos _
          have step1 : ext.length * B ^ d ≤ (B - 2) * B ^ d :=
            Nat.mul_le_mul_right _ hcnt
          have step2 : (B - 2) * B ^ d < B * B ^ d :=
            (Nat.mul_lt_mul_right hx).mpr (by omega)
          have step3 : B * B ^ d = B ^ (d + 1) := by rw [pow_succ, Nat.mul_comm]
          have step4 : B ^ (d + 1) ≤ B ^ (d + 2) :=
            Nat.pow_le_pow_right hBpos (by omega)
          have step5 : d + 2 = L + 2 - p.length := by omega
          calc ext.length * B ^ d ≤ (B - 2) * B ^ d := step1
            _ < B * B ^ d := step2
            _ = B ^ (d + 1) := step3
            _ ≤ B ^ (d + 2) := step4
            _ = B ^ (L + 2 - p.length) := by rw [step5]
        calc ((ext.map (fun edge => p ++ [edge.redge, edge.target])).map (pathWeight L B)).sum
            ≤ ext.length * B ^ d := hsum
          _ < B ^ (L + 2 - p.length) := hlt
          _ = pathWeight L B p := rfl

/-- The path finder of trapiResultToSummaryFragment: the rgraphFold of
pathProc starting from the stack holding the single path [drug]. -/
def resultRgraphPaths (canon : String → Option String) (maxHops : Nat) (rgraph : Rgraph)
    (kgraph : Kgraph) (drug disease : String) : List (List String) :=
  let out := makeRnodeToOutEdges rgraph kgraph
  let maxPathLength := 2 * maxHops + 1
  rgraphFold (pathProc out canon disease maxPathLength)
    (pathWeight maxPathLength (outBound rgraph kgraph) [drug])
    [[drug]] []

/-- normalizePaths from the source, for one path: node positions become
canonical node keys, edge positions become qualified-predicate path keys
oriented by the traversal direction. -/
def normalizePath (env : BiolinkEnv) (canon : String → Option String) (kgraph : Kgraph) :
    List String → List HKey
  | [] => []
  | [n] => [rnodeToKey n canon]
  | [n, e] =>
    [rnodeToKey n canon, redgeToKey env canon kgraph e (isRedgeInverted e n kgraph),
     rnodeToKey e canon]
  | n :: e :: rest =>
    rnodeToKey n canon :: redgeToKey env canon kgraph e (isRedgeInverted e n kgraph) ::
      normalizePath env canon kgraph rest

/-- A node entry of a summary fragment: the canonical key and the JS view of
the source knode.  The source stores the closure list nodeRules(knode); the
model stores the knode and applies the same rule list at merge time, which
is the same function list. -/
structure NodeUpdate where
  key : HKey
  src : JVal
deriving DecidableEq

/-- An edge entry of a summary fragment: the qualified-predicate key and the
JS view of the source kedge. -/
structure EdgeUpdate where
  key : HKey
  src : JVal
deriving DecidableEq

/-- The summary fragment of a single result: its score map holds the single
score of that result. -/
structure ResultFragment where
  paths : List (List HKey)
  nodes : List NodeUpdate
  edges : List EdgeUpdate
  scores : List (HKey × Rat)
deriving DecidableEq

/-- The accumulated fragment of one agent: the score maps hold score lists;
a list entry is none exactly when an empty fragment was merged (the JS
undefined pushed by mergeSummaryFragments). -/
structure AgentFragment where
  paths : List (List HKey)
  nodes : List NodeUpdate
  edges : List EdgeUpdate
  scores : List (HKey × List (Option Rat))
deriving DecidableEq

def emptySummaryFragment : ResultFragment := ⟨[], [], [], []⟩

def emptyAgentFragment : AgentFragment := ⟨[], [], [], []⟩

/-- mergeSummaryFragments from the source.  When the new fragment is empty
its score map has no keys, so Object.keys(f2.scores)[0] is undefined: the JS
key coerces to the string "undefined" and the pushed value is undefined
(none). -/
def mergeSummaryFragments (f1 : AgentFragment) (f2 : ResultFragment) : AgentFragment :=
  let scores :=
    match f2.scores.head? with
    | some kv =>
      let m := aSetDefault f1.scores kv.1 []
      aSet m kv.1 (aGetD m kv.1 [] ++ [some kv.2])
    | none =>
      let k := HKey.str "undefined"
      let m := aSetDefault f1.scores k []
      aSet m k (aGetD m k [] ++ [none])
  ⟨f1.paths ++ f2.paths, f1.nodes ++ f2.nodes, f1.edges ++ f2.edges, scores⟩

/-- trapiResultToSummaryFragment from the source. -/
def trapiResultToSummaryFragment (env : BiolinkEnv) (canon : String → Option String)
    (maxHops : Nat) (trapiResult : TrapiResult) (kgraph : Kgraph) : ResultFragment :=
  match trapiResultToRgraph env trapiResult kgraph with
  | none => emptySummaryFragment
  | some rgraph =>
    match getBindingId trapiResult.node_bindings subjectKey,
          getBindingId trapiResult.node_bindings objectKey with
    | some drug, some disease =>
      if drug = "" ∨ disease = "" then emptySummaryFragment
      else
        let rgraphPaths := resultRgraphPaths canon maxHops rgraph kgraph drug disease
        let resultDrugKey := rnodeToKey drug canon
        let resultScore := trapiResult.normalized_score.getD 0
        { paths := rgraphPaths.map (normalizePath env canon kgraph),
          nodes := rgraph.nodes.map (fun rnode => ⟨rnodeToKey rnode canon, jvOfKgNode kgraph rnode⟩),
          edges := rgraph.edges.map
            (fun redge => ⟨redgeToKey env canon kgraph redge false, jvOfKgEdge kgraph redge⟩),
          scores := [(resultDrugKey, resultScore)] }
    | _, _ => emptySummaryFragment

/-- A condensed summary: the agent and its accumulated fragment. -/
structure CondensedSummary where
  agent : String
  fragment : AgentFragment
deriving DecidableEq

/-- creativeAnswersToCondensedSummaries from the source. -/
def creativeAnswersToCondensedSummaries (env : BiolinkEnv) (canon : String → Option String)
    (maxHops : Nat) (answers : List Answer) : List CondensedSummary :=
  answers.map (fun answer =>
    ⟨answer.agent,
      answer.message.results.foldl
        (fun summaryFragment result =>
          mergeSummaryFragments summaryFragment
            (trapiResultToSummaryFragment env canon maxHops result answer.message.knowledge_graph))
        emptyAgentFragment⟩)

/-- An entry of the final paths table. -/
structure PathEntry where
  subgraph : List HKey
  aras : List String
deriving DecidableEq

/-- An expanded result of the final summary.  The score is none exactly when
the JS computation is NaN (an undefined crept into the score list). -/
structure ResultObj where
  subject : HKey
  drug_name : JVal
  paths : List HKey
  object : HKey
  score : Option Rat
deriving DecidableEq

/-- An entry of the final publications table. -/
structure PubObj where
  ty : String
  url : String
  snippet : JVal
  pubdate : JVal
deriving DecidableEq

/-- makeMetadataObject from the source. -/
structure Metadata where
  qid : String
  aras : List String
deriving DecidableEq

/-- The final summary. -/
structure Summary where
  meta : Metadata
  results : List ResultObj
  paths : List (HKey × PathEntry)
  nodes : List (HKey × JVal)
  edges : List (HKey × JVal)
  publications : List (String × PubObj)
deriving DecidableEq

/-- fragmentPathsToResultsAndPaths from the source: each fragment path
yields a (drug, pathKey) result pair and a (pathKey, path) paths pair. -/
def fragmentPathsToResultsAndPaths (fragmentPaths : List (List HKey)) :
    List (HKey × HKey) × List (HKey × List HKey) :=
  (fragmentPaths.map (fun path => (path.headD .fls, pathToKey path)),
   fragmentPaths.map (fun path => (pathToKey path, path)))

/-- extendSummaryResults from the source: push every path key onto the
bucket of its drug. -/
def extendSummaryResults (results : List (HKey × List HKey)) (newResults : List (HKey × HKey)) :
    List (HKey × List HKey) :=
  newResults.foldl
    (fun results r =>
      let m := aSetDefault results r.1 []
      aSet m r.1 (aGetD m r.1 [] ++ [r.2]))
    results

/-- extendSummaryPaths from the source: create a paths entry with the agent
on first sight, append the agent afterwards. -/
def extendSummaryPaths (paths : List (HKey × PathEntry)) (newPaths : List (HKey × List HKey))
    (agent : String) : List (HKey × PathEntry) :=
  newPaths.foldl
    (fun paths p =>
      match aGet paths p.1 with
      | some entry => aSet paths p.1 ⟨entry.subgraph, entry.aras ++ [agent]⟩
      | none => paths ++ [(p.1, ⟨p.2, [agent]⟩)])
    paths

/-- The aras push performed after every transform run. -/
def arasPushAgent (o : JVal) (agent : String) : JVal :=
  jvUpdate o "aras" (fun v => match v with | .arr l => .arr (l ++ [.str agent]) | x => x)

/-- extendSummaryObj from the source: get or create the summary object under
the update key, then run every transform of the update, pushing the agent
after each. -/
def extendSummaryObj (rules : JVal → List (JVal → JVal)) (objs : List (HKey × JVal))
    (updates : List NodeUpdate) (agent : String) : List (HKey × JVal) :=
  updates.foldl
    (fun objs u =>
      let objs1 := aSetDefault objs u.key (.obj [("aras", .arr [])])
      let obj0 := aGetD objs1 u.key (.obj [("aras", .arr [])])
      let obj1 := (rules u.src).foldl (fun o t => arasPushAgent (t o) agent) obj0
      aSet objs1 u.key obj1)
    objs

def extendSummaryNodes (nodes : List (HKey × JVal)) (nodeUpdates : List NodeUpdate)
    (agent : String) : List (HKey × JVal) :=
  extendSummaryObj nodeRules nodes nodeUpdates agent

def extendSummaryEdges (env : BiolinkEnv) (canon : String → Option String)
    (edges : List (HKey × JVal)) (edgeUpdates : List EdgeUpdate) (agent : String) :
    List (HKey × JVal) :=
  extendSummaryObj (edgeRules env canon) edges (edgeUpdates.map (fun u => ⟨u.key, u.src⟩)) agent

/-- extendSummaryScores from the source: concatenate the new score lists
onto the buckets. -/
def extendSummaryScores (scores newScores : List (HKey × List (Option Rat))) :
    List (HKey × List (Option Rat)) :=
  newScores.foldl
    (fun scores kv =>
      let m := aSetDefault scores kv.1 []
      aSet m kv.1 (aGetD m kv.1 [] ++ kv.2))
    scores

/-- extendSummaryPublications from the source: for every publication id of
the edge, look up its type and url and the first snippet carrying the id. -/
def extendSummaryPublications (env : BiolinkEnv) (publications : List (String × PubObj))
    (edge : JVal) : List (String × PubObj) :=
  let snippets := jvElems (jvGet edge "snippets")
  let publicationIds := jvElems (jvGetD edge "publications" (.arr []))
  publicationIds.foldl
    (fun publications id =>
      let tu := env.idToTypeAndUrl (jvToString id)
      match (snippets.map (fun snippet => jvGetD snippet (jvToString id) (.bool false))).find? truthy with
      | some p =>
        aSet publications (jvToString id)
          ⟨tu.1, tu.2, jvGetD p "sentence" .null, jvGetD p "publication date" .null⟩
      | none => aSet publications (jvToString id) ⟨tu.1, tu.2, .null, .null⟩)
    publications

/-- The per-edge finalization inside edgesToEdgesAndPublications: delete the
snippets, rewrite the predicate to the forward qualified predicate, delete
the qualifiers. -/
def processSummaryEdge (env : BiolinkEnv) (edge : JVal) : JVal :=
  let e1 := jvDelete edge "snippets"
  jvDelete (jvSet e1 "predicate" (.str (edgeToQualifiedPredicate env e1 false))) "qualifiers"

/-- The key under which addInverseEdge installs the inverse edge. -/
def invKeyOf (env : BiolinkEnv) (e1 : JVal) : HKey :=
  pathToKey [jvHKey (jvGet e1 "object"), .str (edgeToQualifiedPredicate env e1 true),
    jvHKey (jvGet e1 "subject")]

/-- The inverse edge object built by addInverseEdge: a copy with subject and
object swapped, the inverse qualified predicate, and no qualifiers field. -/
def invEdgeOf (env : BiolinkEnv) (e1 : JVal) : JVal :=
  jvDelete
    (jvMultiSet e1
      [("subject", jvGet e1 "object"), ("object", jvGet e1 "subject"),
       ("predicate", .str (edgeToQualifiedPredicate env e1 true))])
    "qualifiers"

/-- edgesToEdgesAndPublications from the source.  The JS loop iterates over
a snapshot of the edge objects while mutating the map; a processed original
stays in the map unless some inverse insertion hits its key, so the final
map is the processed originals overwritten by the inverse insertions in
order, and the publications are extracted from every snapshot object before
its snippets are deleted. -/
def edgesToEdgesAndPublications (env : BiolinkEnv) (edges : List (HKey × JVal)) :
    List (HKey × JVal) × List (String × PubObj) :=
  let snapshot := aValues edges
  let publications := snapshot.foldl (fun pubs e => extendSummaryPublications env pubs e) []
  let processed := edges.map (fun kv => (kv.1, processSummaryEdge env kv.2))
  let final := snapshot.foldl
    (fun m e =>
      let e1 := jvDelete e "snippets"
      aSet m (invKeyOf env e1) (invEdgeOf env e1))
    processed
  (final, publications)

/-- The even-index loop of isPathLessThan: compare the subgraphs at the
positions 0, 2, 4, ... until the first difference. -/
def evenLexCmp : List HKey → List HKey → Int
  | [], _ => 0
  | _ :: _, [] => 0
  | [a], b :: _ => if hkLt a b then -1 else if hkLt b a then 1 else 0
  | a :: _ :: as, b :: bs =>
    if hkLt a b then -1 else if hkLt b a then 1 else evenLexCmp as (bs.drop 1)

/-- getPathFromPid from the source. -/
def getPathFromPid (paths : List (HKey × PathEntry)) (pid : HKey) : List HKey :=
  ((aGet paths pid).map (fun e => e.subgraph)).getD []

/-- isPathLessThan from the source: order path ids by subgraph length first,
then lexicographically on the even positions. -/
def isPathLessThan (paths : List (HKey × PathEntry)) (pid1 pid2 : HKey) : Int :=
  let path1 := getPathFromPid paths pid1
  let path2 := getPathFromPid paths pid2
  if path1.length = path2.length then evenLexCmp path1 path2
  else if path1.length < path2.length then -1 else 1

/-- The strictly-before relation of the comparator handed to the JS sort. -/
def pathLt (paths : List (HKey × PathEntry)) (pid1 pid2 : HKey) : Bool :=
  isPathLessThan paths pid1 pid2 < 0

/-- One insertion of the modelled JS Array sort: place the element before
the first already-placed element that the comparator orders strictly after
it.  This realizes the stable sort the JS engines implement. -/
def jsSortInsert {α : Type} (lt : α → α → Bool) (x : α) : List α → List α
  | [] => [x]
  | y :: ys => if lt x y then x :: y :: ys else y :: jsSortInsert lt x ys

/-- The JS Array sort with a comparator, as a stable insertion sort. -/
def jsSort {α : Type} (lt : α → α → Bool) (l : List α) : List α :=
  l.foldl (fun acc x => jsSortInsert lt x acc) []

/-- The JS addition inside the score reduce: undefined poisons the sum into
NaN, modelled by none. -/
def jsAdd : Option Rat → Option Rat → Option Rat
  | some a, some b => some (a + b)
  | _, _ => none

/-- The score reduce and division of expandResults; the empty list, on which
the source faults, yields none. -/
def jsMean (l : List (Option Rat)) : Option Rat :=
  match l with
  | [] => none
  | x :: xs => (xs.foldl jsAdd x).map (fun s => s / (l.length : Rat))

/-- expandResults from the source. -/
def expandResults (paths : List (HKey × PathEntry)) (nodes : List (HKey × JVal))
    (scores : List (HKey × List (Option Rat))) (results : List (List HKey)) : List ResultObj :=
  results.map (fun ps =>
    let subgraph := getPathFromPid paths (ps.headD .fls)
    let drug := subgraph.headD .fls
    let drugName := match aGet nodes drug with
      | some node => jvGet node "names"
      | none => .undef
    let disease := (subgraph.getLast?).getD .fls
    let drugScores := aGetD scores drug []
    { subject := drug,
      drug_name := if isArrayEmptyJV drugName then hkeyJVal drug else (jvElems drugName).headD .undef,
      paths := jsSort (pathLt paths) ps,
      object := disease,
      score := jsMean drugScores })

/-- The per-node finalization: deduplicate the array fields and push the
canonical key into empty names and curies. -/
def pushKeyIfEmpty (node : JVal) (field : String) (k : HKey) : JVal :=
  if jvGet node field = .arr [] then jvSet node field (.arr [hkeyJVal k]) else node

def finalizeSummaryNode (k : HKey) (node : JVal) : JVal :=
  pushKeyIfEmpty (pushKeyIfEmpty (objRemoveDuplicates node) "names" k) "curies" k

/-- The accumulating state of the condensed-summary fold. -/
structure MergeState where
  results : List (HKey × List HKey)
  paths : List (HKey × PathEntry)
  nodes : List (HKey × JVal)
  edges : List (HKey × JVal)
  scores : List (HKey × List (Option Rat))
deriving DecidableEq

def mergeStateStep (env : BiolinkEnv) (canon : String → Option String) (st : MergeState)
    (cs : CondensedSummary) : MergeState :=
  let rp := fragmentPathsToResultsAndPaths cs.fragment.paths
  { results := extendSummaryResults st.results rp.1,
    paths := extendSummaryPaths st.paths rp.2 cs.agent,
    nodes := extendSummaryNodes st.nodes cs.fragment.nodes cs.agent,
    edges := extendSummaryEdges env canon st.edges cs.fragment.edges cs.agent,
    scores := extendSummaryScores st.scores cs.fragment.scores }

def mergedState (env : BiolinkEnv) (canon : String → Option String)
    (condensedSummaries : List CondensedSummary) : MergeState :=
  condensedSummaries.foldl (mergeStateStep env canon) ⟨[], [], [], [], []⟩

/-- The edge cleanup that precedes edgesToEdgesAndPublications: deduplicate
array fields and keep only valid publication ids. -/
def cleanSummaryEdge (env : BiolinkEnv) (edge : JVal) : JVal :=
  jvUpdate (objRemoveDuplicates edge) "publications"
    (fun ps => .arr ((jvElems ps).filter env.isValidId))

/-- condensedSummariesToSummary from the source. -/
def condensedSummariesToSummary (env : BiolinkEnv) (canon : String → Option String)
    (qid : String) (condensedSummaries : List CondensedSummary) : Summary :=
  let st := mergedState env canon condensedSummaries
  let edges1 := st.edges.map (fun kv => (kv.1, (cleanSummaryEdge env) kv.2))
  let ep := edgesToEdgesAndPublications env edges1
  let metadataObject : Metadata := ⟨qid, condensedSummaries.map (fun cs => cs.agent)⟩
  let nodes1 := st.nodes.map (fun kv => (kv.1, finalizeSummaryNode kv.1 kv.2))
  let results1 := expandResults st.paths nodes1 st.scores ((aValues st.results).map jsDedup)
  let paths1 := st.paths.map (fun kv => (kv.1, PathEntry.mk (jsDedup kv.2.subgraph) (jsDedup kv.2.aras)))
  ⟨metadataObject, results1, paths1, nodes1, ep.1, ep.2⟩

/-- The canonical node mapping computed by creativeAnswersToSummary over
the node maps of all answers. -/
def answersCanon (answers : List Answer) : String → Option String :=
  makeCanonicalNodeMapping (answers.map (fun answer => answer.message.knowledge_graph.nodes))

/-- The condensed summaries computed by creativeAnswersToSummary. -/
def answersCondensed (env : BiolinkEnv) (maxHops : Nat) (answers : List Answer) :
    List CondensedSummary :=
  creativeAnswersToCondensedSummaries env (answersCanon answers) maxHops answers

/-- The merged accumulation state reached by condensedSummariesToSummary on
the condensed summaries of the answers; its scores table is the accumulated
score list of the spec. -/
def answersMergedState (env : BiolinkEnv) (maxHops : Nat) (answers : List Answer) : MergeState :=
  mergedState env (answersCanon answers) (answersCondensed env maxHops answers)

/-- creativeAnswersToSummary from the source: the summarizer entry point. -/
def creativeAnswersToSummary (env : BiolinkEnv) (maxHops : Nat) (qid : String)
    (answers : List Answer) : Summary :=
  condensedSummariesToSummary env (answersCanon answers) qid
    (answersCondensed env maxHops answers)

/-- Modelled from the spec: chebi.mjs maps a role id to its recognized
high-level role id, or null. -/
def chebiRoleParent : List (String × String) :=
  [("CHEBI:35620", "CHEBI:23888"), ("CHEBI:23888", "CHEBI:23888")]

/-- Modelled from the spec: chebi.mjs name of a high-level role id. -/
def chebiRoleNames : List (String × String) := [("CHEBI:23888", "drug")]

def chebiGetHighLevelRole (id : String) : Option String := aGet chebiRoleParent id

def chebiGetName (id : String) : String := aGetD chebiRoleNames id ""

def isDisease (a : JVal) : Bool := jvGet a "disease_ontology" ≠ .undef

def isChemical (a : JVal) : Bool :=
  jvGet a "chebi" ≠ .undef || jvGet a "chembl" ≠ .undef || jvGet a "ndc" ≠ .undef

def isGene (a : JVal) : Bool := jvGet a "symbol" ≠ .undef

def noHandler (_ : JVal) : JVal := .null

/-- parseAnnotation from the annotation classifier source: classify the
FIRST element of the argument and dispatch to the matching handler; the
fallback is null. -/
def parseAnnot (ann : List JVal) (diseaseHandler chemicalHandler geneHandler : JVal → JVal) : JVal :=
  let a := ann.headD .undef
  if isDisease a then diseaseHandler a
  else if isChemical a then chemicalHandler a
  else if isGene a then geneHandler a
  else .null

def getDiseaseDescription (a : JVal) : JVal :=
  let description := jvGetKpath a ["disease_ontology", "def"] .null
  if description = .null then .null
  else .str (((jvToString description).splitOn "[").headD "")

def getDiseaseMeshCuries (a : JVal) : JVal :=
  let paths : List (List String) := [["mondo", "xrefs", "mesh"], ["disease_ontology", "xrefs", "mesh"]]
  .arr (paths.foldl
    (fun curies path =>
      let curie := jvGetKpath a path .null
      if truthy curie then curies ++ [.str ("MESH:" ++ jvToString curie)] else curies) [])

def getChemicalNames (a : JVal) : JVal :=
  let ndc := jvElems (jvGetKpath a ["ndc"] (.arr []))
  let folded := ndc.foldl
    (fun st entry =>
      let commercialName := jvGetD entry "proprietaryname" .null
      let genericName := jvGetD entry "nonproprietaryname" .null
      let commercial := if commercialName ≠ .null
        then st.1 ++ [(jvToString commercialName).toLower] else st.1
      let generic := if genericName ≠ .null
        then st.2 ++ [(jvToString genericName).toLower] else st.2
      (commercial, generic))
    (([] : List String), ([] : List String))
  .obj [("commercial", .arr ((jsDedup folded.1).map JVal.str)),
        ("generic", .arr ((jsDedup folded.2).map JVal.str))]

def getChemicalDescription (a : JVal) : JVal :=
  let description := jvGetKpath a ["unii", "ncit_description"] .null
  if description = .null then jvGetKpath a ["chebi", "definition"] .null else description

def getChemicalChebiRoles (a : JVal) : JVal :=
  let ids := jvGetKpath a ["chebi", "relationship", "has_role"] .null
  if ids = .null then .null
  else
    let ids := if isArrayJV ids then jvElems ids else [ids]
    .arr (ids.foldl
      (fun roles id =>
        match chebiGetHighLevelRole (jvToString id) with
        | some highLevelId =>
          roles ++ [.obj [("id", .str highLevelId), ("name", .str (chebiGetName highLevelId))]]
        | none => roles) [])

def getChemicalFdaApproval (a : JVal) : JVal :=
  jvGetKpath a ["chembl", "max_phase"] (.num 0)

def getChemicalDrugIndications (a : JVal) : JVal :=
  let indicationObjs := jvElems (jvGetKpath a ["chembl", "drug_indications"] (.arr []))
  .arr (indicationObjs.foldl
    (fun indications o =>
      let id := jvGetD o "mesh_id" (.bool false)
      if truthy id then indications ++ [id] else indications) [])

def getChemicalOtcStatus (a : JVal) : JVal :=
  let otcStatus := jvGetKpath a ["chembl", "availability_type"] (.num (-1))
  if otcStatus = .num 2 then .obj [("id", .str "t"), ("name", .str "Over the counter")]
  else if otcStatus = .num 1 then .obj [("id", .str "f"), ("name", .str "Prescription only")]
  else if otcStatus = .num 0 then .obj [("id", .str "d"), ("name", .str "Discontinued")]
  else if otcStatus = .num (-2) then .obj [("id", .str "w"), ("name", .str "Withdrawn")]
  else .obj [("id", .str "o"), ("name", .str "Other")]

def getGeneDescription (a : JVal) : JVal := jvGetD a "summary" .null

def speciesIdToSpecies (id : JVal) : JVal :=
  if id = .num 9606 then .str "Human" else .null

def getGeneSpecies (a : JVal) : JVal :=
  speciesIdToSpecies (jvGetD a "taxid" .null)

def getFdaApproval (ann : List JVal) : JVal :=
  parseAnnot ann noHandler getChemicalFdaApproval noHandler

def getDescription (ann : List JVal) : JVal :=
  parseAnnot ann getDiseaseDescription getChemicalDescription getGeneDescription

def getChebiRoles (ann : List JVal) : JVal :=
  parseAnnot ann noHandler getChemicalChebiRoles noHandler

def getDrugIndications (ann : List JVal) : JVal :=
  parseAnnot ann noHandler getChemicalDrugIndications noHandler

def getCuries (ann : List JVal) : JVal :=
  parseAnnot ann getDiseaseMeshCuries noHandler noHandler

def getNames (ann : List JVal) : JVal :=
  parseAnnot ann noHandler getChemicalNames noHandler

def getOtc (ann : List JVal) : JVal :=
  parseAnnot ann noHandler getChemicalOtcStatus noHandler

def getSpecies (ann : List JVal) : JVal :=
  parseAnnot ann noHandler noHandler getGeneSpecies

/-- The completion closure of the stack fold: all results eventually
produced from one stack entry, up to the given recursion fuel.  Used to
characterize the path finder. -/
def completionsFuel (proc : List String → List (List String) × List (List String)) :
    Nat → List String → List (List String)
  | 0, _ => []
  | fuel + 1, p => (proc p).2 ++ ((proc p).1.map (completionsFuel proc fuel)).flatten

/-- The claim predicate for the path finder: a path obtained from [drug] by
extension steps in the reduced graph, each step leaving a node that is not
the disease through an out-edge whose target is not already in the path and
is canonicalizable. -/
inductive ExtensionPath (out : String → List OutEdge) (canon : String → Option String)
    (disease drug : String) : List String → Prop
  | base : ExtensionPath out canon disease drug [drug]
  | step (p : List String) (c : String) (edge : OutEdge) :
      ExtensionPath out canon disease drug p →
      p.getLast? = some c →
      c ≠ disease →
      edge ∈ out c →
      edge.target ∉ p →
      (canon edge.target).isSome →
      ExtensionPath out canon disease drug (p ++ [edge.redge, edge.target])

/-- A knowledge-graph node without attributes, used by concrete inputs. -/
def knodePlain : Knode := ⟨.str "plain", .arr [], none⟩

/-- A knowledge-graph node aliased (via same_as) to the given curies. -/
def knodeAlias (als : List String) : Knode :=
  ⟨.str "aliased", .arr [], some [⟨tagBiolink "same_as", .arr (als.map JVal.str)⟩]⟩

def treatsEdge (s o : String) : Kedge := ⟨s, o, "treats", none, none⟩

def bindSnOn (s o : String) (score : Option Rat) : TrapiResult :=
  ⟨[(subjectKey, [s]), (objectKey, [o])], [("t", ["e1"])], score⟩

/-- C3 fixture: agent A asserts X aliased to Z treating D. -/
def c3AnswerA : Answer :=
  ⟨"araA", ⟨⟨[("X:1", knodeAlias ["Z:1"]), ("D:1", knodePlain)], [("e1", treatsEdge "X:1" "D:1")]⟩,
    [bindSnOn "X:1" "D:1" (some 1)]⟩⟩

/-- C3 fixture: agent B asserts Y aliased to Z treating D. -/
def c3AnswerB : Answer :=
  ⟨"araB", ⟨⟨[("Y:1", knodeAlias ["Z:1"]), ("D:1", knodePlain)], [("e1", treatsEdge "Y:1" "D:1")]⟩,
    [bindSnOn "Y:1" "D:1" (some 1)]⟩⟩

/-- C4 fixture: one bindable result whose drug curie is the string
"undefined" plus one unbindable result (no object binding). -/
def c4bad : TrapiResult := ⟨[(subjectKey, ["undefined"])], [], none⟩

def c4Answer : Answer :=
  ⟨"ara1", ⟨⟨[("undefined", knodePlain), ("D:1", knodePlain)], [("e1", treatsEdge "undefined" "D:1")]⟩,
    [bindSnOn "undefined" "D:1" (some (1/2)), c4bad]⟩⟩

/-- C5 fixtures: the same message with and without the unbindable result. -/
def c5AnswerWith : Answer :=
  ⟨"ara1", ⟨⟨[("undefined", knodePlain), ("D:1", knodePlain)], [("e1", treatsEdge "undefined" "D:1")]⟩,
    [bindSnOn "undefined" "D:1" (some (1/3)), c4bad]⟩⟩

def c5AnswerWithout : Answer :=
  ⟨"ara1", ⟨⟨[("undefined", knodePlain), ("D:1", knodePlain)], [("e1", treatsEdge "undefined" "D:1")]⟩,
    [bindSnOn "undefined" "D:1" (some (1/3))]⟩⟩

/-- C1 fixture: a single edge carrying an object aspect qualifier. -/
def c1edge : Kedge :=
  ⟨"C:1", "D:1", "biolink:affects", some [⟨"biolink:object_aspect_qualifier", "activity"⟩], none⟩

def c1Answer : Answer :=
  ⟨"ara1", ⟨⟨[("C:1", knodePlain), ("D:1", knodePlain)], [("e1", c1edge)]⟩,
    [bindSnOn "C:1" "D:1" (some 1)]⟩⟩

/-- A simple qualifier-free single-agent fixture used by witnesses. -/
def plainAnswer : Answer :=
  ⟨"ara1", ⟨⟨[("C:1", knodePlain), ("D:1", knodePlain)], [("e1", treatsEdge "C:1" "D:1")]⟩,
    [bindSnOn "C:1" "D:1" (some (1/2))]⟩⟩

/-- A fixture with two two-hop paths from the drug to the disease: one
through a plain node A:1 and one through M:1, which is aliased to the drug
curie D:1 and therefore canonicalizes to the same key as the drug. -/
def c8Answer : Answer :=
  ⟨"ara1", ⟨⟨[("D:1", knodePlain), ("A:1", knodePlain), ("M:1", knodeAlias ["D:1"]),
      ("Dis:1", knodePlain)],
    [("e1", treatsEdge "D:1" "A:1"), ("e2", treatsEdge "A:1" "Dis:1"),
     ("e3", treatsEdge "D:1" "M:1"), ("e4", treatsEdge "M:1" "Dis:1")]⟩,
    [⟨[(subjectKey, ["D:1"]), (objectKey, ["Dis:1"])], [("t", ["e1", "e2", "e3", "e4"])], some 1⟩]⟩⟩

/-- The drug keys of the results of a summary (the subject field of each
expanded result). -/
def resultSubjects (s : Summary) : List HKey := s.results.map (fun r => r.subject)

/-- The publication id list stored on a summary edge object. -/
def edgePublicationIds (e : JVal) : List JVal := jvElems (jvGet e "publications")

/-- Statement scaffolding: the inverse edge key named by the specification —
the path key of the entry's object, the inverse of its stored predicate
according to invertBiolinkPredicate, and its subject. -/
def summaryEdgeInvKey (env : BiolinkEnv) (e : JVal) : HKey :=
  pathToKey [jvHKey (jvGet e "object"),
    .str (env.invertBiolinkPredicate (jvToString (jvGet e "predicate"))),
    jvHKey (jvGet e "subject")]

/-- Statement scaffolding: the value is a JS object whose names and curies
fields, when present at all, are arrays.  This is the state of a node
object before any rule application. -/
def nodeArraysPre (v : JVal) : Prop :=
  (∃ fields, v = .obj fields) ∧
  (jvGet v "names" = .undef ∨ ∃ l, jvGet v "names" = .arr l) ∧
  (jvGet v "curies" = .undef ∨ ∃ l, jvGet v "curies" = .arr l)

/-- Statement scaffolding: the value is a JS object carrying names and
curies as arrays. -/
def nodeArraysOK (v : JVal) : Prop :=
  (∃ fields, v = .obj fields) ∧
  (∃ l, jvGet v "names" = .arr l) ∧ (∃ l, jvGet v "curies" = .arr l)

/-- The five classifier keys of the annotation module. -/
def classifierKeysAbsent (a : JVal) : Prop :=
  jvGet a "disease_ontology" = .undef ∧ jvGet a "chebi" = .undef ∧
  jvGet a "chembl" = .undef ∧ jvGet a "ndc" = .undef ∧ jvGet a "symbol" = (.undef)

/-- C10: every exposed annotation getter (getDescription, getNames,
getFdaApproval, getChebiRoles, getDrugIndications, getOtc, getCuries,
getSpecies) classifies only the first element of its argument, and on any
input whose first element carries none of the keys disease_ontology, chebi,
chembl, ndc and symbol, every getter returns null. -/
theorem C10_annot_getters_first_only (a : JVal) (l l2 : List JVal) :
    (getDescription (a :: l) = getDescription (a :: l2) ∧
     getNames (a :: l) = getNames (a :: l2) ∧
     getFdaApproval (a :: l) = getFdaApproval (a :: l2) ∧
     getChebiRoles (a :: l) = getChebiRoles (a :: l2) ∧
     getDrugIndications (a :: l) = getDrugIndications (a :: l2) ∧
     getOtc (a :: l) = getOtc (a :: l2) ∧
     getCuries (a :: l) = getCuries (a :: l2) ∧
     getSpecies (a :: l) = getSpecies (a :: l2)) ∧
    (classifierKeysAbsent a →
     getDescription (a :: l) = .null ∧
     getNames (a :: l) = .null ∧
     getFdaApproval (a :: l) = .null ∧
     getChebiRoles (a :: l) = .null ∧
     getDrugIndications (a :: l) = .null ∧
     getOtc (a :: l) = .null ∧
     getCuries (a :: l) = .null ∧
     getSpecies (a :: l) = .null) := by
  constructor
  · exact ⟨rfl, rfl, rfl, rfl, rfl, rfl, rfl, rfl⟩
  · intro h
    obtain ⟨h1, h2, h3, h4, h5⟩ := h
    have hd : isDisease a = false := by simp [isDisease, h1]
    have hc : isChemical a = false := by simp [isChemical, h2, h3, h4]
    have hg : isGene a = false := by simp [isGene, h5]
    refine ⟨?_, ?_, ?_, ?_, ?_, ?_, ?_, ?_⟩ <;>
      simp [getDescription, getNames, getFdaApproval, getChebiRoles, getDrugIndications,
        getOtc, getCuries, getSpecies, parseAnnot, hd, hc, hg]

/-- C10 witness: a concrete annotation record without any classifier key. -/
theorem C10_annot_getters_first_only_witness :
    classifierKeysAbsent (JVal.obj [("foo", .str "x")]) ∧
    getDescription [JVal.obj [("foo", .str "x")], .str "extra"] = .null ∧
    getSpecies [JVal.obj [("foo", .str "x")], .str "extra"] = .null := by
  have habs : classifierKeysAbsent (JVal.obj [("foo", .str "x")]) := by
    refine ⟨by decide, by decide, by decide, by decide, by decide⟩
  have h := (C10_annot_getters_first_only (JVal.obj [("foo", .str "x")]) [.str "extra"] []).2 habs
  exact ⟨habs, h.1, h.2.2.2.2.2.2.2⟩

/-- C6: the qualified-predicate builder returns the raw predicate (inverted
on request) when the edge has no qualifiers; otherwise it composes subject
qualifier string, base predicate (replaced by the qualified predicate
qualifier when present) and object qualifier string, with the suffix " of"
attached exactly when the object-side string is non-empty, single spaces
separating only non-empty pieces, and the inverse form swapping the two
qualifier strings around the inverted base predicate. -/
theorem C6_qualified_predicate (env : BiolinkEnv) (k : Kedge) :
    (k.qualifiers = none →
      edgeToQualifiedPredicate env (kedgeJVal k) false = k.predicate ∧
      edgeToQualifiedPredicate env (kedgeJVal k) true = env.invertBiolinkPredicate k.predicate) ∧
    (∀ qs, k.qualifiers = some qs →
      ∃ qualifiers, kedgeToQualifiers env (kedgeJVal k) = some qualifiers ∧
        (let subjStr := qualifiersToString "subject" qualifiers
         let objStr := qualifiersToString "object" qualifiers
         let basePred := match aGet qualifiers "qualified predicate" with
           | some qp => if qp ≠ "" then qp else k.predicate
           | none => k.predicate
         edgeToQualifiedPredicate env (kedgeJVal k) false =
           (if subjStr ≠ "" then subjStr ++ " " else "") ++ basePred ++
             (if objStr ≠ "" then " " ++ objStr ++ " of" else "") ∧
         edgeToQualifiedPredicate env (kedgeJVal k) true =
           (if objStr ≠ "" then objStr ++ " " else "") ++ env.invertBiolinkPredicate basePred ++
             (if subjStr ≠ "" then " " ++ subjStr ++ " of" else ""))) := by
  obtain ⟨ksub, kobj, kpred, kqual, kattr⟩ := k
  have hpred : kedgePredicate (kedgeJVal ⟨ksub, kobj, kpred, kqual, kattr⟩) = .str kpred := by
    cases kqual <;> cases kattr <;>
      simp [kedgePredicate, kedgeJVal, jvGet, aGetD, aGet, List.find?]
  constructor
  · intro hq
    simp only at hq
    subst hq
    have hnone : kedgeToQualifiers env (kedgeJVal ⟨ksub, kobj, kpred, none, kattr⟩) = none := by
      cases kattr <;>
        simp [kedgeToQualifiers, kedgeJVal, jvGetD, aGetD, aGet, List.find?, truthy]
    constructor <;> simp [edgeToQualifiedPredicate, hnone, hpred, jvToString]
  · intro qs hq
    simp only at hq
    subst hq
    have hval : jvGetD (kedgeJVal ⟨ksub, kobj, kpred, some qs, kattr⟩) "qualifiers" (.bool false)
        = .arr (qs.map kqualJVal) := by
      cases kattr <;>
        simp [kedgeJVal, jvGetD, aGetD, aGet, List.find?]
    have hsome : kedgeToQualifiers env (kedgeJVal ⟨ksub, kobj, kpred, some qs, kattr⟩) =
        some ((qs.map kqualJVal).foldl
          (fun m q => aSet m (env.sanitizeBiolinkElement (jvToString (jvGet q "qualifier_type_id")))
            (env.sanitizeBiolinkElement (jvToString (jvGet q "qualifier_value")))) []) := by
      simp [kedgeToQualifiers, hval, truthy, jvElems]
    refine ⟨_, hsome, ?_, ?_⟩ <;>
      simp only [edgeToQualifiedPredicate, hsome, hpred, jvToString,
        finalizeQualifiedPredicate] <;>
      cases haq : aGet ((qs.map kqualJVal).foldl
          (fun m q => aSet m (env.sanitizeBiolinkElement (jvToString (jvGet q "qualifier_type_id")))
            (env.sanitizeBiolinkElement (jvToString (jvGet q "qualifier_value")))) [])
          "qualified predicate" <;>
      simp [haq, finalizeQualifiedPredicate]

/-- C6 witness: a qualifier-free edge and the qualified fixture edge. -/
theorem C6_qualified_predicate_witness :
    (edgeToQualifiedPredicate blEnv (kedgeJVal (treatsEdge "C:1" "D:1")) false = "treats" ∧
     edgeToQualifiedPredicate blEnv (kedgeJVal (treatsEdge "C:1" "D:1")) true =
       blEnv.invertBiolinkPredicate "treats") ∧
    (∃ qualifiers, kedgeToQualifiers blEnv (kedgeJVal c1edge) = some qualifiers ∧
      (let subjStr := qualifiersToString "subject" qualifiers
       let objStr := qualifiersToString "object" qualifiers
       let basePred := match aGet qualifiers "qualified predicate" with
         | some qp => if qp ≠ "" then qp else c1edge.predicate
         | none => c1edge.predicate
       edgeToQualifiedPredicate blEnv (kedgeJVal c1edge) false =
         (if subjStr ≠ "" then subjStr ++ " " else "") ++ basePred ++
           (if objStr ≠ "" then " " ++ objStr ++ " of" else "") ∧
       edgeToQualifiedPredicate blEnv (kedgeJVal c1edge) true =
         (if objStr ≠ "" then objStr ++ " " else "") ++ blEnv.invertBiolinkPredicate basePred ++
           (if subjStr ≠ "" then " " ++ subjStr ++ " of" else ""))) :=
  ⟨(C6_qualified_predicate blEnv (treatsEdge "C:1" "D:1")).1 rfl,
   (C6_qualified_predicate blEnv c1edge).2 [⟨"biolink:object_aspect_qualifier", "activity"⟩] rfl⟩

theorem aGet_nil {κ α : Type} [DecidableEq κ] (k : κ) : aGet ([] : List (κ × α)) k = none := rfl

theorem aGet_cons {κ α : Type} [DecidableEq κ] (e : κ × α) (m : List (κ × α)) (k : κ) :
    aGet (e :: m) k = if e.1 = k then some e.2 else aGet m k := by
  by_cases h : e.1 = k <;> simp [aGet, List.find?, h]

theorem aGet_mem {κ α : Type} [DecidableEq κ] {m : List (κ × α)} {k : κ} {v : α}
    (h : aGet m k = some v) : (k, v) ∈ m := by
  induction m with
  | nil => simp [aGet] at h
  | cons e m ih =>
    rw [aGet_cons] at h
    by_cases he : e.1 = k
    · simp only [he, if_pos] at h
      have : e = (k, v) := by
        cases e
        simp only [Option.some_inj] at h
        simp_all
      rw [← this]
      exact List.mem_cons_self _ _
    · simp only [he, if_neg, if_false] at h
      exact List.mem_cons_of_mem _ (ih h)

theorem aGet_append {κ α : Type} [DecidableEq κ] (m1 m2 : List (κ × α)) (k : κ) :
    aGet (m1 ++ m2) k = ((aGet m1 k).orElse (fun _ => aGet m2 k)) := by
  induction m1 with
  | nil => simp [aGet]
  | cons e m ih =>
    rw [List.cons_append, aGet_cons, aGet_cons]
    by_cases h : e.1 = k <;> simp [h, ih]

theorem aGet_map_set {κ α : Type} [DecidableEq κ] (m : List (κ × α)) (k k2 : κ) (v : α) :
    aGet (m.map (fun e => if e.1 = k then (k, v) else e)) k2 =
      if k2 = k then (aGet m k).map (fun _ => v) else aGet m k2 := by
  induction m with
  | nil => simp [aGet]
  | cons e m ih =>
    rw [List.map_cons]
    by_cases he : e.1 = k
    · by_cases hk : k2 = k
      · subst hk
        simp [aGet_cons, he, ih]
      · have hk2 : ¬ k = k2 := fun h => hk h.symm
        simp [aGet_cons, he, hk2, ih, hk]
    · by_cases hk : k2 = k
      · subst hk
        simp [aGet_cons, he, ih]
      · by_cases he2 : e.1 = k2 <;> simp [aGet_cons, he, he2, ih, hk]

theorem aGet_aSet {κ α : Type} [DecidableEq κ] (m : List (κ × α)) (k k2 : κ) (v : α) :
    aGet (aSet m k v) k2 = if k2 = k then some v else aGet m k2 := by
  rcases ho : aGet m k with _ | v2
  · simp only [aSet, ho, Option.isSome_none, Bool.false_eq_true, if_false]
    rw [aGet_append]
    by_cases hk : k2 = k
    · subst hk
      simp [ho, aGet_cons, Option.orElse]
    · have hk2 : ¬ k = k2 := fun h => hk h.symm
      rcases ho2 : aGet m k2 with _ | w <;> simp [ho2, aGet_cons, Option.orElse, hk, hk2, aGet]
  · simp only [aSet, ho, Option.isSome_some, if_true]
    rw [aGet_map_set, ho]
    by_cases hk : k2 = k <;> simp [hk]

theorem aGet_aSet_self {κ α : Type} [DecidableEq κ] (m : List (κ × α)) (k : κ) (v : α) :
    aGet (aSet m k v) k = some v := by
  simp [aGet_aSet]

theorem aGet_aSet_ne {κ α : Type} [DecidableEq κ] (m : List (κ × α)) (k k2 : κ) (v : α)
    (h : k2 ≠ k) : aGet (aSet m k v) k2 = aGet m k2 := by
  simp [aGet_aSet, h]

theorem aGet_aSetDefault {κ α : Type} [DecidableEq κ] (m : List (κ × α)) (k k2 : κ) (v : α) :
    aGet (aSetDefault m k v) k2 =
      if k2 = k then some ((aGet m k).getD v) else aGet m k2 := by
  rcases ho : aGet m k with _ | v2
  · simp only [aSetDefault, ho, Option.isSome_none, Bool.false_eq_true, if_false]
    rw [aGet_append]
    by_cases hk : k2 = k
    · subst hk
      simp [ho, aGet_cons, Option.orElse]
    · have hk2 : ¬ k = k2 := fun h => hk h.symm
      rcases ho2 : aGet m k2 with _ | w <;> simp [ho2, aGet_cons, Option.orElse, hk, hk2, aGet]
  · simp only [aSetDefault, ho, Option.isSome_some, if_true]
    by_cases hk : k2 = k
    · subst hk
      simp [ho]
    · simp [hk]

theorem aGet_aSetDefault_self {κ α : Type} [DecidableEq κ] (m : List (κ × α)) (k : κ) (v : α) :
    aGet (aSetDefault m k v) k = some ((aGet m k).getD v) := by
  simp [aGet_aSetDefault]

theorem aGet_aSetDefault_ne {κ α : Type} [DecidableEq κ] (m : List (κ × α)) (k k2 : κ) (v : α)
    (h : k2 ≠ k) : aGet (aSetDefault m k v) k2 = aGet m k2 := by
  simp [aGet_aSetDefault, h]

theorem mem_aKeys_iff_isSome {κ α : Type} [DecidableEq κ] (m : List (κ × α)) (k : κ) :
    k ∈ aKeys m ↔ (aGet m k).isSome := by
  induction m with
  | nil => simp [aKeys, aGet]
  | cons e m ih =>
    rw [aGet_cons]
    by_cases he : e.1 = k
    · simp [aKeys, he]
    · have h2 : ¬ k = e.1 := fun h => he h.symm
      rw [show aKeys (e :: m) = e.1 :: aKeys m from rfl, List.mem_cons, ih]
      simp [he, h2]

theorem aKeys_aSet {κ α : Type} [DecidableEq κ] (m : List (κ × α)) (k k2 : κ) (v : α) :
    (k2 ∈ aKeys (aSet m k v)) ↔ (k2 ∈ aKeys m ∨ k2 = k) := by
  by_cases he : k2 = k
  · subst he
    simp [mem_aKeys_iff_isSome, aGet_aSet_self]
  · simp [mem_aKeys_iff_isSome, aGet_aSet_ne m k k2 v he, he]

theorem aKeys_aSetDefault {κ α : Type} [DecidableEq κ] (m : List (κ × α)) (k k2 : κ) (v : α) :
    (k2 ∈ aKeys (aSetDefault m k v)) ↔ (k2 ∈ aKeys m ∨ k2 = k) := by
  by_cases he : k2 = k
  · subst he
    simp [mem_aKeys_iff_isSome, aGet_aSetDefault_self]
  · simp [mem_aKeys_iff_isSome, aGet_aSetDefault_ne m k k2 v he, he]

theorem mem_jsDedup {α : Type} [DecidableEq α] (l : List α) (x : α) :
    x ∈ jsDedup l ↔ x ∈ l := by
  have hgen : ∀ (l acc : List α), x ∈ l.foldl (fun acc a => if a ∈ acc then acc else acc ++ [a]) acc
      ↔ x ∈ acc ∨ x ∈ l := by
    intro l
    induction l with
    | nil => simp
    | cons a l ih =>
      intro acc
      by_cases ha : a ∈ acc
      · rw [List.foldl_cons, if_pos ha, ih]
        constructor
        · rintro (h | h)
          · exact Or.inl h
          · exact Or.inr (List.mem_cons_of_mem _ h)
        · rintro (h | h)
          · exact Or.inl h
          · rcases List.mem_cons.mp h with rfl | h
            · exact Or.inl ha
            · exact Or.inr h
      · rw [List.foldl_cons, if_neg ha, ih]
        simp only [List.mem_append, List.mem_singleton, List.mem_cons]
        tauto
  simpa [jsDedup] using hgen l []

theorem jsDedup_nodup {α : Type} [DecidableEq α] (l : List α) : (jsDedup l).Nodup := by
  have hgen : ∀ (l acc : List α), acc.Nodup →
      (l.foldl (fun acc a => if a ∈ acc then acc else acc ++ [a]) acc).Nodup := by
    intro l
    induction l with
    | nil => intro acc h; simpa using h
    | cons a l ih =>
      intro acc hacc
      by_cases ha : a ∈ acc
      · rw [List.foldl_cons, if_pos ha]
        exact ih _ hacc
      · rw [List.foldl_cons, if_neg ha]
        exact ih _ (by simp [List.nodup_append, hacc, ha])
  exact hgen l [] List.nodup_nil

theorem strCmp_data_lt (a b : String) : (a.data < b.data) ↔ a < b :=
  (String.lt_iff_toList_lt).symm

theorem strCmp_eq_iff (a b : String) : strCmp a b = .eq ↔ a = b := by
  unfold strCmp
  simp only [strCmp_data_lt]
  by_cases h1 : a < b
  · simp only [h1, if_true]
    constructor
    · intro h; cases h
    · intro h; exact absurd h (ne_of_lt h1)
  · by_cases h2 : b < a
    · simp only [h1, h2, if_false, if_true]
      constructor
      · intro h; cases h
      · intro h; exact absurd h.symm (ne_of_lt h2)
    · simp only [h1, h2, if_false]
      simp [le_antisymm (not_lt.mp h2) (not_lt.mp h1)]

theorem strCmp_swap (a b : String) : (strCmp a b).swap = strCmp b a := by
  unfold strCmp
  simp only [strCmp_data_lt]
  rcases lt_trichotomy a b with h | h | h
  · simp [h, not_lt.mpr (le_of_lt h), Ordering.swap]
  · simp [h, lt_irrefl, Ordering.swap]
  · simp [h, not_lt.mpr (le_of_lt h), Ordering.swap]

theorem strCmp_lt_iff (a b : String) : strCmp a b = .lt ↔ a < b := by
  unfold strCmp
  simp only [strCmp_data_lt]
  by_cases h1 : a < b
  · simp [h1]
  · by_cases h2 : b < a <;> simp [h1, h2]

theorem strCmp_lt_trans {a b c : String} (h1 : strCmp a b = .lt) (h2 : strCmp b c = .lt) :
    strCmp a c = .lt := by
  rw [strCmp_lt_iff] at h1 h2 ⊢
  exact lt_trans h1 h2

mutual

theorem hkCmp_eq_iff : ∀ a b : HKey, hkCmp a b = .eq ↔ a = b
  | .str a, .str b => by
    rw [show hkCmp (.str a) (.str b) = strCmp a b from rfl, strCmp_eq_iff]
    simp
  | .str _, .fls => by simp [hkCmp]
  | .str _, .hash _ => by simp [hkCmp]
  | .fls, .str _ => by simp [hkCmp]
  | .fls, .fls => by simp [hkCmp]
  | .fls, .hash _ => by simp [hkCmp]
  | .hash _, .str _ => by simp [hkCmp]
  | .hash _, .fls => by simp [hkCmp]
  | .hash a, .hash b => by
    rw [show hkCmp (.hash a) (.hash b) = hkCmpList a b from rfl, hkCmpList_eq_iff a b]
    simp

theorem hkCmpList_eq_iff : ∀ a b : List HKey, hkCmpList a b = .eq ↔ a = b
  | [], [] => by simp [hkCmpList]
  | [], _ :: _ => by simp [hkCmpList]
  | _ :: _, [] => by simp [hkCmpList]
  | a :: as, b :: bs => by
    rw [show hkCmpList (a :: as) (b :: bs) =
      (match hkCmp a b with
       | .lt => .lt
       | .gt => .gt
       | .eq => hkCmpList as bs) from rfl]
    rcases hc : hkCmp a b with _ | _ | _
    · have : ¬ a = b := fun h => by rw [h, (hkCmp_eq_iff b b).mpr rfl] at hc; cases hc
      simp [this]
    · have := (hkCmp_eq_iff a b).mp hc
      subst this
      rw [hkCmpList_eq_iff as bs]
      simp
    · have : ¬ a = b := fun h => by rw [h, (hkCmp_eq_iff b b).mpr rfl] at hc; cases hc
      simp [this]

end

mutual

theorem hkCmp_swap : ∀ a b : HKey, (hkCmp a b).swap = hkCmp b a
  | .str a, .str b => strCmp_swap a b
  | .str _, .fls => by simp [hkCmp, Ordering.swap]
  | .str _, .hash _ => by simp [hkCmp, Ordering.swap]
  | .fls, .str _ => by simp [hkCmp, Ordering.swap]
  | .fls, .fls => by simp [hkCmp, Ordering.swap]
  | .fls, .hash _ => by simp [hkCmp, Ordering.swap]
  | .hash _, .str _ => by simp [hkCmp, Ordering.swap]
  | .hash _, .fls => by simp [hkCmp, Ordering.swap]
  | .hash a, .hash b => hkCmpList_swap a b

theorem hkCmpList_swap : ∀ a b : List HKey, (hkCmpList a b).swap = hkCmpList b a
  | [], [] => by simp [hkCmpList, Ordering.swap]
  | [], _ :: _ => by simp [hkCmpList, Ordering.swap]
  | _ :: _, [] => by simp [hkCmpList, Ordering.swap]
  | a :: as, b :: bs => by
    rw [show hkCmpList (a :: as) (b :: bs) =
      (match hkCmp a b with
       | .lt => .lt
       | .gt => .gt
       | .eq => hkCmpList as bs) from rfl,
      show hkCmpList (b :: bs) (a :: as) =
      (match hkCmp b a with
       | .lt => .lt
       | .gt => .gt
       | .eq => hkCmpList bs as) from rfl]
    have hswap := hkCmp_swap a b
    rcases hc : hkCmp a b with _ | _ | _
    · have hba : hkCmp b a = .gt := by rw [← hswap, hc]; rfl
      simp [hc, hba, Ordering.swap]
    · have hba : hkCmp b a = .eq := by rw [← hswap, hc]; rfl
      simp [hc, hba, hkCmpList_swap as bs]
    · have hba : hkCmp b a = .lt := by rw [← hswap, hc]; rfl
      simp [hc, hba, Ordering.swap]

end

mutual

theorem hkCmp_lt_trans : ∀ a b c : HKey, hkCmp a b = .lt → hkCmp b c = .lt → hkCmp a c = .lt
  | .str a, .str b, .str c => fun h1 h2 => strCmp_lt_trans h1 h2
  | .str _, .fls, .str _ => fun _ h2 => by cases h2
  | .str _, .hash _, .str _ => fun _ h2 => by cases h2
  | .str _, _, .fls => fun _ _ => rfl
  | .str _, _, .hash _ => fun _ _ => rfl
  | .fls, .str _, .str _ => fun h1 _ => by cases h1
  | .fls, .fls, .str _ => fun h1 _ => by cases h1
  | .fls, .hash _, .str _ => fun _ h2 => by cases h2
  | .fls, .str _, .fls => fun h1 _ => by cases h1
  | .fls, .fls, .fls => fun h1 _ => by cases h1
  | .fls, .hash _, .fls => fun _ h2 => by cases h2
  | .fls, _, .hash _ => fun _ _ => rfl
  | .hash _, .str _, .str _ => fun h1 _ => by cases h1
  | .hash _, .fls, .str _ => fun h1 _ => by cases h1
  | .hash _, .hash _, .str _ => fun _ h2 => by cases h2
  | .hash _, .str _, .fls => fun h1 _ => by cases h1
  | .hash _, .fls, .fls => fun h1 _ => by cases h1
  | .hash _, .hash _, .fls => fun _ h2 => by cases h2
  | .hash _, .str _, .hash _ => fun h1 _ => by cases h1
  | .hash _, .fls, .hash _ => fun h1 _ => by cases h1
  | .hash a, .hash b, .hash c => fun h1 h2 => hkCmpList_lt_trans a b c h1 h2

theorem hkCmpList_lt_trans :
    ∀ a b c : List HKey, hkCmpList a b = .lt → hkCmpList b c = .lt → hkCmpList a c = .lt
  | [], [], _ => fun h1 _ => by cases h1
  | [], _ :: _, [] => fun _ h2 => by cases h2
  | [], _ :: _, _ :: _ => fun _ _ => rfl
  | _ :: _, [], _ => fun h1 _ => by cases h1
  | _ :: _, _ :: _, [] => fun _ h2 => by cases h2
  | a :: as, b :: bs, c :: cs => fun h1 h2 => by
    revert h1 h2
    rw [show hkCmpList (a :: as) (b :: bs) =
      (match hkCmp a b with | .lt => .lt | .gt => .gt | .eq => hkCmpList as bs) from rfl,
      show hkCmpList (b :: bs) (c :: cs) =
      (match hkCmp b c with | .lt => .lt | .gt => .gt | .eq => hkCmpList bs cs) from rfl,
      show hkCmpList (a :: as) (c :: cs) =
      (match hkCmp a c with | .lt => .lt | .gt => .gt | .eq => hkCmpList as cs) from rfl]
    generalize hab : hkCmp a b = oab
    generalize hbc : hkCmp b c = obc
    cases oab <;> cases obc <;> intro h1 h2
    · rw [hkCmp_lt_trans a b c hab hbc]
    · have hbceq := (hkCmp_eq_iff b c).mp hbc
      subst hbceq
      rw [hab]
    · cases h2
    · have heq := (hkCmp_eq_iff a b).mp hab
      subst heq
      rw [hbc]
    · have heq := (hkCmp_eq_iff a b).mp hab
      subst heq
      have heq2 := (hkCmp_eq_iff a c).mp hbc
      subst heq2
      have h1x : hkCmpList as bs = .lt := h1
      have h2x : hkCmpList bs cs = .lt := h2
      rw [(hkCmp_eq_iff a a).mpr rfl]
      exact hkCmpList_lt_trans as bs cs h1x h2x
    · cases h2
    · cases h1
    · cases h1
    · cases h1

end

theorem hkLt_asymm {a b : HKey} (h : hkLt a b = true) : hkLt b a = false := by
  unfold hkLt at h ⊢
  have hc : hkCmp a b = .lt := by
    cases hcc : hkCmp a b <;> rw [hcc] at h <;> first | rfl | cases h
  have : hkCmp b a = .gt := by
    rw [← hkCmp_swap a b, hc]
    rfl
  rw [this]
  rfl

theorem hkLt_trans {a b c : HKey} (h1 : hkLt a b = true) (h2 : hkLt b c = true) :
    hkLt a c = true := by
  unfold hkLt at h1 h2 ⊢
  have hc1 : hkCmp a b = .lt := by
    cases hcc : hkCmp a b <;> rw [hcc] at h1 <;> first | rfl | cases h1
  have hc2 : hkCmp b c = .lt := by
    cases hcc : hkCmp b c <;> rw [hcc] at h2 <;> first | rfl | cases h2
  rw [hkCmp_lt_trans a b c hc1 hc2]
  rfl

theorem hkLt_tie {a b : HKey} (h1 : hkLt a b = false) (h2 : hkLt b a = false) : a = b := by
  unfold hkLt at h1 h2
  rcases hc : hkCmp a b with _ | _ | _
  · rw [hc] at h1; cases h1
  · exact (hkCmp_eq_iff a b).mp hc
  · have : hkCmp b a = .lt := by
      rw [← hkCmp_swap a b, hc]
      rfl
    rw [this] at h2
    cases h2

theorem hkLt_irrefl (a : HKey) : hkLt a a = false := by
  unfold hkLt
  rw [(hkCmp_eq_iff a a).mpr rfl]
  rfl

theorem evenLexCmp_swap_eqlen :
    ∀ a b : List HKey, a.length = b.length → evenLexCmp b a = -(evenLexCmp a b)
  | [], [], _ => by decide
  | [], _ :: _, h => by simp at h
  | _ :: _, [], h => by simp at h
  | [a], [b], _ => by
    by_cases h1 : hkLt a b
    · simp [evenLexCmp, h1, hkLt_asymm h1]
    · by_cases h2 : hkLt b a
      · simp [evenLexCmp, h1, h2, hkLt_asymm h2]
      · simp [evenLexCmp, h1, h2]
  | [a], b :: y :: bs, h => by simp at h
  | a :: x :: as, [b], h => by simp at h
  | a :: x :: as, b :: y :: bs, h => by
    have hlen : as.length = bs.length := by simp at h; omega
    by_cases h1 : hkLt a b
    · simp [evenLexCmp, h1, hkLt_asymm h1]
    · by_cases h2 : hkLt b a
      · simp [evenLexCmp, h1, h2, hkLt_asymm h2]
      · simp only [evenLexCmp, h1, h2, if_false, Bool.false_eq_true, List.drop_one,
          List.tail_cons]
        exact evenLexCmp_swap_eqlen as bs hlen

theorem evenLexCmp_lt_trans_eqlen :
    ∀ a b c : List HKey, a.length = b.length → b.length = c.length →
      evenLexCmp a b < 0 → evenLexCmp b c < 0 → evenLexCmp a c < 0
  | [], [], [], _, _, h1, _ => by simp [evenLexCmp] at h1
  | [], _ :: _, _, hab, _, _, _ => by simp at hab
  | _ :: _, [], _, hab, _, _, _ => by simp at hab
  | _ :: _, _ :: _, [], _, hbc, _, _ => by simp at hbc
  | [a], [b], [c], _, _, h1, h2 => by
    by_cases hab : hkLt a b
    · by_cases hbc : hkLt b c
      · simp [evenLexCmp, hkLt_trans hab hbc]
      · by_cases hcb : hkLt c b
        · simp [evenLexCmp, hbc, hcb] at h2
        · have : b = c := hkLt_tie (by simpa using hbc) (by simpa using hcb)
          subst this
          simp [evenLexCmp, hab]
    · by_cases hba : hkLt b a
      · simp [evenLexCmp, hab, hba] at h1
      · have : a = b := hkLt_tie (by simpa using hab) (by simpa using hba)
        subst this
        simp [evenLexCmp, hab] at h1
  | [a], [b], c :: y :: cs, _, hbc, _, _ => by simp at hbc
  | [a], b :: y :: bs, _ :: _, hab, _, _, _ => by simp at hab
  | a :: x :: as, [b], _ :: _, hab, _, _, _ => by simp at hab
  | a :: x :: as, b :: y :: bs, [c], _, hbc, _, _ => by simp at hbc
  | a :: x :: as, b :: y :: bs, c :: z :: cs, hab, hbc, h1, h2 => by
    have hlab : as.length = bs.length := by simp at hab; omega
    have hlbc : bs.length = cs.length := by simp at hbc; omega
    by_cases h1b : hkLt a b
    · by_cases h2b : hkLt b c
      · simp [evenLexCmp, hkLt_trans h1b h2b]
      · by_cases hcb : hkLt c b
        · simp [evenLexCmp, h2b, hcb] at h2
        · have : b = c := hkLt_tie (by simpa using h2b) (by simpa using hcb)
          subst this
          simp [evenLexCmp, h1b]
    · by_cases hba : hkLt b a
      · simp [evenLexCmp, h1b, hba] at h1
      · have heqab : a = b := hkLt_tie (by simpa using h1b) (by simpa using hba)
        subst heqab
        have h1r : evenLexCmp as bs < 0 := by
          simpa [evenLexCmp, hkLt_irrefl] using h1
        by_cases h2b : hkLt a c
        · simp [evenLexCmp, h2b]
        · by_cases hca : hkLt c a
          · simp [evenLexCmp, h2b, hca] at h2
          · have h2r : evenLexCmp bs cs < 0 := by
              simpa [evenLexCmp, h2b, hca] using h2
            have hrec := evenLexCmp_lt_trans_eqlen as bs cs hlab hlbc h1r h2r
            simpa [evenLexCmp, h2b, hca] using hrec

theorem jsSortInsert_perm {α : Type} (lt : α → α → Bool) (x : α) :
    ∀ l : List α, (jsSortInsert lt x l).Perm (x :: l)
  | [] => List.Perm.refl _
  | y :: ys => by
    by_cases h : lt x y
    · simp [jsSortInsert, h]
    · simp only [jsSortInsert, h, if_false, Bool.false_eq_true]
      exact ((jsSortInsert_perm lt x ys).cons y).trans (List.Perm.swap x y ys)

theorem jsSort_foldl_perm {α : Type} (lt : α → α → Bool) :
    ∀ (l acc : List α),
      (l.foldl (fun acc x => jsSortInsert lt x acc) acc).Perm (acc ++ l)
  | [], acc => by simp
  | x :: xs, acc => by
    have h1 := jsSort_foldl_perm lt xs (jsSortInsert lt x acc)
    have h2 : (jsSortInsert lt x acc ++ xs).Perm (acc ++ x :: xs) := by
      refine ((jsSortInsert_perm lt x acc).append_right xs).trans ?h
      exact List.perm_middle.symm
    exact (by simpa using h1.trans h2 : _)

theorem jsSort_perm {α : Type} (lt : α → α → Bool) (l : List α) :
    (jsSort lt l).Perm l := by
  simpa [jsSort] using jsSort_foldl_perm lt l []

theorem jsSort_nodup {α : Type} (lt : α → α → Bool) {l : List α} (h : l.Nodup) :
    (jsSort lt l).Nodup :=
  (jsSort_perm lt l).nodup_iff.mpr h

theorem jsSortInsert_pairwise {α : Type} {lt : α → α → Bool}
    (hasym : ∀ a b, lt a b = true → lt b a = false)
    (htrans : ∀ a b c, lt a b = true → lt b c = true → lt a c = true) (x : α) :
    ∀ {l : List α}, l.Pairwise (fun a b => lt b a = false) →
      (jsSortInsert lt x l).Pairwise (fun a b => lt b a = false)
  | [], _ => by simp [jsSortInsert]
  | y :: ys, hp => by
    rcases List.pairwise_cons.mp hp with ⟨hy, hys⟩
    by_cases h : lt x y
    · simp only [jsSortInsert, h, if_true]
      refine List.pairwise_cons.mpr ⟨?hmem, hp⟩
      intro z hz
      rcases List.mem_cons.mp hz with hzy | hzys
      · subst hzy; exact hasym x z h
      · rcases hb : lt z x with _ | _
        · rfl
        · exact absurd (htrans z x y hb h) (by rw [hy z hzys]; exact fun hc => nomatch hc)
    · simp only [jsSortInsert, h, if_false, Bool.false_eq_true]
      refine List.pairwise_cons.mpr ⟨?hmem2, jsSortInsert_pairwise hasym htrans x hys⟩
      intro z hz
      rcases List.mem_cons.mp ((jsSortInsert_perm lt x ys).mem_iff.mp hz) with hzx | hzys
      · subst hzx
        exact (Bool.not_eq_true _).mp h
      · exact hy z hzys

theorem jsSort_foldl_pairwise {α : Type} {lt : α → α → Bool}
    (hasym : ∀ a b, lt a b = true → lt b a = false)
    (htrans : ∀ a b c, lt a b = true → lt b c = true → lt a c = true) :
    ∀ (l acc : List α), acc.Pairwise (fun a b => lt b a = false) →
      (l.foldl (fun acc x => jsSortInsert lt x acc) acc).Pairwise
        (fun a b => lt b a = false)
  | [], _, hp => hp
  | x :: xs, acc, hp =>
    jsSort_foldl_pairwise hasym htrans xs (jsSortInsert lt x acc)
      (jsSortInsert_pairwise hasym htrans x hp)

theorem jsSort_pairwise {α : Type} {lt : α → α → Bool}
    (hasym : ∀ a b, lt a b = true → lt b a = false)
    (htrans : ∀ a b c, lt a b = true → lt b c = true → lt a c = true) (l : List α) :
    (jsSort lt l).Pairwise (fun a b => lt b a = false) :=
  jsSort_foldl_pairwise hasym htrans l [] (List.Pairwise.nil)

theorem pathLt_true_iff (paths : List (HKey × PathEntry)) (a b : HKey) :
    pathLt paths a b = true ↔ isPathLessThan paths a b < 0 := by
  simp [pathLt]

theorem pathLt_asymm (paths : List (HKey × PathEntry)) (a b : HKey)
    (h : pathLt paths a b = true) : pathLt paths b a = false := by
  rw [pathLt_true_iff] at h
  rw [← Bool.not_eq_true, pathLt_true_iff, not_lt]
  unfold isPathLessThan at h ⊢
  by_cases hl : (getPathFromPid paths a).length = (getPathFromPid paths b).length
  · rw [if_pos hl] at h
    rw [if_pos hl.symm, evenLexCmp_swap_eqlen (getPathFromPid paths a)
      (getPathFromPid paths b) hl]
    omega
  · rw [if_neg hl] at h
    by_cases hlt : (getPathFromPid paths a).length < (getPathFromPid paths b).length
    · rw [if_neg (fun hx => hl hx.symm), if_neg (by omega)]
      omega
    · rw [if_neg hlt] at h
      omega

theorem pathLt_trans (paths : List (HKey × PathEntry)) (a b c : HKey)
    (h1 : pathLt paths a b = true) (h2 : pathLt paths b c = true) :
    pathLt paths a c = true := by
  rw [pathLt_true_iff] at h1 h2 ⊢
  unfold isPathLessThan at h1 h2 ⊢
  by_cases hab : (getPathFromPid paths a).length = (getPathFromPid paths b).length
  · rw [if_pos hab] at h1
    by_cases hbc : (getPathFromPid paths b).length = (getPathFromPid paths c).length
    · rw [if_pos hbc] at h2
      rw [if_pos (hab.trans hbc)]
      exact evenLexCmp_lt_trans_eqlen _ _ _ hab hbc h1 h2
    · rw [if_neg hbc] at h2
      by_cases hbc2 : (getPathFromPid paths b).length < (getPathFromPid paths c).length
      · rw [if_neg (by omega), if_pos (by omega)]
        omega
      · rw [if_neg hbc2] at h2
        omega
  · rw [if_neg hab] at h1
    by_cases hab2 : (getPathFromPid paths a).length < (getPathFromPid paths b).length
    · by_cases hbc : (getPathFromPid paths b).length = (getPathFromPid paths c).length
      · rw [if_neg (by omega), if_pos (by omega)]
        omega
      · rw [if_neg hbc] at h2
        by_cases hbc2 : (getPathFromPid paths b).length < (getPathFromPid paths c).length
        · rw [if_neg (by omega), if_pos (by omega)]
          omega
        · rw [if_neg hbc2] at h2
          omega
    · rw [if_neg hab2] at h1
      omega

theorem pathLt_false_iff (paths : List (HKey × PathEntry)) (p q : HKey) :
    pathLt paths q p = false ↔
      ((getPathFromPid paths p).length < (getPathFromPid paths q).length ∨
        ((getPathFromPid paths p).length = (getPathFromPid paths q).length ∧
          evenLexCmp (getPathFromPid paths p) (getPathFromPid paths q) ≤ 0)) := by
  rw [← Bool.not_eq_true, pathLt_true_iff, not_lt]
  unfold isPathLessThan
  by_cases hl : (getPathFromPid paths q).length = (getPathFromPid paths p).length
  · rw [if_pos hl, evenLexCmp_swap_eqlen (getPathFromPid paths p)
      (getPathFromPid paths q) hl.symm]
    constructor
    · intro h
      exact Or.inr ⟨hl.symm, by omega⟩
    · rintro (h | ⟨_, h⟩)
      · omega
      · omega
  · rw [if_neg hl]
    by_cases hlt : (getPathFromPid paths q).length < (getPathFromPid paths p).length
    · rw [if_pos hlt]
      constructor
      · omega
      · rintro (h | ⟨h, _⟩)
        · omega
        · exact absurd h.symm hl
    · rw [if_neg hlt]
      constructor
      · intro _
        exact Or.inl (by omega)
      · intro _
        omega

/-- C8 (amended): in the final summary every result's paths list contains no
duplicate path keys and is sorted ascending by the length of the accumulated
(pre-deduplication) subgraph of each path key first and then, among equal
lengths, lexicographically on the elements at even indices of those
subgraphs.  (The source sorts before the subgraphs are deduplicated, so the
order is with respect to the merged paths table as accumulated, not the
final deduplicated one.) -/
theorem C8_paths_sorted (env : BiolinkEnv) (canon : String → Option String) (qid : String)
    (cs : List CondensedSummary) :
    ((condensedSummariesToSummary env canon qid cs).results).Forall (fun r =>
      r.paths.Nodup ∧
      r.paths.Pairwise (fun p q =>
        ((getPathFromPid (mergedState env canon cs).paths p).length <
            (getPathFromPid (mergedState env canon cs).paths q).length ∨
          ((getPathFromPid (mergedState env canon cs).paths p).length =
              (getPathFromPid (mergedState env canon cs).paths q).length ∧
            evenLexCmp (getPathFromPid (mergedState env canon cs).paths p)
              (getPathFromPid (mergedState env canon cs).paths q) ≤ 0)))) := by
  rw [List.forall_iff_forall_mem]
  intro r hr
  simp only [condensedSummariesToSummary, expandResults, List.mem_map] at hr
  obtain ⟨ps, hps, hre⟩ := hr
  obtain ⟨ps0, _, hdd⟩ := hps
  constructor
  · have hpaths : r.paths = jsSort (pathLt (mergedState env canon cs).paths) ps := by
      rw [← hre]
    rw [hpaths, ← hdd]
    exact jsSort_nodup _ (jsDedup_nodup ps0)
  · have hpaths : r.paths = jsSort (pathLt (mergedState env canon cs).paths) ps := by
      rw [← hre]
    rw [hpaths]
    have hp := jsSort_pairwise
      (fun a b h => pathLt_asymm (mergedState env canon cs).paths a b h)
      (fun a b c h1 h2 => pathLt_trans (mergedState env canon cs).paths a b c h1 h2) ps
    exact hp.imp (fun h => (pathLt_false_iff (mergedState env canon cs).paths _ _).mp h)

/-- C8, counterexample to the claim as stated: read against the final
summary's own paths table (whose subgraphs have been deduplicated after the
sort), the sortedness fails on c8Answer: the path through the alias of the
drug is sorted last by its pre-deduplication length 5, but its final
subgraph has length 4, shorter than the length-5 subgraph sorted before
it. -/
theorem C8_counterexample :
    ¬ ((creativeAnswersToSummary blEnv 2 "Q8" [c8Answer]).results.map
        (fun r => r.paths)).Forall (fun ps =>
      ps.Pairwise (fun p q =>
        (getPathFromPid (creativeAnswersToSummary blEnv 2 "Q8" [c8Answer]).paths p).length <
            (getPathFromPid (creativeAnswersToSummary blEnv 2 "Q8" [c8Answer]).paths q).length ∨
          ((getPathFromPid (creativeAnswersToSummary blEnv 2 "Q8" [c8Answer]).paths p).length =
              (getPathFromPid (creativeAnswersToSummary blEnv 2 "Q8" [c8Answer]).paths q).length ∧
            evenLexCmp
              (getPathFromPid (creativeAnswersToSummary blEnv 2 "Q8" [c8Answer]).paths p)
              (getPathFromPid (creativeAnswersToSummary blEnv 2 "Q8" [c8Answer]).paths q)
              ≤ 0))) := by decide

theorem aGet_map_vals {κ α β : Type} [DecidableEq κ] (g : α → β) (m : List (κ × α)) (k : κ) :
    aGet (m.map (fun e => (e.1, g e.2))) k = (aGet m k).map g := by
  induction m with
  | nil => rfl
  | cons e m ih =>
    rw [List.map_cons, aGet_cons, aGet_cons]
    by_cases h : e.1 = k <;> simp [h, ih]

theorem jvGet_jvSet_self (fields : List (String × JVal)) (k : String) (w : JVal) :
    jvGet (jvSet (.obj fields) k w) k = w := by
  simp [jvSet, jvGet, aGetD, aGet_aSet_self]

theorem jvGet_jvSet_ne (fields : List (String × JVal)) (k k2 : String) (w : JVal)
    (h : k2 ≠ k) : jvGet (jvSet (.obj fields) k w) k2 = jvGet (.obj fields) k2 := by
  simp [jvSet, jvGet, aGetD, aGet_aSet_ne fields k k2 w h]

theorem jvGetKpath_single (fields : List (String × JVal)) (k : String) (d : JVal) :
    jvGetKpath (.obj fields) [k] d = (aGet fields k).getD d := by
  rcases h : aGet fields k with _ | w <;> simp [jvGetKpath, h]

theorem jvGet_objRemoveDuplicates (fields : List (String × JVal)) (k : String) :
    jvGet (objRemoveDuplicates (.obj fields)) k =
      match jvGet (.obj fields) k with
      | .arr xs => .arr (jsDedup xs)
      | x => x := by
  show jvGet (.obj (fields.map (fun e =>
      (e.1, match e.2 with | .arr xs => .arr (jsDedup xs) | x => x)))) k = _
  have hmap := aGet_map_vals
    (fun x => match x with | JVal.arr xs => JVal.arr (jsDedup xs) | x => x) fields k
  simp only [jvGet, aGetD]
  rw [hmap]
  rcases h : aGet fields k with _ | w
  · rfl
  · cases w <;> rfl

theorem mem_aSet_aSetDefault {κ α : Type} [DecidableEq κ] {m : List (κ × α)} {k : κ}
    {d v : α} : ∀ kv ∈ aSet (aSetDefault m k d) k v, kv ∈ m ∨ kv.2 = v := by
  intro kv hkv
  by_cases hp : (aGet m k).isSome
  · rw [aSetDefault, if_pos hp, aSet, if_pos hp] at hkv
    obtain ⟨e, he, hfe⟩ := List.mem_map.mp hkv
    by_cases hek : e.1 = k
    · right
      rw [if_pos hek] at hfe
      rw [← hfe]
    · left
      rw [if_neg hek] at hfe
      rw [← hfe]
      exact he
  · rw [aSetDefault, if_neg hp] at hkv
    have hsome : (aGet (m ++ [(k, d)]) k).isSome := by
      rw [aGet_append]
      rcases hg : aGet m k with _ | w
      · simp [Option.orElse, aGet_cons]
      · exact absurd (hg ▸ rfl) hp
    rw [aSet, if_pos hsome] at hkv
    obtain ⟨e, he, hfe⟩ := List.mem_map.mp hkv
    by_cases hek : e.1 = k
    · right
      rw [if_pos hek] at hfe
      rw [← hfe]
    · left
      rw [if_neg hek] at hfe
      subst hfe
      rcases List.mem_append.mp he with h1 | h1
      · exact h1
      · rw [List.mem_singleton] at h1
        exact absurd (by rw [h1]) hek

theorem wrapArray_arr (V : JVal) :
    ∃ lu, (if isArrayJV V = true then V else .arr [V]) = .arr lu := by
  cases V <;> exact ⟨_, rfl⟩

theorem concatOrNew_arr (cv : JVal) (lu : List JVal)
    (hcv : cv = .bool false ∨ cv = .undef ∨ ∃ l, cv = .arr l) :
    ∃ l, (if truthy cv = true then jvConcat cv (.arr lu) else .arr lu) = .arr l := by
  rcases hcv with h | h | ⟨l, h⟩ <;> subst h
  · exact ⟨lu, rfl⟩
  · exact ⟨lu, rfl⟩
  · exact ⟨l ++ lu, rfl⟩

theorem aggregateProperty_apply (key k : String) (src : JVal)
    (fields : List (String × JVal)) :
    ∃ w, aggregateProperty key [k] src (.obj fields) = jvSet (.obj fields) k w ∧
      ((jvGet (.obj fields) k = .undef ∨ ∃ l, jvGet (.obj fields) k = .arr l) →
        ∃ l, w = .arr l) := by
  refine ⟨_, rfl, ?arr⟩
  intro h
  obtain ⟨lu, hlu⟩ := wrapArray_arr
    (if truthy (jvGetD src key (.bool false)) = true
      then id (jvGetD src key (.bool false)) else .arr [])
  rw [hlu]
  refine concatOrNew_arr _ lu ?hcv
  rw [jvGetKpath_single]
  simp only [jvGet, aGetD] at h
  rcases hg : aGet fields k with _ | v0
  · exact Or.inl rfl
  · rw [hg] at h
    simp only [Option.getD] at h ⊢
    rcases h with h | ⟨l, h⟩
    · exact Or.inr (Or.inl h)
    · exact Or.inr (Or.inr ⟨l, h⟩)

theorem aggregateAndTransformAttributes_apply (ids : List String) (tgt : String)
    (tr : JVal → JVal) (src : JVal) (fields : List (String × JVal)) :
    ∃ w, aggregateAndTransformAttributes ids tgt tr src (.obj fields) =
        jvSet (.obj fields) tgt w ∧
      ((jvGet (.obj fields) tgt = .undef ∨ ∃ l, jvGet (.obj fields) tgt = .arr l) →
        ∃ l, w = .arr l) := by
  refine ⟨_, rfl, ?arr⟩
  intro h
  have hV : ∃ lv, (if truthy (jvGetD src "attributes" (.bool false)) = true
      then (if areNoAttributes (jvGetD src "attributes" (.bool false)) = true
        then JVal.arr []
        else .arr ((jvElems (jvGetD src "attributes" (.bool false))).foldl
          (fun result attr =>
            let v := if (ids.map JVal.str).contains (attrId attr)
                     then attrValue attr else .arr []
            result ++ jvSpread (tr v)) []))
      else .arr []) = .arr lv := by
    by_cases ht : truthy (jvGetD src "attributes" (.bool false)) = true
    · rw [if_pos ht]
      by_cases hn : areNoAttributes (jvGetD src "attributes" (.bool false)) = true
      · rw [if_pos hn]
        exact ⟨[], rfl⟩
      · rw [if_neg hn]
        exact ⟨_, rfl⟩
    · rw [if_neg ht]
      exact ⟨[], rfl⟩
  obtain ⟨lv, hlv⟩ := hV
  rw [hlv]
  refine concatOrNew_arr _ lv ?hcv
  simp only [jvGet, aGetD] at h
  have hcv2 : jvGetD (.obj fields) tgt (.bool false) =
      (aGet fields tgt).getD (.bool false) := rfl
  rw [hcv2]
  rcases hg : aGet fields tgt with _ | v0
  · exact Or.inl rfl
  · rw [hg] at h
    simp only [Option.getD] at h ⊢
    rcases h with h | ⟨l, h⟩
    · exact Or.inr (Or.inl h)
    · exact Or.inr (Or.inr ⟨l, h⟩)

theorem aggregateAttributes_apply (ids : List String) (tgt : String) (src : JVal)
    (fields : List (String × JVal)) :
    ∃ w, aggregateAttributes ids tgt src (.obj fields) = jvSet (.obj fields) tgt w ∧
      ((jvGet (.obj fields) tgt = .undef ∨ ∃ l, jvGet (.obj fields) tgt = .arr l) →
        ∃ l, w = .arr l) :=
  aggregateAndTransformAttributes_apply ids tgt _ src fields

theorem renameAndTransformAttribute_apply (aid : String) (k : String) (tr : JVal → JVal)
    (src : JVal) (fields : List (String × JVal)) :
    ∃ w, renameAndTransformAttribute aid [k] tr src (.obj fields) =
      jvSet (.obj fields) k w :=
  ⟨_, rfl⟩

theorem step_sets (agent kr : String) (fields : List (String × JVal)) (w : JVal)
    (hkr : kr ≠ "aras") :
    ∃ f2, arasPushAgent (jvSet (.obj fields) kr w) agent = .obj f2 ∧
      jvGet (.obj f2) kr = w ∧
      (∀ k2, k2 ≠ "aras" → k2 ≠ kr → jvGet (.obj f2) k2 = jvGet (.obj fields) k2) := by
  refine ⟨_, rfl, ?hkr2, ?hoth⟩
  · simp [jvGet, aGetD, aGet_aSet_ne _ "aras" kr _ hkr, aGet_aSet_self]
  · intro k2 h2a h2r
    simp [jvGet, aGetD, aGet_aSet_ne _ "aras" k2 _ h2a, aGet_aSet_ne _ kr k2 _ h2r]

theorem nodeRules_apply (src : JVal) (agent : String) (v : JVal) (hv : nodeArraysPre v) :
    nodeArraysOK ((nodeRules src).foldl (fun o t => arasPushAgent (t o) agent) v) := by
  obtain ⟨⟨fields, rfl⟩, hnm, hcu⟩ := hv
  simp only [nodeRules, makeSummarizeRules, List.map_cons, List.map_nil, List.foldl_cons,
    List.foldl_nil]
  obtain ⟨w1, he1, ha1⟩ := aggregateProperty_apply "name" "names" src fields
  rw [he1]
  obtain ⟨f1, hf1, hg1, ho1⟩ := step_sets agent "names" fields w1 (by decide)
  rw [hf1]
  have hw1 : ∃ l, w1 = .arr l := ha1 hnm
  have hc1 : jvGet (.obj f1) "curies" = jvGet (.obj fields) "curies" :=
    ho1 "curies" (by decide) (by decide)
  obtain ⟨w2, he2, _⟩ := aggregateProperty_apply "categories" "types" src f1
  rw [he2]
  obtain ⟨f2, hf2, _, ho2⟩ := step_sets agent "types" f1 w2 (by decide)
  rw [hf2]
  have hn2 : jvGet (.obj f2) "names" = w1 := by
    rw [ho2 "names" (by decide) (by decide)]
    exact hg1
  have hc2 : jvGet (.obj f2) "curies" = jvGet (.obj fields) "curies" := by
    rw [ho2 "curies" (by decide) (by decide)]
    exact hc1
  obtain ⟨w3, he3, ha3⟩ := aggregateAttributes_apply [tagBiolink "xref"] "curies" src f2
  rw [he3]
  obtain ⟨f3, hf3, hg3, ho3⟩ := step_sets agent "curies" f2 w3 (by decide)
  rw [hf3]
  have hw3 : ∃ l, w3 = .arr l := ha3 (by rw [hc2]; exact hcu)
  have hn3 : jvGet (.obj f3) "names" = w1 := by
    rw [ho3 "names" (by decide) (by decide)]
    exact hn2
  obtain ⟨w4, he4⟩ := renameAndTransformAttribute_apply
    (tagBiolink "highest_FDA_approval_status") "fda_info"
    (fun fdaDescription => .obj [("highest_fda_approval_status", fdaDescription)]) src f3
  rw [he4]
  obtain ⟨f4, hf4, _, ho4⟩ := step_sets agent "fda_info" f3 w4 (by decide)
  rw [hf4]
  have hn4 : jvGet (.obj f4) "names" = w1 := by
    rw [ho4 "names" (by decide) (by decide)]
    exact hn3
  have hc4 : jvGet (.obj f4) "curies" = w3 := by
    rw [ho4 "curies" (by decide) (by decide)]
    exact hg3
  obtain ⟨w5, he5, _⟩ := aggregateAttributes_apply [tagBiolink "description"]
    "descriptions" src f4
  rw [he5]
  obtain ⟨f5, hf5, _, ho5⟩ := step_sets agent "descriptions" f4 w5 (by decide)
  rw [hf5]
  have hn5 : jvGet (.obj f5) "names" = w1 := by
    rw [ho5 "names" (by decide) (by decide)]
    exact hn4
  have hc5 : jvGet (.obj f5) "curies" = w3 := by
    rw [ho5 "curies" (by decide) (by decide)]
    exact hc4
  obtain ⟨w6, he6, _⟩ := aggregateAttributes_apply [tagBiolink "synonym"] "synonyms" src f5
  rw [he6]
  obtain ⟨f6, hf6, _, ho6⟩ := step_sets agent "synonyms" f5 w6 (by decide)
  rw [hf6]
  have hn6 : jvGet (.obj f6) "names" = w1 := by
    rw [ho6 "names" (by decide) (by decide)]
    exact hn5
  have hc6 : jvGet (.obj f6) "curies" = w3 := by
    rw [ho6 "curies" (by decide) (by decide)]
    exact hc5
  obtain ⟨w7, he7, _⟩ := aggregateAttributes_apply [tagBiolink "same_as"] "same_as" src f6
  rw [he7]
  obtain ⟨f7, hf7, _, ho7⟩ := step_sets agent "same_as" f6 w7 (by decide)
  rw [hf7]
  have hn7 : jvGet (.obj f7) "names" = w1 := by
    rw [ho7 "names" (by decide) (by decide)]
    exact hn6
  have hc7 : jvGet (.obj f7) "curies" = w3 := by
    rw [ho7 "curies" (by decide) (by decide)]
    exact hc6
  obtain ⟨w8, he8, _⟩ := aggregateAttributes_apply [tagBiolink "IriType"] "iri_types" src f7
  rw [he8]
  obtain ⟨f8, hf8, _, ho8⟩ := step_sets agent "iri_types" f7 w8 (by decide)
  rw [hf8]
  have hn8 : jvGet (.obj f8) "names" = w1 := by
    rw [ho8 "names" (by decide) (by decide)]
    exact hn7
  have hc8 : jvGet (.obj f8) "curies" = w3 := by
    rw [ho8 "curies" (by decide) (by decide)]
    exact hc7
  obtain ⟨l1, hl1⟩ := hw1
  obtain ⟨l3, hl3⟩ := hw3
  exact ⟨⟨f8, rfl⟩, ⟨l1, by rw [hn8, hl1]⟩, ⟨l3, by rw [hc8, hl3]⟩⟩

theorem extendSummaryNodes_ok (updates : List NodeUpdate) (agent : String) :
    ∀ (nodes : List (HKey × JVal)), (∀ kv ∈ nodes, nodeArraysOK kv.2) →
      ∀ kv ∈ extendSummaryNodes nodes updates agent, nodeArraysOK kv.2 := by
  induction updates with
  | nil => exact fun nodes h => h
  | cons u us ih =>
    intro nodes h
    refine ih (aSet (aSetDefault nodes u.key (.obj [("aras", .arr [])])) u.key
      ((nodeRules u.src).foldl (fun o t => arasPushAgent (t o) agent)
        (aGetD (aSetDefault nodes u.key (.obj [("aras", .arr [])])) u.key
          (.obj [("aras", .arr [])])))) ?inv
    intro kv hkv
    rcases mem_aSet_aSetDefault kv hkv with hold | hval
    · exact h kv hold
    · rw [hval]
      apply nodeRules_apply
      have hobj0 := aGet_aSetDefault_self nodes u.key (.obj [("aras", JVal.arr [])])
      show nodeArraysPre (aGetD (aSetDefault nodes u.key (.obj [("aras", .arr [])])) u.key
        (.obj [("aras", .arr [])]))
      rw [aGetD, hobj0]
      rcases hg : aGet nodes u.key with _ | v0
    
      · exact ⟨⟨_, rfl⟩, Or.inl (by decide), Or.inl (by decide)⟩
      · have hv0 := h (u.key, v0) (aGet_mem hg)
        exact ⟨hv0.1, Or.inr hv0.2.1, Or.inr hv0.2.2⟩

theorem mergedState_nodes_ok (env : BiolinkEnv) (canon : String → Option String) :
    ∀ (csl : List CondensedSummary) (st : MergeState),
      (∀ kv ∈ st.nodes, nodeArraysOK kv.2) →
      ∀ kv ∈ (csl.foldl (mergeStateStep env canon) st).nodes, nodeArraysOK kv.2
  | [], _, h => h
  | c :: csl, st, h =>
    mergedState_nodes_ok env canon csl (mergeStateStep env canon st c)
      (extendSummaryNodes_ok c.fragment.nodes c.agent st.nodes h)

theorem finalize_ok (k : HKey) (v : JVal) (hv : nodeArraysOK v) :
    (∃ l, jvGet (finalizeSummaryNode k v) "names" = .arr l ∧ l ≠ []) ∧
    (∃ l, jvGet (finalizeSummaryNode k v) "curies" = .arr l ∧ l ≠ []) := by
  obtain ⟨⟨fields, rfl⟩, ⟨ln, hln⟩, ⟨lc, hlc⟩⟩ := hv
  obtain ⟨f0, hf0⟩ : ∃ f0, objRemoveDuplicates (.obj fields) = .obj f0 := ⟨_, rfl⟩
  have h0n : jvGet (.obj f0) "names" = .arr (jsDedup ln) := by
    rw [← hf0, jvGet_objRemoveDuplicates, hln]
  have h0c : jvGet (.obj f0) "curies" = .arr (jsDedup lc) := by
    rw [← hf0, jvGet_objRemoveDuplicates, hlc]
  simp only [finalizeSummaryNode, hf0]
  have step1 : ∃ f1 w1, pushKeyIfEmpty (.obj f0) "names" k = .obj f1 ∧
      jvGet (.obj f1) "names" = .arr w1 ∧ w1 ≠ [] ∧
      jvGet (.obj f1) "curies" = .arr (jsDedup lc) := by
    by_cases hd : jsDedup ln = ([] : List JVal)
    · have e1 : pushKeyIfEmpty (.obj f0) "names" k =
          jvSet (.obj f0) "names" (.arr [hkeyJVal k]) := by
        rw [pushKeyIfEmpty, if_pos (by rw [h0n, hd])]
      refine ⟨aSet f0 "names" (.arr [hkeyJVal k]), [hkeyJVal k], e1, ?n, by simp, ?c⟩
      · exact jvGet_jvSet_self f0 "names" _
      · rw [← h0c]
        exact jvGet_jvSet_ne f0 "names" "curies" _ (by decide)
    · have e1 : pushKeyIfEmpty (.obj f0) "names" k = .obj f0 := by
        rw [pushKeyIfEmpty, if_neg (by
          rw [h0n]
          intro hx
          exact hd (by injection hx))]
      exact ⟨f0, jsDedup ln, e1, h0n, hd, h0c⟩
  obtain ⟨f1, w1, e1, hn1, hw1, hc1⟩ := step1
  rw [e1]
  have step2 : ∃ f2 w2, pushKeyIfEmpty (.obj f1) "curies" k = .obj f2 ∧
      jvGet (.obj f2) "curies" = .arr w2 ∧ w2 ≠ [] ∧
      jvGet (.obj f2) "names" = .arr w1 := by
    by_cases hd : jsDedup lc = ([] : List JVal)
    · have e2 : pushKeyIfEmpty (.obj f1) "curies" k =
          jvSet (.obj f1) "curies" (.arr [hkeyJVal k]) := by
        rw [pushKeyIfEmpty, if_pos (by rw [hc1, hd])]
      refine ⟨aSet f1 "curies" (.arr [hkeyJVal k]), [hkeyJVal k], e2, ?c2, by simp, ?n2⟩
      · exact jvGet_jvSet_self f1 "curies" _
      · rw [← hn1]
        exact jvGet_jvSet_ne f1 "curies" "names" _ (by decide)
    · have e2 : pushKeyIfEmpty (.obj f1) "curies" k = .obj f1 := by
        rw [pushKeyIfEmpty, if_neg (by
          rw [hc1]
          intro hx
          exact hd (by injection hx))]
      exact ⟨f1, jsDedup lc, e2, hc1, hd, hn1⟩
  obtain ⟨f2, w2, e2, hc2, hw2, hn2⟩ := step2
  rw [e2]
  exact ⟨⟨w1, hn2, hw1⟩, ⟨w2, hc2, hw2⟩⟩

theorem finalize_fallback (k : HKey) (v : JVal) :
    (jvGet (objRemoveDuplicates v) "names" = .arr [] →
      jvGet (finalizeSummaryNode k v) "names" = .arr [hkeyJVal k]) ∧
    (jvGet (objRemoveDuplicates v) "curies" = .arr [] →
      jvGet (finalizeSummaryNode k v) "curies" = .arr [hkeyJVal k]) := by
  rcases v with _ | _ | b | q | s | l | fields
  case null => exact ⟨(fun h => nomatch h), (fun h => nomatch h)⟩
  case undef => exact ⟨(fun h => nomatch h), (fun h => nomatch h)⟩
  case bool => exact ⟨(fun h => nomatch h), (fun h => nomatch h)⟩
  case num => exact ⟨(fun h => nomatch h), (fun h => nomatch h)⟩
  case str => exact ⟨(fun h => nomatch h), (fun h => nomatch h)⟩
  case arr => exact ⟨(fun h => nomatch h), (fun h => nomatch h)⟩
  case obj =>
  obtain ⟨f0, hf0⟩ : ∃ f0, objRemoveDuplicates (.obj fields) = .obj f0 := ⟨_, rfl⟩
  simp only [finalizeSummaryNode, hf0]
  constructor
  · intro h
    have e1 : pushKeyIfEmpty (.obj f0) "names" k =
        jvSet (.obj f0) "names" (.arr [hkeyJVal k]) := by
      rw [pushKeyIfEmpty, if_pos h]
    rw [e1]
    have hn1 : jvGet (jvSet (.obj f0) "names" (.arr [hkeyJVal k])) "names" =
        .arr [hkeyJVal k] := jvGet_jvSet_self f0 "names" _
    by_cases hc : jvGet (jvSet (.obj f0) "names" (.arr [hkeyJVal k])) "curies" = .arr []
    · have e2 : pushKeyIfEmpty (jvSet (.obj f0) "names" (.arr [hkeyJVal k])) "curies" k =
          jvSet (jvSet (.obj f0) "names" (.arr [hkeyJVal k])) "curies"
            (.arr [hkeyJVal k]) := by
        rw [pushKeyIfEmpty, if_pos hc]
      rw [e2]
      exact (jvGet_jvSet_ne (aSet f0 "names" (.arr [hkeyJVal k])) "curies" "names"
        (.arr [hkeyJVal k]) (by decide)).trans hn1
    · have e2 : pushKeyIfEmpty (jvSet (.obj f0) "names" (.arr [hkeyJVal k])) "curies" k =
          jvSet (.obj f0) "names" (.arr [hkeyJVal k]) := by
        rw [pushKeyIfEmpty, if_neg hc]
      rw [e2]
      exact hn1
  · intro h
    by_cases hd : jvGet (.obj f0) "names" = .arr []
    · have e1 : pushKeyIfEmpty (.obj f0) "names" k =
          jvSet (.obj f0) "names" (.arr [hkeyJVal k]) := by
        rw [pushKeyIfEmpty, if_pos hd]
      rw [e1]
      have hc1 : jvGet (jvSet (.obj f0) "names" (.arr [hkeyJVal k])) "curies" = .arr [] := by
        rw [← h]
        exact jvGet_jvSet_ne f0 "names" "curies" _ (by decide)
      have e2 : pushKeyIfEmpty (jvSet (.obj f0) "names" (.arr [hkeyJVal k])) "curies" k =
          jvSet (jvSet (.obj f0) "names" (.arr [hkeyJVal k])) "curies"
            (.arr [hkeyJVal k]) := by
        rw [pushKeyIfEmpty, if_pos hc1]
      rw [e2]
      exact jvGet_jvSet_self (aSet f0 "names" (.arr [hkeyJVal k])) "curies" _
    · have e1 : pushKeyIfEmpty (.obj f0) "names" k = .obj f0 := by
        rw [pushKeyIfEmpty, if_neg hd]
      rw [e1]
      have e2 : pushKeyIfEmpty (.obj f0) "curies" k =
          jvSet (.obj f0) "curies" (.arr [hkeyJVal k]) := by
        rw [pushKeyIfEmpty, if_pos h]
      rw [e2]
      exact jvGet_jvSet_self f0 "curies" _

/-- C9: for every node in the final summary's nodes map the names list and
the curies list are arrays with at least one element; and whenever nothing
was accumulated for names (or curies) by any transform — the merged node's
deduplicated field is the empty array — the finalized field is exactly the
array holding the node's canonical key itself. -/
theorem C9_names_curies_nonempty (env : BiolinkEnv) (canon : String → Option String)
    (qid : String) (cs : List CondensedSummary) :
    ((condensedSummariesToSummary env canon qid cs).nodes).Forall (fun kv =>
      (∃ l, jvGet kv.2 "names" = .arr l ∧ l ≠ []) ∧
      (∃ l, jvGet kv.2 "curies" = .arr l ∧ l ≠ [])) ∧
    ((mergedState env canon cs).nodes).Forall (fun kv =>
      (jvGet (objRemoveDuplicates kv.2) "names" = .arr [] →
        jvGet (finalizeSummaryNode kv.1 kv.2) "names" = .arr [hkeyJVal kv.1]) ∧
      (jvGet (objRemoveDuplicates kv.2) "curies" = .arr [] →
        jvGet (finalizeSummaryNode kv.1 kv.2) "curies" = .arr [hkeyJVal kv.1])) := by
  constructor
  · rw [List.forall_iff_forall_mem]
    intro kv hkv
    have hmem : kv ∈ ((mergedState env canon cs).nodes.map
        (fun kv => (kv.1, finalizeSummaryNode kv.1 kv.2))) := hkv
    obtain ⟨kv0, hkv0, rfl⟩ := List.mem_map.mp hmem
    have hok := mergedState_nodes_ok env canon cs ⟨[], [], [], [], []⟩
      (fun kv h => absurd h (List.not_mem_nil kv)) kv0 hkv0
    exact finalize_ok kv0.1 kv0.2 hok
  · rw [List.forall_iff_forall_mem]
    intro kv _
    exact finalize_fallback kv.1 kv.2

theorem extendPubs_isSome (env : BiolinkEnv) (edge : JVal) (pubs : List (String × PubObj))
    (id : String) :
    (aGet (extendSummaryPublications env pubs edge) id).isSome = true ↔
      ((aGet pubs id).isSome = true ∨
        ∃ p ∈ jvElems (jvGetD edge "publications" (.arr [])), jvToString p = id) := by
  simp only [extendSummaryPublications]
  generalize jvElems (jvGet edge "snippets") = snips
  generalize jvElems (jvGetD edge "publications" (.arr [])) = ids
  induction ids generalizing pubs with
  | nil => simp
  | cons p ps ih =>
    rw [List.foldl_cons]
    rcases hm : (snips.map (fun snippet =>
        jvGetD snippet (jvToString p) (.bool false))).find? truthy with _ | q <;>
      simp only [hm] <;>
      rw [ih] <;>
      rw [aGet_aSet] <;>
      by_cases hid : id = jvToString p
    · simp only [hid, if_pos rfl, Option.isSome_some]
      constructor
      · intro _
        exact Or.inr ⟨p, List.mem_cons_self p ps, rfl⟩
      · intro _
        exact Or.inl rfl
    · rw [if_neg hid]
      constructor
      · rintro (h | ⟨x, hx, hkx⟩)
        · exact Or.inl h
        · exact Or.inr ⟨x, List.mem_cons_of_mem p hx, hkx⟩
      · rintro (h | ⟨x, hx, hkx⟩)
        · exact Or.inl h
        · rcases List.mem_cons.mp hx with hx1 | hx1
          · subst hx1
            exact absurd hkx.symm hid
          · exact Or.inr ⟨x, hx1, hkx⟩
    · simp only [hid, if_pos rfl, Option.isSome_some]
      constructor
      · intro _
        exact Or.inr ⟨p, List.mem_cons_self p ps, rfl⟩
      · intro _
        exact Or.inl rfl
    · rw [if_neg hid]
      constructor
      · rintro (h | ⟨x, hx, hkx⟩)
        · exact Or.inl h
        · exact Or.inr ⟨x, List.mem_cons_of_mem p hx, hkx⟩
      · rintro (h | ⟨x, hx, hkx⟩)
        · exact Or.inl h
        · rcases List.mem_cons.mp hx with hx1 | hx1
          · subst hx1
            exact absurd hkx.symm hid
          · exact Or.inr ⟨x, hx1, hkx⟩

theorem extendPubs_value (env : BiolinkEnv) (edge : JVal) (pubs : List (String × PubObj))
    (id : String) (pub : PubObj)
    (henv : ∀ s, (env.idToTypeAndUrl s).1 ≠ "" ∧ (env.idToTypeAndUrl s).2 ≠ "")
    (hbase : ∀ pub2, aGet pubs id = some pub2 → pub2.ty ≠ "" ∧ pub2.url ≠ "")
    (h : aGet (extendSummaryPublications env pubs edge) id = some pub) :
    pub.ty ≠ "" ∧ pub.url ≠ "" := by
  revert h
  simp only [extendSummaryPublications]
  generalize jvElems (jvGet edge "snippets") = snips
  generalize jvElems (jvGetD edge "publications" (.arr [])) = ids
  induction ids generalizing pubs with
  | nil => exact fun h => hbase pub h
  | cons p ps ih =>
    rw [List.foldl_cons]
    rcases hm : (snips.map (fun snippet =>
        jvGetD snippet (jvToString p) (.bool false))).find? truthy with _ | q
    · simp only [hm]
      refine ih _ (fun pub2 h2 => ?b1)
      rw [aGet_aSet] at h2
      by_cases hid : id = jvToString p
      · rw [if_pos hid] at h2
        cases h2
        exact ⟨(henv (jvToString p)).1, (henv (jvToString p)).2⟩
      · rw [if_neg hid] at h2
        exact hbase pub2 h2
    · simp only [hm]
      refine ih _ (fun pub2 h2 => ?b2)
      rw [aGet_aSet] at h2
      by_cases hid : id = jvToString p
      · rw [if_pos hid] at h2
        cases h2
        exact ⟨(henv (jvToString p)).1, (henv (jvToString p)).2⟩
      · rw [if_neg hid] at h2
        exact hbase pub2 h2

theorem pubsFold_isSome (env : BiolinkEnv) :
    ∀ (es : List JVal) (pubs : List (String × PubObj)) (id : String),
      (aGet (es.foldl (fun pubs e => extendSummaryPublications env pubs e) pubs) id).isSome
          = true ↔
        ((aGet pubs id).isSome = true ∨
          ∃ e ∈ es, ∃ p ∈ jvElems (jvGetD e "publications" (.arr [])), jvToString p = id)
  | [], pubs, id => by simp
  | e :: es, pubs, id => by
    rw [List.foldl_cons, pubsFold_isSome env es _ id, extendPubs_isSome]
    constructor
    · rintro ((h | he) | hs)
      · exact Or.inl h
      · exact Or.inr ⟨e, List.mem_cons_self e es, he⟩
      · obtain ⟨e2, he2, hp⟩ := hs
        exact Or.inr ⟨e2, List.mem_cons_of_mem e he2, hp⟩
    · rintro (h | ⟨e2, he2, hp⟩)
      · exact Or.inl (Or.inl h)
      · rcases List.mem_cons.mp he2 with h1 | h1
        · subst h1
          exact Or.inl (Or.inr hp)
        · exact Or.inr ⟨e2, h1, hp⟩

theorem pubsFold_value (env : BiolinkEnv)
    (henv : ∀ s, (env.idToTypeAndUrl s).1 ≠ "" ∧ (env.idToTypeAndUrl s).2 ≠ "") :
    ∀ (es : List JVal) (pubs : List (String × PubObj)) (id : String) (pub : PubObj),
      (∀ pub2, aGet pubs id = some pub2 → pub2.ty ≠ "" ∧ pub2.url ≠ "") →
      aGet (es.foldl (fun pubs e => extendSummaryPublications env pubs e) pubs) id = some pub →
      pub.ty ≠ "" ∧ pub.url ≠ ""
  | [], pubs, id, pub, hbase, h => hbase pub h
  | e :: es, pubs, id, pub, hbase, h => by
    rw [List.foldl_cons] at h
    exact pubsFold_value env henv es _ id pub
      (fun pub2 h2 => extendPubs_value env e pubs id pub2 henv hbase h2) h

theorem strAppend_ne_empty (a b : String) (ha : a.data ≠ []) : a ++ b ≠ "" := by
  intro h
  have h2 : a.data ++ b.data = [] := congrArg String.data h
  exact ha (List.append_eq_nil.mp h2).1

/-- C7: an entry publications[id] of the final summary exists exactly when
some summary edge — as accumulated and cleaned, the objects the publication
pass iterates — listed id in its publications field, and (for an
environment whose id resolver never returns empty components, as the spec
states for evidence.mjs) every entry carries a non-empty type and url. -/
theorem C7_publications (env : BiolinkEnv) (canon : String → Option String) (qid : String)
    (cs : List CondensedSummary)
    (henv : ∀ s, (env.idToTypeAndUrl s).1 ≠ "" ∧ (env.idToTypeAndUrl s).2 ≠ "") :
    (∀ id : String,
      (aGet (condensedSummariesToSummary env canon qid cs).publications id).isSome = true ↔
        ∃ e ∈ aValues ((mergedState env canon cs).edges.map
            (fun kv => (kv.1, cleanSummaryEdge env kv.2))),
          ∃ p ∈ jvElems (jvGetD e "publications" (.arr [])), jvToString p = id) ∧
    (∀ (id : String) (pub : PubObj),
      aGet (condensedSummariesToSummary env canon qid cs).publications id = some pub →
        pub.ty ≠ "" ∧ pub.url ≠ "") := by
  have hpub : (condensedSummariesToSummary env canon qid cs).publications =
      (aValues ((mergedState env canon cs).edges.map
        (fun kv => (kv.1, cleanSummaryEdge env kv.2)))).foldl
        (fun pubs e => extendSummaryPublications env pubs e) [] := rfl
  constructor
  · intro id
    rw [hpub, pubsFold_isSome]
    constructor
    · rintro (h | h)
      · exact absurd h (by rw [aGet_nil]; exact Bool.false_ne_true)
      · exact h
    · exact fun h => Or.inr h
  · intro id pub h
    rw [hpub] at h
    refine pubsFold_value env henv _ [] id pub (fun pub2 h2 => ?base) h
    rw [aGet_nil] at h2
    cases h2

theorem C7_publications_witness :
    (∀ id : String,
      (aGet (condensedSummariesToSummary blEnv (answersCanon [plainAnswer]) "Q"
          (answersCondensed blEnv 3 [plainAnswer])).publications id).isSome = true ↔
        ∃ e ∈ aValues ((mergedState blEnv (answersCanon [plainAnswer])
              (answersCondensed blEnv 3 [plainAnswer])).edges.map
            (fun kv => (kv.1, cleanSummaryEdge blEnv kv.2))),
          ∃ p ∈ jvElems (jvGetD e "publications" (.arr [])), jvToString p = id) ∧
    (∀ (id : String) (pub : PubObj),
      aGet (condensedSummariesToSummary blEnv (answersCanon [plainAnswer]) "Q"
          (answersCondensed blEnv 3 [plainAnswer])).publications id = some pub →
        pub.ty ≠ "" ∧ pub.url ≠ "") :=
  C7_publications blEnv (answersCanon [plainAnswer]) "Q"
    (answersCondensed blEnv 3 [plainAnswer])
    (fun s => by
      show (idToTypeAndUrlModel s).1 ≠ "" ∧ (idToTypeAndUrlModel s).2 ≠ ""
      unfold idToTypeAndUrlModel
      by_cases h : strStarts s "NCT" = true
      · rw [if_pos h]
        exact ⟨show ("trial" : String) ≠ "" by decide,
          show "https://clinicaltrials.gov/study/" ++ s ≠ "" from
            strAppend_ne_empty _ s (by decide)⟩
      · rw [if_neg h]
        exact ⟨show ("publication" : String) ≠ "" by decide,
          show "https://pubmed.ncbi.nlm.nih.gov/" ++ s ≠ "" from
            strAppend_ne_empty _ s (by decide)⟩)

theorem jsAdd_foldl_some :
    ∀ (xs : List (Option Rat)) (a : Rat), (∀ x ∈ xs, x.isSome = true) →
      xs.foldl jsAdd (some a) = some (a + (xs.map (fun o => o.getD 0)).sum)
  | [], a, _ => by simp
  | x :: xs, a, h => by
    obtain ⟨b, rfl⟩ := Option.isSome_iff_exists.mp (h x (List.mem_cons_self x xs))
    rw [List.foldl_cons]
    rw [show jsAdd (some a) (some b) = some (a + b) from rfl]
    rw [jsAdd_foldl_some xs (a + b) (fun y hy => h y (List.mem_cons_of_mem (some b) hy))]
    rw [List.map_cons, List.sum_cons]
    rw [show ((some b).getD 0 : Rat) = b from rfl]
    rw [add_assoc]

theorem jsMean_some (l : List (Option Rat)) (hne : l ≠ [])
    (hall : ∀ x ∈ l, x.isSome = true) :
    jsMean l = some ((l.map (fun o => o.getD 0)).sum / (l.length : Rat)) := by
  cases l with
  | nil => exact absurd rfl hne
  | cons x xs =>
    obtain ⟨b, rfl⟩ := Option.isSome_iff_exists.mp (hall x (List.mem_cons_self x xs))
    rw [jsMean, jsAdd_foldl_some xs b (fun y hy => hall y (List.mem_cons_of_mem _ hy))]
    show some ((b + (xs.map (fun o => o.getD 0)).sum) / ((some b :: xs).length : Rat)) = _
    rw [List.map_cons, List.sum_cons]
    rw [show ((some b).getD 0 : Rat) = b from rfl]

/-- C4 (amended): a result's score is the exact arithmetic mean of the
accumulated score list under its drug key whenever that list exists, is
non-empty, and every entry is a number (no unbindable result pushed an
undefined into it); and every fragment contributes to the score table either
nothing (unbindable result) or exactly its normalized score, with 0 when the
score is absent, under the canonical drug key. -/
theorem C4_score_mean (env : BiolinkEnv) (canon : String → Option String) (qid : String)
    (cs : List CondensedSummary) :
    ((condensedSummariesToSummary env canon qid cs).results).Forall (fun r =>
      ∀ l, aGet (mergedState env canon cs).scores r.subject = some l →
        l ≠ [] → (∀ x ∈ l, x.isSome = true) →
        r.score = some ((l.map (fun o => o.getD 0)).sum / (l.length : Rat))) ∧
    (∀ (maxHops : Nat) (tr : TrapiResult) (kg : Kgraph),
      (trapiResultToSummaryFragment env canon maxHops tr kg).scores = [] ∨
      ∃ drug, getBindingId tr.node_bindings subjectKey = some drug ∧
        (trapiResultToSummaryFragment env canon maxHops tr kg).scores =
          [(rnodeToKey drug canon, tr.normalized_score.getD 0)]) := by
  constructor
  · rw [List.forall_iff_forall_mem]
    intro r hr
    simp only [condensedSummariesToSummary, expandResults, List.mem_map] at hr
    obtain ⟨ps, _, rfl⟩ := hr
    intro l hl hne hall
    dsimp only at hl ⊢
    have hD : aGetD (mergedState env canon cs).scores
        ((getPathFromPid (mergedState env canon cs).paths (ps.headD .fls)).headD .fls) []
        = l := by
      rw [aGetD, hl]
      rfl
    rw [hD]
    exact jsMean_some l hne hall
  · intro maxHops tr kg
    rcases h1 : trapiResultToRgraph env tr kg with _ | rg
    · exact Or.inl (by simp [trapiResultToSummaryFragment, h1, emptySummaryFragment])
    · rcases h2 : getBindingId tr.node_bindings subjectKey with _ | drug
      · exact Or.inl (by simp [trapiResultToSummaryFragment, h1, h2, emptySummaryFragment])
      · rcases h3 : getBindingId tr.node_bindings objectKey with _ | disease
        · exact Or.inl (by simp [trapiResultToSummaryFragment, h1, h2, h3, emptySummaryFragment])
        · by_cases h4 : drug = "" ∨ disease = ""
          · exact Or.inl (by simp [trapiResultToSummaryFragment, h1, h2, h3, h4,
              emptySummaryFragment])
          · refine Or.inr ⟨drug, rfl, ?e⟩
            simp [trapiResultToSummaryFragment, h1, h2, h3, h4]

/-- C4, counterexample to the claim as stated: on c4Answer the single
result's score is the JS NaN (modelled none), not the arithmetic mean of
anything, because the unbindable second result pushed an undefined into the
score list accumulated under the drug key "undefined": that list holds the
contributed normalized score followed by an undefined entry. -/
theorem C4_counterexample :
    (creativeAnswersToSummary blEnv 3 "Q" [c4Answer]).results.map (fun r => r.score)
        = [none] ∧
    ((answersMergedState blEnv 3 [c4Answer]).scores.map
        (fun kv => (kv.1, kv.2.map (fun o => o.isSome)))) =
      [(.str "undefined", [true, false])] := by decide

theorem mergeFold_pne (env : BiolinkEnv) (canon : String → Option String) (maxHops : Nat)
    (kg : Kgraph) :
    ∀ (l : List TrapiResult) (f g : AgentFragment),
      f.paths = g.paths → f.nodes = g.nodes → f.edges = g.edges →
      ((l.foldl (fun f r => mergeSummaryFragments f
          (trapiResultToSummaryFragment env canon maxHops r kg)) f).paths =
        (l.foldl (fun f r => mergeSummaryFragments f
          (trapiResultToSummaryFragment env canon maxHops r kg)) g).paths ∧
       (l.foldl (fun f r => mergeSummaryFragments f
          (trapiResultToSummaryFragment env canon maxHops r kg)) f).nodes =
        (l.foldl (fun f r => mergeSummaryFragments f
          (trapiResultToSummaryFragment env canon maxHops r kg)) g).nodes ∧
       (l.foldl (fun f r => mergeSummaryFragments f
          (trapiResultToSummaryFragment env canon maxHops r kg)) f).edges =
        (l.foldl (fun f r => mergeSummaryFragments f
          (trapiResultToSummaryFragment env canon maxHops r kg)) g).edges)
  | [], f, g, hp, hn, he => ⟨hp, hn, he⟩
  | r :: l, f, g, hp, hn, he => by
    rw [List.foldl_cons, List.foldl_cons]
    refine mergeFold_pne env canon maxHops kg l _ _ ?p ?n ?e
    · show f.paths ++ _ = g.paths ++ _
      rw [hp]
    · show f.nodes ++ _ = g.nodes ++ _
      rw [hn]
    · show f.edges ++ _ = g.edges ++ _
      rw [he]

/-- C5 (amended): an unbindable result — missing sn or on binding, or a
bound curie absent from the knowledge graph — yields the empty summary
fragment, and the agent's accumulated paths, nodes and edges are exactly
those obtained with the bad result removed from its result list; only the
score table differs (it receives an undefined entry under the key
"undefined"). -/
theorem C5_bad_result (env : BiolinkEnv) (canon : String → Option String) (maxHops : Nat)
    (tr : TrapiResult) (kg : Kgraph)
    (hbad : getBindingId tr.node_bindings subjectKey = none ∨
            getBindingId tr.node_bindings objectKey = none ∨
            trapiResultToRgraph env tr kg = none) :
    trapiResultToSummaryFragment env canon maxHops tr kg = emptySummaryFragment ∧
    ∀ (l1 l2 : List TrapiResult),
      (((l1 ++ tr :: l2).foldl (fun f r => mergeSummaryFragments f
          (trapiResultToSummaryFragment env canon maxHops r kg)) emptyAgentFragment).paths =
        ((l1 ++ l2).foldl (fun f r => mergeSummaryFragments f
          (trapiResultToSummaryFragment env canon maxHops r kg)) emptyAgentFragment).paths ∧
       ((l1 ++ tr :: l2).foldl (fun f r => mergeSummaryFragments f
          (trapiResultToSummaryFragment env canon maxHops r kg)) emptyAgentFragment).nodes =
        ((l1 ++ l2).foldl (fun f r => mergeSummaryFragments f
          (trapiResultToSummaryFragment env canon maxHops r kg)) emptyAgentFragment).nodes ∧
       ((l1 ++ tr :: l2).foldl (fun f r => mergeSummaryFragments f
          (trapiResultToSummaryFragment env canon maxHops r kg)) emptyAgentFragment).edges =
        ((l1 ++ l2).foldl (fun f r => mergeSummaryFragments f
          (trapiResultToSummaryFragment env canon maxHops r kg)) emptyAgentFragment).edges) := by
  have hempty : trapiResultToSummaryFragment env canon maxHops tr kg
      = emptySummaryFragment := by
    rcases h1 : trapiResultToRgraph env tr kg with _ | rg
    · simp [trapiResultToSummaryFragment, h1]
    · rcases hbad with hb | hb | hb
      · rcases h3 : getBindingId tr.node_bindings objectKey with _ | disease <;>
          simp [trapiResultToSummaryFragment, h1, hb, h3]
      · rcases h2 : getBindingId tr.node_bindings subjectKey with _ | drug <;>
          simp [trapiResultToSummaryFragment, h1, hb, h2]
      · exact absurd h1 (by rw [hb]; exact fun hx => nomatch hx)
  refine ⟨hempty, ?rest⟩
  intro l1 l2
  rw [List.foldl_append, List.foldl_append, List.foldl_cons, hempty]
  refine mergeFold_pne env canon maxHops kg l2 _ _ ?p ?n ?e
  · show _ ++ ([] : List (List HKey)) = _
    exact List.append_nil _
  · show _ ++ ([] : List NodeUpdate) = _
    exact List.append_nil _
  · show _ ++ ([] : List EdgeUpdate) = _
    exact List.append_nil _

theorem C5_bad_result_witness :
    getBindingId c4bad.node_bindings objectKey = none ∧
    trapiResultToSummaryFragment blEnv (answersCanon [c5AnswerWith]) 3 c4bad
      c5AnswerWith.message.knowledge_graph = emptySummaryFragment :=
  ⟨by decide,
    (C5_bad_result blEnv (answersCanon [c5AnswerWith]) 3 c4bad
      c5AnswerWith.message.knowledge_graph (Or.inr (Or.inl (by decide)))).1⟩

/-- C5, counterexample to the claim as stated: the message of c5AnswerWith
is that of c5AnswerWithout plus one unbindable result, yet the summary for
the surviving result differs — its score is NaN (none) with the bad result
present and a number without it, because the empty fragment pushes an
undefined score under the key "undefined", which is this drug's key. -/
theorem C5_counterexample :
    (creativeAnswersToSummary blEnv 3 "Q" [c5AnswerWith]).results.map
        (fun r => r.score.isSome) = [false] ∧
    (creativeAnswersToSummary blEnv 3 "Q" [c5AnswerWithout]).results.map
        (fun r => r.score.isSome) = [true] ∧
    c5AnswerWith.message.results = c5AnswerWithout.message.results ++ [c4bad] :=
  ⟨by decide, by decide, rfl⟩

theorem aGet_filter_ne {α : Type} (k : String) :
    ∀ (l : List (String × α)) (k2 : String),
      aGet (l.filter (fun e => decide (e.1 ≠ k))) k2 = if k2 = k then none else aGet l k2
  | [], k2 => by by_cases h : k2 = k <;> simp [h, aGet]
  | e :: l, k2 => by
    by_cases hek : e.1 = k
    · rw [List.filter_cons_of_neg (by simp [hek])]
      rw [aGet_filter_ne k l k2]
      by_cases h : k2 = k
      · rw [if_pos h, if_pos h]
      · rw [if_neg h, if_neg h, aGet_cons, if_neg (by rw [hek]; exact fun hx => h hx.symm)]
    · rw [List.filter_cons_of_pos (by simp [hek])]
      rw [aGet_cons, aGet_filter_ne k l k2]
      by_cases h : k2 = k
      · rw [if_pos h, if_pos h, if_neg (by rw [h]; exact hek)]
      · rw [if_neg h, if_neg h, aGet_cons]

theorem jvGet_jvDelete (fields : List (String × JVal)) (k k2 : String) :
    jvGet (jvDelete (.obj fields) k) k2 = if k2 = k then .undef else jvGet (.obj fields) k2 := by
  show jvGet (.obj (fields.filter (fun e => decide (e.1 ≠ k)))) k2 = _
  simp only [jvGet, aGetD]
  rw [aGet_filter_ne k fields k2]
  by_cases h : k2 = k
  · rw [if_pos h, if_pos h]
    rfl
  · rw [if_neg h, if_neg h]

theorem jvHasKey_jvDelete_self (fields : List (String × JVal)) (k : String) :
    jvHasKey (jvDelete (.obj fields) k) k = false := by
  show ((aGet (fields.filter (fun e => decide (e.1 ≠ k))) k).isSome) = false
  rw [aGet_filter_ne k fields k, if_pos rfl]
  rfl

theorem foldl_aSet_preserve {κ α β : Type} [DecidableEq κ] (kf : β → κ) (vf : β → α) :
    ∀ (es : List β) (m : List (κ × α)) (k : κ), (∀ e ∈ es, kf e ≠ k) →
      aGet (es.foldl (fun m e => aSet m (kf e) (vf e)) m) k = aGet m k
  | [], _, _, _ => rfl
  | e :: es, m, k, h => by
    rw [List.foldl_cons,
      foldl_aSet_preserve kf vf es _ k (fun x hx => h x (List.mem_cons_of_mem e hx))]
    exact aGet_aSet_ne m (kf e) k (vf e)
      (fun heq => (h e (List.mem_cons_self e es)) heq.symm)

theorem foldl_aSet_get {κ α β : Type} [DecidableEq κ] (kf : β → κ) (vf : β → α) :
    ∀ (es : List β) (m : List (κ × α)) (e : β), e ∈ es → (es.map kf).Nodup →
      aGet (es.foldl (fun m e => aSet m (kf e) (vf e)) m) (kf e) = some (vf e)
  | e2 :: es, m, e, he, hnd => by
    rw [List.map_cons, List.nodup_cons] at hnd
    rw [List.foldl_cons]
    rcases List.mem_cons.mp he with h1 | h1
    · subst h1
      rw [foldl_aSet_preserve kf vf es _ (kf e)
        (fun x hx heq => hnd.1 (heq ▸ List.mem_map_of_mem kf hx))]
      exact aGet_aSet_self m (kf e) (vf e)
    · exact foldl_aSet_get kf vf es _ e h1 hnd.2

theorem aGet_of_mem_nodup {κ α : Type} [DecidableEq κ] :
    ∀ {m : List (κ × α)} {k : κ} {v : α}, (k, v) ∈ m → (aKeys m).Nodup →
      aGet m k = some v := by
  intro m k v hm hnd
  induction m with
  | nil => cases hm
  | cons e m ih =>
    rw [show aKeys (e :: m) = e.1 :: aKeys m from rfl, List.nodup_cons] at hnd
    rcases List.mem_cons.mp hm with h1 | h1
    · rw [← h1, aGet_cons, if_pos rfl]
    · rw [aGet_cons, if_neg ?ne]
      · exact ih h1 hnd.2
      · intro hek
        subst hek
        exact hnd.1 (by
          have : (e.1, v) ∈ m := h1
          exact List.mem_map_of_mem (fun e => e.1) this)

theorem jvGetD_jvDelete (fields : List (String × JVal)) (k k2 : String) (d : JVal) :
    jvGetD (jvDelete (.obj fields) k) k2 d =
      if k2 = k then d else jvGetD (.obj fields) k2 d := by
  show jvGetD (.obj (fields.filter (fun e => decide (e.1 ≠ k)))) k2 d = _
  simp only [jvGetD, aGetD]
  rw [aGet_filter_ne k fields k2]
  by_cases h : k2 = k
  · rw [if_pos h, if_pos h]
    rfl
  · rw [if_neg h, if_neg h]

theorem jvSet_obj_eq (fields : List (String × JVal)) (k : String) (w : JVal) :
    jvSet (.obj fields) k w = .obj (aSet fields k w) := rfl

theorem jvGet_obj_aSet_self (f : List (String × JVal)) (k : String) (w : JVal) :
    jvGet (.obj (aSet f k w)) k = w := jvGet_jvSet_self f k w

theorem jvGet_obj_aSet_ne (f : List (String × JVal)) (k k2 : String) (w : JVal)
    (h : k2 ≠ k) : jvGet (.obj (aSet f k w)) k2 = jvGet (.obj f) k2 :=
  jvGet_jvSet_ne f k k2 w h

theorem edgeShape_facts (env : BiolinkEnv) (e : JVal) (s o p : String)
    (fields : List (String × JVal)) (he : e = .obj fields)
    (hs : jvGet e "subject" = .str s) (ho : jvGet e "object" = .str o)
    (hp : jvGet e "predicate" = .str p)
    (hq : truthy (jvGetD e "qualifiers" (.bool false)) = false) :
    invKeyOf env (jvDelete e "snippets") =
      pathToKey [.str o, .str (env.invertBiolinkPredicate p), .str s] ∧
    summaryEdgeInvKey env e =
      pathToKey [.str o, .str (env.invertBiolinkPredicate p), .str s] ∧
    (jvGet (processSummaryEdge env e) "subject" = .str s ∧
     jvGet (processSummaryEdge env e) "object" = .str o ∧
     jvGet (processSummaryEdge env e) "predicate" = .str p ∧
     jvHasKey (processSummaryEdge env e) "qualifiers" = false ∧
     summaryEdgeInvKey env (processSummaryEdge env e) =
       pathToKey [.str o, .str (env.invertBiolinkPredicate p), .str s]) ∧
    (jvGet (invEdgeOf env (jvDelete e "snippets")) "subject" = .str o ∧
     jvGet (invEdgeOf env (jvDelete e "snippets")) "object" = .str s ∧
     jvGet (invEdgeOf env (jvDelete e "snippets")) "predicate" =
       .str (env.invertBiolinkPredicate p) ∧
     jvHasKey (invEdgeOf env (jvDelete e "snippets")) "qualifiers" = false ∧
     summaryEdgeInvKey env (invEdgeOf env (jvDelete e "snippets")) =
       pathToKey [.str s,
         .str (env.invertBiolinkPredicate (env.invertBiolinkPredicate p)), .str o]) := by
  subst he
  have hs1 : jvGet (jvDelete (.obj fields) "snippets") "subject" = .str s := by
    rw [jvGet_jvDelete, if_neg (by decide)]
    exact hs
  have ho1 : jvGet (jvDelete (.obj fields) "snippets") "object" = .str o := by
    rw [jvGet_jvDelete, if_neg (by decide)]
    exact ho
  have hp1 : jvGet (jvDelete (.obj fields) "snippets") "predicate" = .str p := by
    rw [jvGet_jvDelete, if_neg (by decide)]
    exact hp
  have hq1 : jvGetD (jvDelete (.obj fields) "snippets") "qualifiers" (.bool false) =
      jvGetD (.obj fields) "qualifiers" (.bool false) := by
    rw [jvGetD_jvDelete, if_neg (by decide)]
  have hkq : kedgeToQualifiers env (jvDelete (.obj fields) "snippets") = none := by
    simp only [kedgeToQualifiers, hq1, hq]
    rfl
  have hqp : ∀ b, edgeToQualifiedPredicate env (jvDelete (.obj fields) "snippets") b =
      if b then env.invertBiolinkPredicate p else p := by
    intro b
    simp only [edgeToQualifiedPredicate, hkq, kedgePredicate, hp1, jvToString]
  have hqpf : edgeToQualifiedPredicate env (jvDelete (.obj fields) "snippets") false = p := by
    rw [hqp]
    rfl
  have hqpt : edgeToQualifiedPredicate env (jvDelete (.obj fields) "snippets") true =
      env.invertBiolinkPredicate p := by
    rw [hqp]
    rfl
  obtain ⟨f1, hf1⟩ : ∃ f1, jvDelete (.obj fields) "snippets" = .obj f1 := ⟨_, rfl⟩
  rw [hf1] at hs1 ho1 hp1 hqpf hqpt
  have hPdef : processSummaryEdge env (.obj fields) =
      jvDelete (.obj (aSet f1 "predicate" (.str p))) "qualifiers" := by
    simp only [processSummaryEdge, hf1, hqpf, jvSet_obj_eq]
  have hIdef : invEdgeOf env (jvDelete (.obj fields) "snippets") =
      jvDelete (.obj (aSet (aSet (aSet f1 "subject" (.str o)) "object" (.str s))
        "predicate" (.str (env.invertBiolinkPredicate p)))) "qualifiers" := by
    simp only [invEdgeOf, jvMultiSet, List.foldl_cons, List.foldl_nil, hf1, hqpt, ho1, hs1,
      jvSet_obj_eq]
  have hps : jvGet (processSummaryEdge env (.obj fields)) "subject" = .str s := by
    rw [hPdef, jvGet_jvDelete, if_neg (by decide),
      jvGet_obj_aSet_ne f1 "predicate" "subject" _ (by decide)]
    exact hs1
  have hpo : jvGet (processSummaryEdge env (.obj fields)) "object" = .str o := by
    rw [hPdef, jvGet_jvDelete, if_neg (by decide),
      jvGet_obj_aSet_ne f1 "predicate" "object" _ (by decide)]
    exact ho1
  have hpp : jvGet (processSummaryEdge env (.obj fields)) "predicate" = .str p := by
    rw [hPdef, jvGet_jvDelete, if_neg (by decide), jvGet_obj_aSet_self]
  have his : jvGet (invEdgeOf env (jvDelete (.obj fields) "snippets")) "subject"
      = .str o := by
    rw [hIdef, jvGet_jvDelete, if_neg (by decide),
      jvGet_obj_aSet_ne _ "predicate" "subject" _ (by decide),
      jvGet_obj_aSet_ne _ "object" "subject" _ (by decide), jvGet_obj_aSet_self]
  have hio2 : jvGet (invEdgeOf env (jvDelete (.obj fields) "snippets")) "object"
      = .str s := by
    rw [hIdef, jvGet_jvDelete, if_neg (by decide),
      jvGet_obj_aSet_ne _ "predicate" "object" _ (by decide), jvGet_obj_aSet_self]
  have hip2 : jvGet (invEdgeOf env (jvDelete (.obj fields) "snippets")) "predicate"
      = .str (env.invertBiolinkPredicate p) := by
    rw [hIdef, jvGet_jvDelete, if_neg (by decide), jvGet_obj_aSet_self]
  refine ⟨?invk, ?selfk, ⟨hps, hpo, hpp, ?pq, ?pik⟩, ⟨his, hio2, hip2, ?iq, ?iik⟩⟩
  case invk =>
    rw [hf1, invKeyOf, ho1, hqpt, hs1]
    rfl
  case selfk =>
    rw [summaryEdgeInvKey, ho, hp, hs]
    rfl
  case pq =>
    rw [hPdef]
    exact jvHasKey_jvDelete_self _ "qualifiers"
  case pik =>
    rw [summaryEdgeInvKey, hps, hpo, hpp]
    rfl
  case iq =>
    rw [hIdef]
    exact jvHasKey_jvDelete_self _ "qualifiers"
  case iik =>
    rw [summaryEdgeInvKey, his, hio2, hip2]
    rfl

theorem foldl_aSet_cases {κ α β : Type} [DecidableEq κ] (kf : β → κ) (vf : β → α) :
    ∀ (es : List β) (m : List (κ × α)) (k : κ) (v : α),
      aGet (es.foldl (fun m e => aSet m (kf e) (vf e)) m) k = some v →
      (∃ x ∈ es, kf x = k ∧ vf x = v) ∨ aGet m k = some v
  | [], _, _, _, h => Or.inr h
  | e :: es, m, k, v, h => by
    rw [List.foldl_cons] at h
    rcases foldl_aSet_cases kf vf es _ k v h with hx | hm
    · obtain ⟨x, hx1, hx2⟩ := hx
      exact Or.inl ⟨x, List.mem_cons_of_mem e hx1, hx2⟩
    · rw [aGet_aSet] at hm
      by_cases hk : k = kf e
      · rw [if_pos hk] at hm
        exact Or.inl ⟨e, List.mem_cons_self e es, hk.symm, Option.some_inj.mp hm⟩
      · rw [if_neg hk] at hm
        exact Or.inr hm

/-- C1 (amended): over an edge table whose entries are qualifier-free edge
objects keyed by the path key of their subject, predicate and object, with
an involutive predicate inverter and no key collisions between the original
keys and the inserted inverse keys, edgesToEdgesAndPublications returns a
map in which every entry's inverse key (the path key of [object, inverse
predicate, subject]) is present, the two entries have subject and object
swapped and mutually inverse predicates, the partner entry carries no
qualifiers field, and taking the inverse key twice returns to the original
key. -/
theorem C1_inverse_edges (env : BiolinkEnv) (edges : List (HKey × JVal))
    (hinv : ∀ q, env.invertBiolinkPredicate (env.invertBiolinkPredicate q) = q)
    (hshape : ∀ kv ∈ edges, ∃ s o p fields, kv.2 = JVal.obj fields ∧
      jvGet kv.2 "subject" = .str s ∧ jvGet kv.2 "object" = .str o ∧
      jvGet kv.2 "predicate" = .str p ∧
      truthy (jvGetD kv.2 "qualifiers" (.bool false)) = false ∧
      kv.1 = pathToKey [.str s, .str p, .str o])
    (hfresh : (aKeys edges ++ edges.map (fun kv => summaryEdgeInvKey env kv.2)).Nodup) :
    ∀ k e, aGet (edgesToEdgesAndPublications env edges).1 k = some e →
      ∃ e2, aGet (edgesToEdgesAndPublications env edges).1 (summaryEdgeInvKey env e)
          = some e2 ∧
        jvGet e2 "subject" = jvGet e "object" ∧
        jvGet e2 "object" = jvGet e "subject" ∧
        jvGet e2 "predicate" =
          .str (env.invertBiolinkPredicate (jvToString (jvGet e "predicate"))) ∧
        jvHasKey e2 "qualifiers" = false ∧
        summaryEdgeInvKey env e2 = k := by
  have hfin : (edgesToEdgesAndPublications env edges).1 =
      (aValues edges).foldl
        (fun m x => aSet m (invKeyOf env (jvDelete x "snippets"))
          (invEdgeOf env (jvDelete x "snippets")))
        (edges.map (fun kv => (kv.1, processSummaryEdge env kv.2))) := rfl
  rw [List.nodup_append] at hfresh
  have hmapeq : (aValues edges).map (fun x => invKeyOf env (jvDelete x "snippets")) =
      edges.map (fun kv => summaryEdgeInvKey env kv.2) := by
    show (edges.map (fun kv => kv.2)).map (fun x => invKeyOf env (jvDelete x "snippets")) = _
    rw [List.map_map]
    refine List.map_congr_left ?pw
    intro kv hkv
    obtain ⟨s, o, p, fields, hof, hs, ho, hp, hq, hk⟩ := hshape kv hkv
    obtain ⟨hik, hsk, _, _⟩ := edgeShape_facts env kv.2 s o p fields hof hs ho hp hq
    show invKeyOf env (jvDelete kv.2 "snippets") = summaryEdgeInvKey env kv.2
    rw [hik, hsk]
  have hdisj : ∀ kv ∈ edges, ∀ x ∈ aValues edges,
      invKeyOf env (jvDelete x "snippets") ≠ kv.1 := by
    intro kv hkv x hx heq
    have hxin : invKeyOf env (jvDelete x "snippets") ∈
        edges.map (fun kv => summaryEdgeInvKey env kv.2) := by
      rw [← hmapeq]
      exact List.mem_map_of_mem _ hx
    have hkin : kv.1 ∈ aKeys edges := List.mem_map_of_mem (fun e => e.1) hkv
    exact hfresh.2.2 hkin (heq ▸ hxin)
  intro k e h
  rw [hfin] at h
  rcases foldl_aSet_cases _ _ (aValues edges) _ k e h with hcase | hcase
  · -- e is an inserted inverse edge
    obtain ⟨x, hx, hkx, hvx⟩ := hcase
    obtain ⟨kv, hkv, hkvx⟩ := List.mem_map.mp hx
    subst hkvx
    obtain ⟨s, o, p, fields, hof, hs, ho, hp, hq, hk⟩ := hshape kv hkv
    obtain ⟨hik, hsk, ⟨hps, hpo, hpp, hpq, hpik⟩, ⟨his, hio2, hip2, hiq, hiik⟩⟩ :=
      edgeShape_facts env kv.2 s o p fields hof hs ho hp hq
    have hie : summaryEdgeInvKey env e = kv.1 := by
      rw [← hvx, hiik, hinv, hk]
    refine ⟨processSummaryEdge env kv.2, ?get, ?sub, ?obj, ?pred, ?q, ?back⟩
    case get =>
      rw [hfin, hie]
      rw [foldl_aSet_preserve _ _ (aValues edges) _ kv.1 (hdisj kv hkv)]
      have hmv := aGet_map_vals (fun v => processSummaryEdge env v) edges kv.1
      rw [hmv, aGet_of_mem_nodup (show (kv.1, kv.2) ∈ edges from hkv) hfresh.1]
      rfl
    case sub =>
      rw [hps, ← hvx, hio2]
    case obj =>
      rw [hpo, ← hvx, his]
    case pred =>
      rw [hpp, ← hvx, hip2]
      show JVal.str p = .str (env.invertBiolinkPredicate
        (env.invertBiolinkPredicate p))
      rw [hinv]
    case q => exact hpq
    case back =>
      rw [hpik, ← hkx, hik]
  · -- e is a processed original
    have hmv := aGet_map_vals (fun v => processSummaryEdge env v) edges k
    rw [hmv] at hcase
    rcases hg : aGet edges k with _ | w
    · rw [hg] at hcase
      cases hcase
    · rw [hg] at hcase
      have hw : e = processSummaryEdge env w := (Option.some_inj.mp hcase).symm
      have hkv : (k, w) ∈ edges := aGet_mem hg
      obtain ⟨s, o, p, fields, hof, hs, ho, hp, hq, hk⟩ := hshape (k, w) hkv
      obtain ⟨hik, hsk, ⟨hps, hpo, hpp, hpq, hpik⟩, ⟨his, hio2, hip2, hiq, hiik⟩⟩ :=
        edgeShape_facts env w s o p fields hof hs ho hp hq
      have hie : summaryEdgeInvKey env e = invKeyOf env (jvDelete w "snippets") := by
        rw [hw, hpik, hik]
      refine ⟨invEdgeOf env (jvDelete w "snippets"), ?get, ?sub, ?obj, ?pred, ?q, ?back⟩
      case get =>
        rw [hfin, hie]
        refine foldl_aSet_get _ _ (aValues edges) _ w ?memw ?nod
        · exact List.mem_map_of_mem (fun kv => kv.2) hkv
        · rw [hmapeq]
          exact hfresh.2.1
      case sub =>
        rw [his, hw, hpo]
      case obj =>
        rw [hio2, hw, hps]
      case pred =>
        rw [hip2, hw, hpp]
        rfl
      case q => exact hiq
      case back =>
        rw [hiik, hinv, ← hk]

theorem invertModel_involutive (q : String) : invertModel (invertModel q) = q := by
  by_cases h1 : q = "treats"
  · subst h1
    decide
  · by_cases h2 : q = "affects"
    · subst h2
      decide
    · by_cases h3 : q = "regulates"
      · subst h3
        decide
      · by_cases h4 : q = "treated by"
        · subst h4
          decide
        · by_cases h5 : q = "affected by"
          · subst h5
            decide
          · by_cases h6 : q = "regulated by"
            · subst h6
              decide
            · have hs1 : ¬ ("treats" = q) := fun h => h1 h.symm
              have hs2 : ¬ ("affects" = q) := fun h => h2 h.symm
              have hs3 : ¬ ("regulates" = q) := fun h => h3 h.symm
              have hv1 : ¬ ("treated by" = q) := fun h => h4 h.symm
              have hv2 : ¬ ("affected by" = q) := fun h => h5 h.symm
              have hv3 : ¬ ("regulated by" = q) := fun h => h6 h.symm
              have hx : invertModel q = q := by
                simp [invertModel, aGet, invertTable, List.find?, hs1, hs2, hs3,
                  hv1, hv2, hv3]
              rw [hx, hx]

theorem C1_inverse_edges_witness :
    blEnv.invertBiolinkPredicate "treats" = "treated by" ∧
    ∀ k e,
      aGet (edgesToEdgesAndPublications blEnv
          ((mergedState blEnv (answersCanon [plainAnswer])
              (answersCondensed blEnv 3 [plainAnswer])).edges.map
            (fun kv => (kv.1, cleanSummaryEdge blEnv kv.2)))).1 k = some e →
      ∃ e2, aGet (edgesToEdgesAndPublications blEnv
          ((mergedState blEnv (answersCanon [plainAnswer])
              (answersCondensed blEnv 3 [plainAnswer])).edges.map
            (fun kv => (kv.1, cleanSummaryEdge blEnv kv.2)))).1
          (summaryEdgeInvKey blEnv e) = some e2 ∧
        jvGet e2 "subject" = jvGet e "object" ∧
        jvGet e2 "object" = jvGet e "subject" ∧
        jvGet e2 "predicate" =
          .str (blEnv.invertBiolinkPredicate (jvToString (jvGet e "predicate"))) ∧
        jvHasKey e2 "qualifiers" = false ∧
        summaryEdgeInvKey blEnv e2 = k := by
  refine ⟨by decide, ?main⟩
  have hE : ((mergedState blEnv (answersCanon [plainAnswer])
        (answersCondensed blEnv 3 [plainAnswer])).edges.map
      (fun kv => (kv.1, cleanSummaryEdge blEnv kv.2))) =
      [(pathToKey [.str "C:1", .str "treats", .str "D:1"],
        .obj [("aras", .arr [.str "ara1"]), ("predicate", .str "treats"),
          ("qualifiers", .null), ("subject", .str "C:1"), ("object", .str "D:1"),
          ("iri_types", .arr []), ("snippets", .arr []), ("publications", .arr [])])] := by
    decide
  refine C1_inverse_edges blEnv _ (fun q => invertModel_involutive q) ?shape ?fresh
  · intro kv hkv
    rw [hE, List.mem_singleton] at hkv
    subst hkv
    exact ⟨"C:1", "D:1", "treats",
      [("aras", .arr [.str "ara1"]), ("predicate", .str "treats"),
        ("qualifiers", .null), ("subject", .str "C:1"), ("object", .str "D:1"),
        ("iri_types", .arr []), ("snippets", .arr []), ("publications", .arr [])],
      rfl, by decide, by decide, by decide, by decide, rfl⟩
  · rw [hE]
    decide

/-- C1, counterexample to the claim as stated: on a qualified edge
(c1Answer) the final summary's edges map holds an entry whose inverse key —
the path key of its object, invertBiolinkPredicate of its stored qualified
predicate, and its subject — is absent from the map: the stored predicate is
the composed qualified-predicate string, which invertBiolinkPredicate does
not map to the inverse string under which addInverseEdge keyed the inverse
entry. -/
theorem C1_counterexample :
    ((aGet (creativeAnswersToSummary blEnv 2 "Q1" [c1Answer]).edges
        (pathToKey [.str "C:1", .str "biolink:affects activity of", .str "D:1"])).map
      (fun e => (aGet (creativeAnswersToSummary blEnv 2 "Q1" [c1Answer]).edges
        (summaryEdgeInvKey blEnv e)).isSome)) = some false := by decide

theorem mem_keys_extendSummaryResults :
    ∀ (news : List (HKey × HKey)) (m : List (HKey × List HKey)) (k : HKey),
      k ∈ aKeys (extendSummaryResults m news) ↔ k ∈ aKeys m ∨ ∃ n ∈ news, n.1 = k
  | [], m, k => by simp [extendSummaryResults]
  | n :: news, m, k => by
    show k ∈ aKeys (extendSummaryResults (aSet (aSetDefault m n.1 []) n.1
      (aGetD (aSetDefault m n.1 []) n.1 [] ++ [n.2])) news) ↔ _
    rw [mem_keys_extendSummaryResults news _ k, aKeys_aSet, aKeys_aSetDefault]
    constructor
    · rintro (((h | h) | h) | h)
      · exact Or.inl h
      · exact Or.inr ⟨n, List.mem_cons_self n news, h.symm⟩
      · exact Or.inr ⟨n, List.mem_cons_self n news, h.symm⟩
      · obtain ⟨x, hx, he⟩ := h
        exact Or.inr ⟨x, List.mem_cons_of_mem n hx, he⟩
    · rintro (h | ⟨x, hx, he⟩)
      · exact Or.inl (Or.inl (Or.inl h))
      · rcases List.mem_cons.mp hx with h1 | h1
        · subst h1
          exact Or.inl (Or.inr he.symm)
        · exact Or.inr ⟨x, h1, he⟩

theorem mem_keys_extendSummaryPaths :
    ∀ (news : List (HKey × List HKey)) (m : List (HKey × PathEntry)) (ag : String) (k : HKey),
      k ∈ aKeys (extendSummaryPaths m news ag) ↔ k ∈ aKeys m ∨ ∃ n ∈ news, n.1 = k
  | [], m, ag, k => by simp [extendSummaryPaths]
  | n :: news, m, ag, k => by
    rcases hg : aGet m n.1 with _ | entry
    · have hstep : extendSummaryPaths m (n :: news) ag =
          extendSummaryPaths (m ++ [(n.1, ⟨n.2, [ag]⟩)]) news ag := by
        simp only [extendSummaryPaths, List.foldl_cons, hg]
      rw [hstep, mem_keys_extendSummaryPaths news _ ag k]
      have hka : k ∈ aKeys (m ++ [(n.1, (⟨n.2, [ag]⟩ : PathEntry))]) ↔
          k ∈ aKeys m ∨ k = n.1 := by
        simp [aKeys]
      rw [hka]
      constructor
      · rintro ((h | h) | h)
        · exact Or.inl h
        · exact Or.inr ⟨n, List.mem_cons_self n news, h.symm⟩
        · obtain ⟨x, hx, he⟩ := h
          exact Or.inr ⟨x, List.mem_cons_of_mem n hx, he⟩
      · rintro (h | ⟨x, hx, he⟩)
        · exact Or.inl (Or.inl h)
        · rcases List.mem_cons.mp hx with h1 | h1
          · subst h1
            exact Or.inl (Or.inr he.symm)
          · exact Or.inr ⟨x, h1, he⟩
    · have hstep : extendSummaryPaths m (n :: news) ag =
          extendSummaryPaths (aSet m n.1 ⟨entry.subgraph, entry.aras ++ [ag]⟩) news ag := by
        simp only [extendSummaryPaths, List.foldl_cons, hg]
      rw [hstep, mem_keys_extendSummaryPaths news _ ag k, aKeys_aSet]
      constructor
      · rintro ((h | h) | h)
        · exact Or.inl h
        · exact Or.inr ⟨n, List.mem_cons_self n news, h.symm⟩
        · obtain ⟨x, hx, he⟩ := h
          exact Or.inr ⟨x, List.mem_cons_of_mem n hx, he⟩
      · rintro (h | ⟨x, hx, he⟩)
        · exact Or.inl (Or.inl h)
        · rcases List.mem_cons.mp hx with h1 | h1
          · subst h1
            exact Or.inl (Or.inr he.symm)
          · exact Or.inr ⟨x, h1, he⟩

theorem mem_keys_extendSummaryObj (rules : JVal → List (JVal → JVal)) (ag : String) :
    ∀ (updates : List NodeUpdate) (m : List (HKey × JVal)) (k : HKey),
      k ∈ aKeys (extendSummaryObj rules m updates ag) ↔
        k ∈ aKeys m ∨ ∃ u ∈ updates, u.key = k
  | [], m, k => by simp [extendSummaryObj]
  | u :: updates, m, k => by
    show k ∈ aKeys (extendSummaryObj rules (aSet (aSetDefault m u.key _) u.key _)
      updates ag) ↔ _
    rw [mem_keys_extendSummaryObj rules ag updates _ k, aKeys_aSet, aKeys_aSetDefault]
    constructor
    · rintro (((h | h) | h) | h)
      · exact Or.inl h
      · exact Or.inr ⟨u, List.mem_cons_self u updates, h.symm⟩
      · exact Or.inr ⟨u, List.mem_cons_self u updates, h.symm⟩
      · obtain ⟨x, hx, he⟩ := h
        exact Or.inr ⟨x, List.mem_cons_of_mem u hx, he⟩
    · rintro (h | ⟨x, hx, he⟩)
      · exact Or.inl (Or.inl (Or.inl h))
      · rcases List.mem_cons.mp hx with h1 | h1
        · subst h1
          exact Or.inl (Or.inr he.symm)
        · exact Or.inr ⟨x, h1, he⟩

theorem mem_keys_merged (env : BiolinkEnv) (canon : String → Option String) :
    ∀ (csl : List CondensedSummary) (st : MergeState) (k : HKey),
      (k ∈ aKeys (csl.foldl (mergeStateStep env canon) st).results ↔
        k ∈ aKeys st.results ∨ ∃ cs ∈ csl, ∃ p ∈ cs.fragment.paths, p.headD .fls = k) ∧
      (k ∈ aKeys (csl.foldl (mergeStateStep env canon) st).paths ↔
        k ∈ aKeys st.paths ∨ ∃ cs ∈ csl, ∃ p ∈ cs.fragment.paths, pathToKey p = k) ∧
      (k ∈ aKeys (csl.foldl (mergeStateStep env canon) st).edges ↔
        k ∈ aKeys st.edges ∨ ∃ cs ∈ csl, ∃ u ∈ cs.fragment.edges, u.key = k)
  | [], st, k => by simp
  | cs :: csl, st, k => by
    obtain ⟨ihr, ihp, ihe⟩ := mem_keys_merged env canon csl (mergeStateStep env canon st cs) k
    have hnewr : ∀ x, (∃ n ∈ (fragmentPathsToResultsAndPaths cs.fragment.paths).1, n.1 = x)
        ↔ ∃ p ∈ cs.fragment.paths, p.headD .fls = x := by
      intro x
      simp only [fragmentPathsToResultsAndPaths, List.mem_map]
      constructor
      · rintro ⟨n, ⟨p, hp, hn⟩, he⟩
        exact ⟨p, hp, by rw [← he, ← hn]⟩
      · rintro ⟨p, hp, he⟩
        exact ⟨(p.headD .fls, pathToKey p), ⟨p, hp, rfl⟩, he⟩
    have hnewp : ∀ x, (∃ n ∈ (fragmentPathsToResultsAndPaths cs.fragment.paths).2, n.1 = x)
        ↔ ∃ p ∈ cs.fragment.paths, pathToKey p = x := by
      intro x
      simp only [fragmentPathsToResultsAndPaths, List.mem_map]
      constructor
      · rintro ⟨n, ⟨p, hp, hn⟩, he⟩
        exact ⟨p, hp, by rw [← he, ← hn]⟩
      · rintro ⟨p, hp, he⟩
        exact ⟨(pathToKey p, p), ⟨p, hp, rfl⟩, he⟩
    refine ⟨?r, ?p, ?e⟩
    case r =>
      rw [List.foldl_cons, ihr]
      rw [show (mergeStateStep env canon st cs).results = extendSummaryResults st.results
        (fragmentPathsToResultsAndPaths cs.fragment.paths).1 from rfl]
      rw [mem_keys_extendSummaryResults, hnewr]
      constructor
      · rintro ((h | h) | ⟨cs2, hcs2, hp2⟩)
        · exact Or.inl h
        · obtain ⟨p, hp, he⟩ := h
          exact Or.inr ⟨cs, List.mem_cons_self cs csl, p, hp, he⟩
        · exact Or.inr ⟨cs2, List.mem_cons_of_mem cs hcs2, hp2⟩
      · rintro (h | ⟨cs2, hcs2, hp2⟩)
        · exact Or.inl (Or.inl h)
        · rcases List.mem_cons.mp hcs2 with h1 | h1
          · subst h1
            exact Or.inl (Or.inr hp2)
          · exact Or.inr ⟨cs2, h1, hp2⟩
    case p =>
      rw [List.foldl_cons, ihp]
      rw [show (mergeStateStep env canon st cs).paths = extendSummaryPaths st.paths
        (fragmentPathsToResultsAndPaths cs.fragment.paths).2 cs.agent from rfl]
      rw [mem_keys_extendSummaryPaths, hnewp]
      constructor
      · rintro ((h | h) | ⟨cs2, hcs2, hp2⟩)
        · exact Or.inl h
        · obtain ⟨p, hp, he⟩ := h
          exact Or.inr ⟨cs, List.mem_cons_self cs csl, p, hp, he⟩
        · exact Or.inr ⟨cs2, List.mem_cons_of_mem cs hcs2, hp2⟩
      · rintro (h | ⟨cs2, hcs2, hp2⟩)
        · exact Or.inl (Or.inl h)
        · rcases List.mem_cons.mp hcs2 with h1 | h1
          · subst h1
            exact Or.inl (Or.inr hp2)
          · exact Or.inr ⟨cs2, h1, hp2⟩
    case e =>
      rw [List.foldl_cons, ihe]
      rw [show (mergeStateStep env canon st cs).edges = extendSummaryEdges env canon st.edges
        cs.fragment.edges cs.agent from rfl]
      rw [show extendSummaryEdges env canon st.edges cs.fragment.edges cs.agent =
        extendSummaryObj (edgeRules env canon) st.edges
          (cs.fragment.edges.map (fun u => ⟨u.key, u.src⟩)) cs.agent from rfl]
      rw [mem_keys_extendSummaryObj]
      have hne : (∃ u ∈ cs.fragment.edges.map (fun u => (⟨u.key, u.src⟩ : NodeUpdate)),
          u.key = k) ↔ ∃ u ∈ cs.fragment.edges, u.key = k := by
        simp only [List.mem_map]
        constructor
        · rintro ⟨n, ⟨u, hu, hn⟩, he⟩
          exact ⟨u, hu, by rw [← he, ← hn]⟩
        · rintro ⟨u, hu, he⟩
          exact ⟨⟨u.key, u.src⟩, ⟨u, hu, rfl⟩, he⟩
      rw [hne]
      constructor
      · rintro ((h | h) | ⟨cs2, hcs2, hp2⟩)
        · exact Or.inl h
        · obtain ⟨u, hu, he⟩ := h
          exact Or.inr ⟨cs, List.mem_cons_self cs csl, u, hu, he⟩
        · exact Or.inr ⟨cs2, List.mem_cons_of_mem cs hcs2, hp2⟩
      · rintro (h | ⟨cs2, hcs2, hp2⟩)
        · exact Or.inl (Or.inl h)
        · rcases List.mem_cons.mp hcs2 with h1 | h1
          · subst h1
            exact Or.inl (Or.inr hp2)
          · exact Or.inr ⟨cs2, h1, hp2⟩

theorem aKeys_map_vals {κ α β : Type} (g : κ × α → β) :
    ∀ (m : List (κ × α)), aKeys (m.map (fun kv => (kv.1, g kv))) = aKeys m
  | [] => rfl
  | kv :: m => by
    show kv.1 :: aKeys (List.map (fun kv => (kv.1, g kv)) m) = kv.1 :: aKeys m
    rw [aKeys_map_vals g m]

/-- C3 (amended): with the canonical node mapping held fixed, permuting the
condensed summaries leaves unchanged the set of result drug keys and the set
of edge keys of the accumulated tables and the set of path keys of the final
summary.  (Permuting the agent list itself changes the canonical node
mapping, which already changes the produced keys: see the counterexample.) -/
theorem C3_agent_permutation (env : BiolinkEnv) (canon : String → Option String)
    (qid : String) (csl1 csl2 : List CondensedSummary) (hperm : csl1.Perm csl2) :
    (∀ k, k ∈ aKeys (mergedState env canon csl1).results ↔
      k ∈ aKeys (mergedState env canon csl2).results) ∧
    (∀ k, k ∈ aKeys (condensedSummariesToSummary env canon qid csl1).paths ↔
      k ∈ aKeys (condensedSummariesToSummary env canon qid csl2).paths) ∧
    (∀ k, k ∈ aKeys (mergedState env canon csl1).edges ↔
      k ∈ aKeys (mergedState env canon csl2).edges) := by
  have hex : ∀ (P : CondensedSummary → Prop),
      (∃ cs ∈ csl1, P cs) ↔ ∃ cs ∈ csl2, P cs := by
    intro P
    constructor
    · rintro ⟨cs, hcs, hp⟩
      exact ⟨cs, hperm.mem_iff.mp hcs, hp⟩
    · rintro ⟨cs, hcs, hp⟩
      exact ⟨cs, hperm.mem_iff.mpr hcs, hp⟩
  have h1 := fun k => mem_keys_merged env canon csl1 ⟨[], [], [], [], []⟩ k
  have h2 := fun k => mem_keys_merged env canon csl2 ⟨[], [], [], [], []⟩ k
  refine ⟨?r, ?p, ?e⟩
  case r =>
    intro k
    rw [show (mergedState env canon csl1).results =
      (csl1.foldl (mergeStateStep env canon) ⟨[], [], [], [], []⟩).results from rfl]
    rw [show (mergedState env canon csl2).results =
      (csl2.foldl (mergeStateStep env canon) ⟨[], [], [], [], []⟩).results from rfl]
    rw [(h1 k).1, (h2 k).1]
    rw [hex (fun cs => ∃ p ∈ cs.fragment.paths, p.headD .fls = k)]
  case p =>
    intro k
    rw [show (condensedSummariesToSummary env canon qid csl1).paths =
      (mergedState env canon csl1).paths.map
        (fun kv => (kv.1, PathEntry.mk (jsDedup kv.2.subgraph) (jsDedup kv.2.aras)))
      from rfl]
    rw [show (condensedSummariesToSummary env canon qid csl2).paths =
      (mergedState env canon csl2).paths.map
        (fun kv => (kv.1, PathEntry.mk (jsDedup kv.2.subgraph) (jsDedup kv.2.aras)))
      from rfl]
    rw [aKeys_map_vals, aKeys_map_vals]
    rw [show (mergedState env canon csl1).paths =
      (csl1.foldl (mergeStateStep env canon) ⟨[], [], [], [], []⟩).paths from rfl]
    rw [show (mergedState env canon csl2).paths =
      (csl2.foldl (mergeStateStep env canon) ⟨[], [], [], [], []⟩).paths from rfl]
    rw [(h1 k).2.1, (h2 k).2.1]
    rw [hex (fun cs => ∃ p ∈ cs.fragment.paths, pathToKey p = k)]
  case e =>
    intro k
    rw [show (mergedState env canon csl1).edges =
      (csl1.foldl (mergeStateStep env canon) ⟨[], [], [], [], []⟩).edges from rfl]
    rw [show (mergedState env canon csl2).edges =
      (csl2.foldl (mergeStateStep env canon) ⟨[], [], [], [], []⟩).edges from rfl]
    rw [(h1 k).2.2, (h2 k).2.2]
    rw [hex (fun cs => ∃ u ∈ cs.fragment.edges, u.key = k)]

/-- C3, counterexample to the claim as stated: the two agents assert aliased
drugs X:1 and Y:1 (both aliased to Z:1); permuting the agent list changes
which CURIE the canonical node mapping picks, so the set of result drug keys
of the final summary changes from {Y:1} to {X:1}. -/
theorem C3_counterexample :
    resultSubjects (creativeAnswersToSummary blEnv 3 "Q" [c3AnswerA, c3AnswerB])
        = [.str "Y:1"] ∧
    resultSubjects (creativeAnswersToSummary blEnv 3 "Q" [c3AnswerB, c3AnswerA])
        = [.str "X:1"] := by decide

theorem C3_agent_permutation_witness :
    (∀ k, k ∈ aKeys (mergedState blEnv (answersCanon [c3AnswerA, c3AnswerB])
        (answersCondensed blEnv 3 [c3AnswerA, c3AnswerB])).results ↔
      k ∈ aKeys (mergedState blEnv (answersCanon [c3AnswerA, c3AnswerB])
        ((answersCondensed blEnv 3 [c3AnswerA, c3AnswerB]).reverse)).results) ∧
    (∀ k, k ∈ aKeys (condensedSummariesToSummary blEnv
        (answersCanon [c3AnswerA, c3AnswerB]) "Q"
        (answersCondensed blEnv 3 [c3AnswerA, c3AnswerB])).paths ↔
      k ∈ aKeys (condensedSummariesToSummary blEnv
        (answersCanon [c3AnswerA, c3AnswerB]) "Q"
        ((answersCondensed blEnv 3 [c3AnswerA, c3AnswerB]).reverse)).paths) ∧
    (∀ k, k ∈ aKeys (mergedState blEnv (answersCanon [c3AnswerA, c3AnswerB])
        (answersCondensed blEnv 3 [c3AnswerA, c3AnswerB])).edges ↔
      k ∈ aKeys (mergedState blEnv (answersCanon [c3AnswerA, c3AnswerB])
        ((answersCondensed blEnv 3 [c3AnswerA, c3AnswerB]).reverse)).edges) :=
  C3_agent_permutation blEnv (answersCanon [c3AnswerA, c3AnswerB]) "Q"
    (answersCondensed blEnv 3 [c3AnswerA, c3AnswerB])
    ((answersCondensed blEnv 3 [c3AnswerA, c3AnswerB]).reverse)
    (List.reverse_perm (answersCondensed blEnv 3 [c3AnswerA, c3AnswerB])).symm

theorem pathProc_eq_none (out : String → List OutEdge) (canon : String → Option String)
    (disease : String) (L : Nat) (p : List String) (h : p.getLast? = none) :
    pathProc out canon disease L p = ([], []) := by
  simp only [pathProc, h]

theorem pathProc_eq_long (out : String → List OutEdge) (canon : String → Option String)
    (disease : String) (L : Nat) (p : List String) (c : String) (h : p.getLast? = some c)
    (hl : L < p.length) : pathProc out canon disease L p = ([], []) := by
  simp only [pathProc, h]
  rw [if_pos hl]

theorem pathProc_eq_dis (out : String → List OutEdge) (canon : String → Option String)
    (disease : String) (L : Nat) (p : List String) (c : String) (h : p.getLast? = some c)
    (hl : ¬ L < p.length) (hd : c = disease) :
    pathProc out canon disease L p = ([], [p]) := by
  simp only [pathProc, h]
  rw [if_neg hl, if_pos hd]

theorem pathProc_eq_ext (out : String → List OutEdge) (canon : String → Option String)
    (disease : String) (L : Nat) (p : List String) (c : String) (h : p.getLast? = some c)
    (hl : ¬ L < p.length) (hd : ¬ c = disease) :
    pathProc out canon disease L p =
      (((out c).filter
          (fun edge => !p.contains edge.target && (canon edge.target).isSome)).map
        (fun edge => p ++ [edge.redge, edge.target]), []) := by
  simp only [pathProc, h]
  rw [if_neg hl, if_neg hd]

theorem pathProc_res_mem (out : String → List OutEdge) (canon : String → Option String)
    (disease : String) (L : Nat) (p q : List String) :
    q ∈ (pathProc out canon disease L p).2 ↔
      ∃ c, p.getLast? = some c ∧ ¬ (L < p.length) ∧ c = disease ∧ q = p := by
  rcases hlast : p.getLast? with _ | c
  · rw [pathProc_eq_none out canon disease L p hlast]
    constructor
    · intro h
      cases h
    · rintro ⟨c, hc, _⟩
      cases hc
  · by_cases hl : L < p.length
    · rw [pathProc_eq_long out canon disease L p c hlast hl]
      constructor
      · intro h
        cases h
      · rintro ⟨c2, _, hl2, _⟩
        exact absurd hl hl2
    · by_cases hd : c = disease
      · rw [pathProc_eq_dis out canon disease L p c hlast hl hd]
        constructor
        · intro h
          rw [List.mem_singleton] at h
          exact ⟨c, rfl, hl, hd, h⟩
        · rintro ⟨c2, _, _, _, hq⟩
          rw [List.mem_singleton]
          exact hq
      · rw [pathProc_eq_ext out canon disease L p c hlast hl hd]
        constructor
        · intro h
          cases h
        · rintro ⟨c2, hc2, _, hd2, _⟩
          rw [← Option.some_inj.mp hc2] at hd2
          exact absurd hd2 hd

theorem pathProc_ext_mem (out : String → List OutEdge) (canon : String → Option String)
    (disease : String) (L : Nat) (p q : List String) :
    q ∈ (pathProc out canon disease L p).1 ↔
      ∃ c edge, p.getLast? = some c ∧ ¬ (L < p.length) ∧ c ≠ disease ∧ edge ∈ out c ∧
        edge.target ∉ p ∧ (canon edge.target).isSome = true ∧
        q = p ++ [edge.redge, edge.target] := by
  rcases hlast : p.getLast? with _ | c
  · rw [pathProc_eq_none out canon disease L p hlast]
    constructor
    · intro h
      cases h
    · rintro ⟨c, e, hc, _⟩
      cases hc
  · by_cases hl : L < p.length
    · rw [pathProc_eq_long out canon disease L p c hlast hl]
      constructor
      · intro h
        cases h
      · rintro ⟨c2, e, _, hl2, _⟩
        exact absurd hl hl2
    · by_cases hd : c = disease
      · rw [pathProc_eq_dis out canon disease L p c hlast hl hd]
        constructor
        · intro h
          cases h
        · rintro ⟨c2, e, hc2, _, hd2, _⟩
          rw [← Option.some_inj.mp hc2] at hd2
          exact absurd hd hd2
      · rw [pathProc_eq_ext out canon disease L p c hlast hl hd]
        constructor
        · intro h
          rw [List.mem_map] at h
          obtain ⟨e, he, hq⟩ := h
          rw [List.mem_filter] at he
          have hcond := he.2
          rw [Bool.and_eq_true, Bool.not_eq_true'] at hcond
          refine ⟨c, e, rfl, hl, hd, he.1, ?notin, hcond.2, hq.symm⟩
          intro hin
          have hct : p.contains e.target = true := List.elem_iff.mpr hin
          rw [hct] at hcond
          exact Bool.false_ne_true hcond.1.symm
        · rintro ⟨c2, e, hc2, _, _, hmem, hnotin, hcanon, hq⟩
          rw [← Option.some_inj.mp hc2] at hmem
          rw [List.mem_map]
          refine ⟨e, ?infil, hq.symm⟩
          rw [List.mem_filter]
          refine ⟨hmem, ?cond⟩
          rw [Bool.and_eq_true, Bool.not_eq_true']
          refine ⟨?nc, hcanon⟩
          rcases hcc : p.contains e.target with _ | _
          · rfl
          · exact absurd (List.elem_iff.mp hcc) hnotin

theorem childWeight_lt (proc : List String → List (List String) × List (List String))
    (w : List String → Nat) (hdec : ∀ p, (((proc p).1.map w).sum < w p))
    (p c : List String) (hc : c ∈ (proc p).1) : w c < w p :=
  lt_of_le_of_lt
    (List.single_le_sum (fun x _ => Nat.zero_le x) _ (List.mem_map_of_mem w hc))
    (hdec p)

theorem completionsFuel_stable (proc : List String → List (List String) × List (List String))
    (w : List String → Nat) (hdec : ∀ p, (((proc p).1.map w).sum < w p)) :
    ∀ (F1 : Nat) (p : List String) (F2 : Nat), w p ≤ F1 → w p ≤ F2 →
      completionsFuel proc F1 p = completionsFuel proc F2 p := by
  intro F1
  induction F1 with
  | zero =>
    intro p F2 h1 _
    exact absurd (hdec p) (by omega)
  | succ F1 ih =>
    intro p F2 h1 h2
    have hwp : 1 ≤ w p := by
      have := hdec p
      omega
    cases F2 with
    | zero => omega
    | succ F2 =>
      show completionsFuel proc (F1 + 1) p = completionsFuel proc (F2 + 1) p
      rw [completionsFuel, completionsFuel]
      congr 1
      congr 1
      refine List.map_congr_left ?pw
      intro c hc
      have hlt : w c < w p := childWeight_lt proc w hdec p c hc
      exact ih c F2 (by omega) (by omega)

theorem rgraphFold_mem (proc : List String → List (List String) × List (List String))
    (w : List String → Nat) (hdec : ∀ p, (((proc p).1.map w).sum < w p)) :
    ∀ (fuel : Nat) (objLeft res : List (List String)),
      (objLeft.map w).sum ≤ fuel →
      ∀ q, q ∈ rgraphFold proc fuel objLeft res ↔
        q ∈ res ∨ ∃ p ∈ objLeft, q ∈ completionsFuel proc (w p) p := by
  intro fuel
  induction fuel with
  | zero =>
    intro objLeft res hsum q
    cases objLeft with
    | nil => simp [rgraphFold]
    | cons p l =>
      exfalso
      have hwp : 1 ≤ w p := by
        have := hdec p
        omega
      rw [List.map_cons, List.sum_cons] at hsum
      omega
  | succ fuel ih =>
    intro objLeft res hsum q
    rcases hlast : objLeft.getLast? with _ | p
    · have hnil : objLeft = [] := by
        cases objLeft with
        | nil => rfl
        | cons a l => simp at hlast
      subst hnil
      show q ∈ res ↔ _
      simp
    · have hne : objLeft ≠ [] := by
        intro h
        rw [h] at hlast
        cases hlast
      have hlasteq : objLeft.getLast hne = p := by
        have := List.getLast?_eq_getLast objLeft hne
        rw [hlast] at this
        exact (Option.some_inj.mp this).symm
      have hsplit : objLeft = objLeft.dropLast ++ [p] := by
        conv_lhs => rw [← List.dropLast_append_getLast hne]
        rw [hlasteq]
      have hunf : rgraphFold proc (fuel + 1) objLeft res =
          rgraphFold proc fuel (objLeft.dropLast ++ (proc p).1) (res ++ (proc p).2) := by
        rw [rgraphFold, hlast]
      have hsum2 : ((objLeft.dropLast ++ (proc p).1).map w).sum ≤ fuel := by
        have hA : ((objLeft.dropLast ++ (proc p).1).map w).sum =
            (objLeft.dropLast.map w).sum + (((proc p).1.map w).sum) := by
          rw [List.map_append, List.sum_append]
        have hBs : ((objLeft.map w).sum) = (objLeft.dropLast.map w).sum + w p := by
          conv_lhs => rw [hsplit]
          rw [List.map_append, List.sum_append]
          simp
        have hC := hdec p
        omega
      rw [hunf, ih _ _ hsum2 q]
      have hwp : 1 ≤ w p := by
        have := hdec p
        omega
      obtain ⟨F, hF⟩ : ∃ F, w p = F + 1 := ⟨w p - 1, by omega⟩
      constructor
      · rintro (hq | ⟨p2, hp2, hcf⟩)
        · rcases List.mem_append.mp hq with h | h
          · exact Or.inl h
          · refine Or.inr ⟨p, ?memp, ?incf⟩
            · rw [hsplit]
              exact List.mem_append_right _ (List.mem_singleton_self p)
            · rw [hF, completionsFuel]
              exact List.mem_append_left _ h
        · rcases List.mem_append.mp hp2 with h | h
          · refine Or.inr ⟨p2, ?m2, hcf⟩
            rw [hsplit]
            exact List.mem_append_left _ h
          · refine Or.inr ⟨p, ?m3, ?cl⟩
            · rw [hsplit]
              exact List.mem_append_right _ (List.mem_singleton_self p)
            · rw [hF, completionsFuel]
              refine List.mem_append_right _ ?flat
              rw [List.mem_flatten]
              refine ⟨completionsFuel proc F p2, List.mem_map_of_mem _ h, ?st⟩
              have hlt : w p2 < w p := childWeight_lt proc w hdec p p2 h
              rw [completionsFuel_stable proc w hdec F p2 (w p2) (by omega) (le_refl _)]
              exact hcf
      · rintro (hq | ⟨p2, hp2, hcf⟩)
        · exact Or.inl (List.mem_append_left _ hq)
        · rw [hsplit] at hp2
          rcases List.mem_append.mp hp2 with h | h
          · exact Or.inr ⟨p2, List.mem_append_left _ h, hcf⟩
          · rw [List.mem_singleton] at h
            subst h
            rw [hF, completionsFuel] at hcf
            rcases List.mem_append.mp hcf with h | h
            · exact Or.inl (List.mem_append_right _ h)
            · rw [List.mem_flatten] at h
              obtain ⟨l2, hl2, hql2⟩ := h
              rw [List.mem_map] at hl2
              obtain ⟨c, hc, hceq⟩ := hl2
              refine Or.inr ⟨c, List.mem_append_right _ hc, ?cfc⟩
              have hlt : w c < w p2 := childWeight_lt proc w hdec p2 c hc
              rw [completionsFuel_stable proc w hdec (w c) c F (le_refl _) (by omega)]
              rw [hceq]
              exact hql2

theorem completions_sound (out : String → List OutEdge) (canon : String → Option String)
    (disease drug : String) (L : Nat) :
    ∀ (F : Nat) (p0 : List String),
      ExtensionPath out canon disease drug p0 →
      ∀ q ∈ completionsFuel (pathProc out canon disease L) F p0,
        ExtensionPath out canon disease drug q ∧ q.getLast? = some disease ∧
          q.length ≤ L := by
  intro F
  induction F with
  | zero =>
    intro p0 _ q hq
    cases hq
  | succ F ih =>
    intro p0 hp0 q hq
    rw [completionsFuel] at hq
    rcases List.mem_append.mp hq with h | h
    · rw [pathProc_res_mem] at h
      obtain ⟨c, hlast, hl, hcd, hq2⟩ := h
      subst hq2
      exact ⟨hp0, by rw [hlast, hcd], by omega⟩
    · rw [List.mem_flatten] at h
      obtain ⟨l2, hl2, hql2⟩ := h
      rw [List.mem_map] at hl2
      obtain ⟨c, hc, hceq⟩ := hl2
      rw [pathProc_ext_mem] at hc
      obtain ⟨cur, e, hlast, hl, hcd, hmem, hnotin, hcanon, hceq2⟩ := hc
      subst hceq2
      have hEP : ExtensionPath out canon disease drug (p0 ++ [e.redge, e.target]) :=
        .step p0 cur e hp0 hlast hcd hmem hnotin hcanon
      rw [← hceq] at hql2
      exact ih _ hEP q hql2

theorem completions_lift (out : String → List OutEdge) (canon : String → Option String)
    (disease drug : String) (L B : Nat) (hB : ∀ c, (out c).length + 2 ≤ B) :
    ∀ (p : List String), ExtensionPath out canon disease drug p → p.length ≤ L →
      ∀ q, q ∈ completionsFuel (pathProc out canon disease L) (pathWeight L B p) p →
        q ∈ completionsFuel (pathProc out canon disease L)
          (pathWeight L B [drug]) [drug] := by
  intro p hEP
  induction hEP with
  | base =>
    intro _ q hq
    exact hq
  | step p cur e hp hlast hcd hmem hnotin hcanon ih =>
    intro hlen q hq
    have hdec := pathProcDec out canon disease L B hB
    have hlen2 : p.length ≤ L := by
      rw [List.length_append, List.length_cons, List.length_cons, List.length_nil] at hlen
      omega
    have hchild : (p ++ [e.redge, e.target]) ∈ (pathProc out canon disease L p).1 := by
      rw [pathProc_ext_mem]
      exact ⟨cur, e, hlast, by omega, hcd, hmem, hnotin, hcanon, rfl⟩
    have hBpos : 0 < B := by
      have := hB ""
      omega
    have hwp : 1 ≤ pathWeight L B p := pow_pos hBpos _
    obtain ⟨F, hF⟩ : ∃ F, pathWeight L B p = F + 1 := ⟨pathWeight L B p - 1, by omega⟩
    have hq2 : q ∈ completionsFuel (pathProc out canon disease L) (pathWeight L B p) p := by
      rw [hF, completionsFuel]
      refine List.mem_append_right _ ?f
      rw [List.mem_flatten]
      refine ⟨_, List.mem_map_of_mem _ hchild, ?st⟩
      have hlt := childWeight_lt _ _ hdec p _ hchild
      rw [completionsFuel_stable _ _ hdec F (p ++ [e.redge, e.target])
        (pathWeight L B (p ++ [e.redge, e.target])) (by omega) (le_refl _)]
      exact hq
    exact ih hlen2 q hq2

theorem completions_complete (out : String → List OutEdge) (canon : String → Option String)
    (disease drug : String) (L B : Nat) (hB : ∀ c, (out c).length + 2 ≤ B) :
    ∀ q, ExtensionPath out canon disease drug q → q.getLast? = some disease →
      q.length ≤ L →
      q ∈ completionsFuel (pathProc out canon disease L) (pathWeight L B [drug]) [drug] := by
  intro q hEP hld hlen
  have hBpos : 0 < B := by
    have := hB ""
    omega
  have hwq : 1 ≤ pathWeight L B q := pow_pos hBpos _
  obtain ⟨F, hF⟩ : ∃ F, pathWeight L B q = F + 1 := ⟨pathWeight L B q - 1, by omega⟩
  have hself : q ∈ completionsFuel (pathProc out canon disease L) (pathWeight L B q) q := by
    rw [hF, completionsFuel]
    refine List.mem_append_left _ ?y
    rw [pathProc_res_mem]
    exact ⟨disease, hld, by omega, rfl, rfl⟩
  exact completions_lift out canon disease drug L B hB q hEP hlen q hself

/-- C2: the path finder over the reduced graph of a result yields exactly
the extension paths from the drug binding — built by repeatedly leaving the
current end node, when it is not the disease, through an out-edge of the
undirected adjacency whose target is not already in the path and has a
canonical mapping different from false — that end at the disease binding and
have at most 2*maxHops+1 elements. -/
theorem C2_path_finder (canon : String → Option String) (maxHops : Nat)
    (rgraph : Rgraph) (kgraph : Kgraph) (drug disease : String) (q : List String) :
    q ∈ resultRgraphPaths canon maxHops rgraph kgraph drug disease ↔
      (ExtensionPath (makeRnodeToOutEdges rgraph kgraph) canon disease drug q ∧
       q.getLast? = some disease ∧ q.length ≤ 2 * maxHops + 1) := by
  have hB : ∀ c, ((makeRnodeToOutEdges rgraph kgraph) c).length + 2 ≤
      outBound rgraph kgraph := outBoundPf rgraph kgraph
  have hdec := pathProcDec (makeRnodeToOutEdges rgraph kgraph) canon disease
    (2 * maxHops + 1) (outBound rgraph kgraph) hB
  have hfold := rgraphFold_mem
    (pathProc (makeRnodeToOutEdges rgraph kgraph) canon disease (2 * maxHops + 1))
    (pathWeight (2 * maxHops + 1) (outBound rgraph kgraph)) hdec
    (pathWeight (2 * maxHops + 1) (outBound rgraph kgraph) [drug]) [[drug]] []
    (by simp) q
  rw [show resultRgraphPaths canon maxHops rgraph kgraph drug disease =
    rgraphFold (pathProc (makeRnodeToOutEdges rgraph kgraph) canon disease (2 * maxHops + 1))
      (pathWeight (2 * maxHops + 1) (outBound rgraph kgraph) [drug]) [[drug]] [] from rfl]
  rw [hfold]
  constructor
  · rintro (h | ⟨p, hp, hcf⟩)
    · cases h
    · rw [List.mem_singleton] at hp
      subst hp
      exact completions_sound (makeRnodeToOutEdges rgraph kgraph) canon disease drug
        (2 * maxHops + 1) _ [drug] ExtensionPath.base q hcf
  · rintro ⟨hEP, hld, hlen⟩
    exact Or.inr ⟨[drug], List.mem_singleton_self [drug],
      completions_complete (makeRnodeToOutEdges rgraph kgraph) canon disease drug
        (2 * maxHops + 1) (outBound rgraph kgraph) hB q hEP hld hlen⟩
